import Mathlib

/-!
# Verification of the `earclip` triangulation library (Open-S2/earclip)

Shallow embedding of `src/earcut.ts` (ear-clipping triangulation engine) and of
the grid re-tessellator `tesselate` / `splitIfNecessary` / `splitRight` /
`splitLeft` / `createVertex` from `src/index.ts`.

Modelling conventions:
* JS numbers are modelled as exact rationals `ℚ` (the algorithm only uses
  field operations and comparisons); the JS `NaN` produced by `x % 0` is
  modelled by `Option ℚ` at the single place it can arise (`mod2`).
* JS arrays are Lean `List`s; out-of-range reads (which yield `undefined` in
  JS and only occur for malformed input) are modelled by `getD` with default 0.
* Loops are modelled by structural recursion on an explicit `fuel : ℕ`;
  `none` means the fuel was exhausted.  Termination claims then become
  `∃ fuel, … = some …` theorems.
-/

namespace Earclip

/-- Truncation of a rational toward zero, as JS float-to-int conversion does. -/
def ratTrunc (q : ℚ) : ℤ := if 0 ≤ q then ⌊q⌋ else ⌈q⌉

/-- The JS remainder `x % n` for `n ≠ 0`: `x - n * trunc (x / n)` (sign of the dividend). -/
def jsRem (x n : ℚ) : ℚ := x - n * (ratTrunc (x / n) : ℚ)

/-- `mod2` from `src/index.ts`: `((x % n) + n) % n`.  When `n = 0` the JS
result is `NaN`, modelled as `none`. -/
def mod2 (x n : ℚ) : Option ℚ :=
  if n = 0 then none else some (jsRem (jsRem x n + n) n)

/-- The mutable pair `(vertices, indices)` that `tesselate` works on. -/
structure TState where
  vertices : List ℚ
  indices : List ℕ
deriving Repr, DecidableEq

/-- `vertices[k]` with JS out-of-range reads defaulted to 0. -/
def vget (st : TState) (k : ℕ) : ℚ := st.vertices.getD k 0

/-- Append index values to the `indices` list (JS `indices.push(...)`). -/
def pushI (st : TState) (l : List ℕ) : TState := { st with indices := st.indices ++ l }

/-- `createVertex` from `src/index.ts`: appends one interpolated vertex
(`dim` coordinates; the split axis gets exactly `splitPoint`, every other axis
is interpolated with the fraction derived from the split axis) and returns its
logical index `vertices.length / dim`. -/
def createVertex (splitPoint : ℚ) (i1 i2 : ℕ) (v1 v2 : ℚ) (st : TState)
    (dim axis : ℕ) : TState × ℕ :=
  let index := st.vertices.length / dim
  let travelDivisor := (v2 - v1) / (splitPoint - v1)
  let newCoords := (List.range dim).map (fun i =>
    if i ≠ axis then
      let va1 := vget st (i1 * dim + i)
      let va2 := vget st (i2 * dim + i)
      va1 + (va2 - va1) / travelDivisor
    else splitPoint)
  ({ st with vertices := st.vertices ++ newCoords }, index)

/-- The strip-generating `while` loop shared by both branches of `splitRight`
(`while (modPoint < bound) { … modPoint += modulo }`); returns the final
`(state, i12, i13)`. -/
def splitRightLoop (fuel : ℕ) (modPoint bound : ℚ) (i1 i2 i3 i12 i13 : ℕ)
    (v1 v2 v3 : ℚ) (st : TState) (dim axis : ℕ) (modulo : ℚ) :
    Option (TState × ℕ × ℕ) :=
  match fuel with
  | 0 => none
  | fuel + 1 =>
    if modPoint < bound then
      let st := pushI st [i13, i12]
      let p := createVertex modPoint i1 i3 v1 v3 st dim axis
      let st := pushI p.1 [p.2, p.2, i12]
      let q := createVertex modPoint i1 i2 v1 v2 st dim axis
      let st := pushI q.1 [q.2]
      splitRightLoop fuel (modPoint + modulo) bound i1 i2 i3 q.2 p.2 v1 v2 v3 st dim axis modulo
    else some (st, i12, i13)

/-- The strip-generating `while` loop shared by both branches of `splitLeft`
(`while (modPoint > bound) { … modPoint -= modulo }`). -/
def splitLeftLoop (fuel : ℕ) (modPoint bound : ℚ) (i1 i2 i3 i12 i13 : ℕ)
    (v1 v2 v3 : ℚ) (st : TState) (dim axis : ℕ) (modulo : ℚ) :
    Option (TState × ℕ × ℕ) :=
  match fuel with
  | 0 => none
  | fuel + 1 =>
    if modPoint > bound then
      let st := pushI st [i13, i12]
      let p := createVertex modPoint i1 i3 v1 v3 st dim axis
      let st := pushI p.1 [p.2, p.2, i12]
      let q := createVertex modPoint i1 i2 v1 v2 st dim axis
      let st := pushI q.1 [q.2]
      splitLeftLoop fuel (modPoint - modulo) bound i1 i2 i3 q.2 p.2 v1 v2 v3 st dim axis modulo
    else some (st, i12, i13)

/-- `splitRight` from `src/index.ts`: fan construction walking grid lines
rightward from the apex `i1`; returns the remaining triangle. -/
def splitRight (modPoint : ℚ) (i1 i2 i3 : ℕ) (v1 v2 v3 : ℚ) (st : TState)
    (dim axis : ℕ) (modulo : ℚ) (fuel : ℕ) : Option (TState × ℕ × ℕ × ℕ) :=
  let p := createVertex modPoint i1 i2 v1 v2 st dim axis
  let q := createVertex modPoint i1 i3 v1 v3 p.1 dim axis
  let i12 := p.2
  let i13 := q.2
  let st := pushI q.1 [i1, i12, i13]
  let modPoint := modPoint + modulo
  if v2 < v3 then
    match splitRightLoop fuel modPoint v2 i1 i2 i3 i12 i13 v1 v2 v3 st dim axis modulo with
    | none => none
    | some (st, i12, i13) => some (pushI st [i13, i12, i2], i13, i2, i3)
  else
    match splitRightLoop fuel modPoint v3 i1 i2 i3 i12 i13 v1 v2 v3 st dim axis modulo with
    | none => none
    | some (st, i12, i13) => some (pushI st [i13, i12, i3], i3, i12, i2)

/-- `splitLeft` from `src/index.ts`: fan construction walking grid lines
leftward from the apex `i1`; returns the remaining triangle. -/
def splitLeft (modPoint : ℚ) (i1 i2 i3 : ℕ) (v1 v2 v3 : ℚ) (st : TState)
    (dim axis : ℕ) (modulo : ℚ) (fuel : ℕ) : Option (TState × ℕ × ℕ × ℕ) :=
  let p := createVertex modPoint i1 i2 v1 v2 st dim axis
  let q := createVertex modPoint i1 i3 v1 v3 p.1 dim axis
  let i12 := p.2
  let i13 := q.2
  let st := pushI q.1 [i1, i12, i13]
  let modPoint := modPoint - modulo
  if v2 > v3 then
    match splitLeftLoop fuel modPoint v2 i1 i2 i3 i12 i13 v1 v2 v3 st dim axis modulo with
    | none => none
    | some (st, i12, i13) => some (pushI st [i13, i12, i2], i13, i2, i3)
  else
    match splitLeftLoop fuel modPoint v3 i1 i2 i3 i12 i13 v1 v2 v3 st dim axis modulo with
    | none => none
    | some (st, i12, i13) => some (pushI st [i13, i12, i3], i3, i12, i2)

/-- The guard cascade of `splitIfNecessary`, as a pure decision: which corner
(rotation 0/1/2 of the triangle, i.e. `v1`/`v2`/`v3`) is the strict extremum to
split from, in which direction (`true` = `splitRight`), and at which grid value.
`none` means the JS function returns `undefined` (no split).  Each of the three
source `if / else if` groups falls through to the next when its inner guard
fails, exactly as in the source. -/
def sinDecide (v1 v2 v3 : ℚ) (modulo : ℚ) : Option (Bool × ℚ × ℕ) :=
  -- 1 is corner
  (if v1 < v2 ∧ v1 < v3 then
    match mod2 v1 modulo with
    | none => none
    | some m =>
      let modPoint := v1 + modulo - m
      if modPoint > v1 ∧ modPoint ≤ v2 ∧ modPoint ≤ v3 ∧ v2 ≠ modPoint then
        some (true, modPoint, 0) else none
  else if v1 > v2 ∧ v1 > v3 then
    match mod2 v1 modulo with
    | none => none
    | some m0 =>
      let m := if m0 = 0 then modulo else m0
      let modPoint := v1 - m
      if modPoint < v1 ∧ modPoint ≥ v2 ∧ modPoint ≥ v3 ∧ v2 ≠ modPoint then
        some (false, modPoint, 0) else none
  else none) <|>
  -- 2 is corner
  (if v2 < v1 ∧ v2 < v3 then
    match mod2 v2 modulo with
    | none => none
    | some m =>
      let modPoint := v2 + modulo - m
      if modPoint > v2 ∧ modPoint ≤ v3 ∧ modPoint ≤ v1 ∧ (v1 ≠ modPoint ∨ v3 ≠ modPoint) then
        some (true, modPoint, 1) else none
  else if v2 > v1 ∧ v2 > v3 then
    match mod2 v2 modulo with
    | none => none
    | some m0 =>
      let m := if m0 = 0 then modulo else m0
      let modPoint := v2 - m
      if modPoint < v2 ∧ modPoint ≥ v3 ∧ modPoint ≥ v1 ∧ (v1 ≠ modPoint ∨ v3 ≠ modPoint) then
        some (false, modPoint, 1) else none
  else none) <|>
  -- 3 is corner
  (if v3 < v1 ∧ v3 < v2 then
    match mod2 v3 modulo with
    | none => none
    | some m =>
      let modPoint := v3 + modulo - m
      if modPoint > v3 ∧ modPoint ≤ v1 ∧ modPoint ≤ v2 ∧ (v1 ≠ modPoint ∨ v2 ≠ modPoint) then
        some (true, modPoint, 2) else none
  else if v3 > v1 ∧ v3 > v2 then
    match mod2 v3 modulo with
    | none => none
    | some m0 =>
      let m := if m0 = 0 then modulo else m0
      let modPoint := v3 - m
      if modPoint < v3 ∧ modPoint ≥ v1 ∧ modPoint ≥ v2 ∧ (v1 ≠ modPoint ∨ v2 ≠ modPoint) then
        some (false, modPoint, 2) else none
  else none)

/-- `splitIfNecessary` from `src/index.ts`.  Result: `none` = fuel exhausted;
`some (st, none)` = the JS function returned `undefined` (no split, state
unchanged); `some (st, some t)` = it split and returned replacement triangle
`t`.  The rotation selected by `sinDecide` reproduces the cyclic argument
orders `(i1,i2,i3)`, `(i2,i3,i1)`, `(i3,i1,i2)` of the source calls. -/
def splitIfNecessary (i1 i2 i3 : ℕ) (st : TState) (dim axis : ℕ) (modulo : ℚ)
    (fuel : ℕ) : Option (TState × Option (ℕ × ℕ × ℕ)) :=
  let v1 := vget st (i1 * dim + axis)
  let v2 := vget st (i2 * dim + axis)
  let v3 := vget st (i3 * dim + axis)
  match sinDecide v1 v2 v3 modulo with
  | none => some (st, none)
  | some (dir, mp, rot) =>
    let j1 := if rot = 0 then i1 else if rot = 1 then i2 else i3
    let j2 := if rot = 0 then i2 else if rot = 1 then i3 else i1
    let j3 := if rot = 0 then i3 else if rot = 1 then i1 else i2
    let w1 := if rot = 0 then v1 else if rot = 1 then v2 else v3
    let w2 := if rot = 0 then v2 else if rot = 1 then v3 else v1
    let w3 := if rot = 0 then v3 else if rot = 1 then v1 else v2
    match (if dir then splitRight mp j1 j2 j3 w1 w2 w3 st dim axis modulo fuel
           else splitLeft mp j1 j2 j3 w1 w2 w3 st dim axis modulo fuel) with
    | none => none
    | some (st, t) => some (st, some t)

/-- The inner `for (let i = 0; i < indices.length; i += 3)` loop of
`tesselate` for one axis; a split writes the replacement triangle back into
slot `i` and re-examines the same slot (`i -= 3` + loop increment). -/
def tessAxisLoop (fuel : ℕ) (i : ℕ) (st : TState) (dim axis : ℕ) (modulo : ℚ) :
    Option TState :=
  match fuel with
  | 0 => none
  | fuel + 1 =>
    if i < st.indices.length then
      let A := st.indices.getD i 0
      let B := st.indices.getD (i + 1) 0
      let C := st.indices.getD (i + 2) 0
      match splitIfNecessary A B C st dim axis modulo fuel with
      | none => none
      | some (st, none) => tessAxisLoop fuel (i + 3) st dim axis modulo
      | some (st, some (t1, t2, t3)) =>
        let st := { st with
          indices := ((st.indices.set i t1).set (i + 1) t2).set (i + 2) t3 }
        tessAxisLoop fuel i st dim axis modulo
    else some st

/-- `tesselate` from `src/index.ts`: for each axis in `[0, dim)` run the
splitting loop over the whole (growing) index list. -/
def tesselate (fuel : ℕ) (vertices : List ℚ) (indices : List ℕ) (modulo : ℚ)
    (dim : ℕ) : Option TState :=
  (List.range dim).foldlM (fun st axis => tessAxisLoop fuel 0 st dim axis modulo)
    ⟨vertices, indices⟩

/-!
## The ear-clipping engine (`src/earcut.ts`)

The mutable `Node` graph is modelled as an arena: nodes live in a list and are
addressed by their (stable) position in it; `prev`/`next`/`prevZ`/`nextZ` hold
arena positions.  This follows the source's class `Node` field for field.
-/

/-- The `Node` class of `src/earcut.ts`: vertex index `i`, coordinates,
z-order value, z-list links, steiner flag, ring links. -/
structure ENode where
  i : ℕ
  x : ℚ
  y : ℚ
  z : ℤ
  prevZ : Option ℕ
  nextZ : Option ℕ
  steiner : Bool
  prev : ℕ
  next : ℕ
deriving Repr, DecidableEq

def dummyNode : ENode := ⟨0, 0, 0, 0, none, none, false, 0, 0⟩

/-- The working set of one `earcut` call: the node arena and the output
triangle index list. -/
structure EState where
  nodes : List ENode
  triangles : List ℕ
deriving Repr, DecidableEq

/-- Dereference an arena pointer. -/
def nd (st : EState) (p : ℕ) : ENode := st.nodes.getD p dummyNode

/-- Mutate the node at arena position `p`. -/
def updN (st : EState) (p : ℕ) (f : ENode → ENode) : EState :=
  { st with nodes := st.nodes.set p (f (nd st p)) }

/-- `triangles.push(...)`. -/
def pushT (st : EState) (l : List ℕ) : EState := { st with triangles := st.triangles ++ l }

/-- The `Node` constructor: insert a fresh node after `last` (or self-linked
when `last` is `null`); returns the new node's arena position. -/
def newNode (st : EState) (i : ℕ) (x y : ℚ) (last : Option ℕ) : EState × ℕ :=
  let idx := st.nodes.length
  match last with
  | none =>
    ({ st with nodes := st.nodes ++ [⟨i, x, y, 0, none, none, false, idx, idx⟩] }, idx)
  | some l =>
    let ln := (nd st l).next
    let st := { st with nodes := st.nodes ++ [⟨i, x, y, 0, none, none, false, l, ln⟩] }
    let st := updN st ln (fun n => { n with prev := idx })
    let st := updN st l (fun n => { n with next := idx })
    (st, idx)

/-- `removeNode` from `src/earcut.ts`: splice `p` out of the ring and out of
the z-order list, in the source's statement order. -/
def removeNode (st : EState) (p : ℕ) : EState :=
  let st := updN st (nd st p).next (fun n => { n with prev := (nd st p).prev })
  let st := updN st (nd st p).prev (fun n => { n with next := (nd st p).next })
  let st :=
    match (nd st p).prevZ with
    | none => st
    | some q => updN st q (fun n => { n with nextZ := (nd st p).nextZ })
  match (nd st p).nextZ with
  | none => st
  | some q => updN st q (fun n => { n with prevZ := (nd st p).prevZ })

/-- `splitPolygon` from `src/earcut.ts`: bridge two nodes with duplicates
`a2`, `b2`; splits one ring into two or merges two rings into one.  The two
fresh nodes are appended to the arena (initially self-linked, as built by the
`Node` constructor with `last = null`); the eight link assignments follow the
source order. -/
def splitPolygon (st : EState) (a b : ℕ) : EState × ℕ :=
  let a2 := st.nodes.length
  let st := { st with nodes :=
    st.nodes ++ [(⟨(nd st a).i, (nd st a).x, (nd st a).y, 0, none, none, false, a2, a2⟩ : ENode)] }
  let b2 := st.nodes.length
  let st := { st with nodes :=
    st.nodes ++ [(⟨(nd st b).i, (nd st b).x, (nd st b).y, 0, none, none, false, b2, b2⟩ : ENode)] }
  let an := (nd st a).next
  let bp := (nd st b).prev
  let st := updN st a (fun n => { n with next := b })
  let st := updN st b (fun n => { n with prev := a })
  let st := updN st a2 (fun n => { n with next := an })
  let st := updN st an (fun n => { n with prev := a2 })
  let st := updN st b2 (fun n => { n with next := a2 })
  let st := updN st a2 (fun n => { n with prev := b2 })
  let st := updN st bp (fun n => { n with next := b2 })
  let st := updN st b2 (fun n => { n with prev := bp })
  (st, b2)

/-! ### Geometric predicates -/

/-- `area` from `src/earcut.ts`: signed area of a triangle (doubled),
positive for a reflex corner in the engine's ring orientation. -/
def area (p q r : ENode) : ℚ := (q.y - p.y) * (r.x - q.x) - (q.x - p.x) * (r.y - q.y)

def areaN (st : EState) (p q r : ℕ) : ℚ := area (nd st p) (nd st q) (nd st r)

/-- `equals`: coordinate equality of two nodes. -/
def equalsN (p1 p2 : ENode) : Prop := p1.x = p2.x ∧ p1.y = p2.y

instance (p1 p2 : ENode) : Decidable (equalsN p1 p2) := by
  unfold equalsN; infer_instance

/-- `pointInTriangle` from `src/earcut.ts` (boundary included). -/
def pointInTriangle (ax ay bx yb cx cy px py : ℚ) : Prop :=
  (cx - px) * (ay - py) - (ax - px) * (cy - py) ≥ 0 ∧
  (ax - px) * (yb - py) - (bx - px) * (ay - py) ≥ 0 ∧
  (bx - px) * (cy - py) - (cx - px) * (yb - py) ≥ 0

instance (ax ay bx yb cx cy px py : ℚ) :
    Decidable (pointInTriangle ax ay bx yb cx cy px py) := by
  unfold pointInTriangle; infer_instance

/-- `sign` from `src/earcut.ts`. -/
def signQ (num : ℚ) : ℤ := if num > 0 then 1 else if num < 0 then -1 else 0

/-- `onSegment`: for collinear `p,q,r`, whether `q` lies in the bbox of `pr`. -/
def onSegment (p q r : ENode) : Prop :=
  q.x ≤ max p.x r.x ∧ q.x ≥ min p.x r.x ∧ q.y ≤ max p.y r.y ∧ q.y ≥ min p.y r.y

instance (p q r : ENode) : Decidable (onSegment p q r) := by
  unfold onSegment; infer_instance

/-- `intersects` from `src/earcut.ts`: segment intersection test on the four
orientation signs with the collinear `onSegment` special cases. -/
def intersects (p1 q1 p2 q2 : ENode) : Prop :=
  let o1 := signQ (area p1 q1 p2)
  let o2 := signQ (area p1 q1 q2)
  let o3 := signQ (area p2 q2 p1)
  let o4 := signQ (area p2 q2 q1)
  (o1 ≠ o2 ∧ o3 ≠ o4) ∨
  (o1 = 0 ∧ onSegment p1 p2 q1) ∨
  (o2 = 0 ∧ onSegment p1 q2 q1) ∨
  (o3 = 0 ∧ onSegment p2 p1 q2) ∨
  (o4 = 0 ∧ onSegment p2 q1 q2)

instance (p1 q1 p2 q2 : ENode) : Decidable (intersects p1 q1 p2 q2) := by
  unfold intersects; infer_instance

/-- `locallyInside` from `src/earcut.ts`. -/
def locallyInside (st : EState) (a b : ℕ) : Prop :=
  if area (nd st (nd st a).prev) (nd st a) (nd st (nd st a).next) < 0 then
    areaN st a b (nd st a).next ≥ 0 ∧ areaN st a (nd st a).prev b ≥ 0
  else
    areaN st a b (nd st a).prev < 0 ∨ areaN st a (nd st a).next b < 0

instance (st : EState) (a b : ℕ) : Decidable (locallyInside st a b) := by
  unfold locallyInside; infer_instance

/-- `sectorContainsSector` from `src/earcut.ts`. -/
def sectorContainsSector (st : EState) (m p : ℕ) : Prop :=
  areaN st (nd st m).prev m (nd st p).prev < 0 ∧ areaN st (nd st p).next m (nd st m).next < 0

instance (st : EState) (m p : ℕ) : Decidable (sectorContainsSector st m p) := by
  unfold sectorContainsSector; infer_instance

/-! ### 32-bit integer arithmetic for the z-order hash

JS bit operators work on the operands converted to 32-bit signed integers
(`ToInt32`).  We model an int32 as an `ℤ` in `[-2^31, 2^31)` and go through
the unsigned residue for the bit operations. -/

/-- Wrap an integer into the signed 32-bit range. -/
def wrap32 (n : ℤ) : ℤ := (n + 2 ^ 31) % 2 ^ 32 - 2 ^ 31

/-- Unsigned 32-bit residue. -/
def toU32 (n : ℤ) : ℕ := (n % 2 ^ 32).toNat

def i32and (a b : ℤ) : ℤ := wrap32 (Int.ofNat (Nat.land (toU32 a) (toU32 b)))

def i32or (a b : ℤ) : ℤ := wrap32 (Int.ofNat (Nat.lor (toU32 a) (toU32 b)))

def i32shl (a : ℤ) (k : ℕ) : ℤ := wrap32 (Int.ofNat (toU32 a <<< k))

/-- JS `x | 0` applied to a (finite) number: truncate toward zero, wrap. -/
def toInt32q (q : ℚ) : ℤ := wrap32 (ratTrunc q)

/-- `zOrder` from `src/earcut.ts`: bit-interleaved Morton key of the
normalized coordinates. -/
def zOrder (x0 y0 minX minY invSize : ℚ) : ℤ :=
  let x := toInt32q ((x0 - minX) * invSize)
  let y := toInt32q ((y0 - minY) * invSize)
  let x := i32and (i32or x (i32shl x 8)) 0x00ff00ff
  let x := i32and (i32or x (i32shl x 4)) 0x0f0f0f0f
  let x := i32and (i32or x (i32shl x 2)) 0x33333333
  let x := i32and (i32or x (i32shl x 1)) 0x55555555
  let y := i32and (i32or y (i32shl y 8)) 0x00ff00ff
  let y := i32and (i32or y (i32shl y 4)) 0x0f0f0f0f
  let y := i32and (i32or y (i32shl y 2)) 0x33333333
  let y := i32and (i32or y (i32shl y 1)) 0x55555555
  i32or x (i32shl y 1)

/-! ### Flat-array helpers -/

/-- Read `data[i]`; JS yields `undefined` (hence `NaN`) out of range, which
only malformed input can reach — modelled with default `0`. -/
def dget (data : List ℚ) (i : ℤ) : ℚ :=
  if 0 ≤ i then data.getD i.toNat 0 else 0

/-- Iteration count of `for (i = start; i < end; i += dim)`. -/
def sAsteps (start end_ : ℤ) (dim : ℕ) : ℕ :=
  if dim = 0 then 0 else ((end_ - start).toNat + dim - 1) / dim

def signedAreaLoop (data : List ℚ) (dim : ℕ) :
    ℕ → ℤ → ℤ → ℚ → ℚ
  | 0, _, _, sum => sum
  | steps + 1, i, j, sum =>
    signedAreaLoop data dim steps (i + dim) i
      (sum + (dget data j - dget data i) * (dget data (i + 1) + dget data (j + 1)))

/-- `signedArea` from `src/earcut.ts`: shoelace sum over `[start, end)`
(positive for the engine's "clockwise" orientation). -/
def signedArea (data : List ℚ) (start end_ : ℤ) (dim : ℕ) : ℚ :=
  signedAreaLoop data dim (sAsteps start end_ dim) start (end_ - dim) 0

/-! ### linkedList construction -/

def llForward (data : List ℚ) (dim : ℕ) :
    ℕ → ℤ → EState → Option ℕ → EState × Option ℕ
  | 0, _, st, last => (st, last)
  | steps + 1, i, st, last =>
    let r := newNode st ((if 0 ≤ i then i.toNat else 0) / dim) (dget data i) (dget data (i + 1)) last
    llForward data dim steps (i + dim) r.1 (some r.2)

/-- Iteration count of `for (i = end - dim; i >= start; i -= dim)`. -/
def llBackSteps (start end_ : ℤ) (dim : ℕ) : ℕ :=
  if dim = 0 then 0
  else if end_ - dim < start then 0
  else (end_ - dim - start).toNat / dim + 1

def llBackward (data : List ℚ) (dim : ℕ) :
    ℕ → ℤ → EState → Option ℕ → EState × Option ℕ
  | 0, _, st, last => (st, last)
  | steps + 1, i, st, last =>
    let r := newNode st ((if 0 ≤ i then i.toNat else 0) / dim) (dget data i) (dget data (i + 1)) last
    llBackward data dim steps (i - dim) r.1 (some r.2)

/-- `linkedList` from `src/earcut.ts`: build the circular ring over
`[start, end)` in the direction that realizes the requested winding, then
drop a duplicated endpoint. -/
def linkedList (st : EState) (data : List ℚ) (start end_ : ℤ) (dim : ℕ)
    (clockwise : Bool) : EState × Option ℕ :=
  let r :=
    if clockwise = decide (signedArea data start end_ dim > 0) then
      llForward data dim (sAsteps start end_ dim) start st none
    else
      llBackward data dim (llBackSteps start end_ dim) (end_ - dim) st none
  match r with
  | (st, none) => (st, none)
  | (st, some l) =>
    if equalsN (nd st l) (nd st (nd st l).next) then
      let st := removeNode st l
      (st, some ((nd st l).next))
    else (st, some l)

/-! ### filterPoints -/

def filterLoop (st : EState) : ℕ → ℕ → ℕ → Option (EState × ℕ)
  | 0, _, _ => none
  | fuel + 1, p, end_ =>
    if ¬(nd st p).steiner ∧
        (equalsN (nd st p) (nd st (nd st p).next) ∨
         areaN st (nd st p).prev p (nd st p).next = 0) then
      let st := removeNode st p
      let p := (nd st p).prev
      let end_ := p
      if p = (nd st p).next then some (st, end_)
      else filterLoop st fuel p end_
    else
      let p := (nd st p).next
      if p = end_ then some (st, end_)
      else filterLoop st fuel p end_

/-- `filterPoints` from `src/earcut.ts`: remove duplicate / collinear
non-Steiner nodes until a full pass makes no removal; returns the possibly
relocated `end`. -/
def filterPoints (fuel : ℕ) (st : EState) (start end_ : ℕ) : Option (EState × ℕ) :=
  filterLoop st fuel start end_

/-! ### getLeftmost -/

def leftmostLoop (st : EState) : ℕ → ℕ → ℕ → ℕ → Option ℕ
  | 0, _, _, _ => none
  | fuel + 1, p, leftmost, start =>
    let leftmost :=
      if (nd st p).x < (nd st leftmost).x ∨
          ((nd st p).x = (nd st leftmost).x ∧ (nd st p).y < (nd st leftmost).y) then p
      else leftmost
    let p := (nd st p).next
    if p = start then some leftmost else leftmostLoop st fuel p leftmost start

/-- `getLeftmost` from `src/earcut.ts`. -/
def getLeftmost (fuel : ℕ) (st : EState) (start : ℕ) : Option ℕ :=
  leftmostLoop st fuel start start start

/-! ### Ear tests -/

def isEarLoop (st : EState) (aIdx : ℕ) (ax ay bx yb cx cy x0 y0 x1 y1 : ℚ) :
    ℕ → ℕ → Option Bool
  | 0, _ => none
  | fuel + 1, p =>
    if p = aIdx then some true
    else
      if (nd st p).x ≥ x0 ∧ (nd st p).x ≤ x1 ∧ (nd st p).y ≥ y0 ∧ (nd st p).y ≤ y1 ∧
          pointInTriangle ax ay bx yb cx cy (nd st p).x (nd st p).y ∧
          areaN st (nd st p).prev p (nd st p).next ≥ 0 then some false
      else isEarLoop st aIdx ax ay bx yb cx cy x0 y0 x1 y1 fuel ((nd st p).next)

/-- `isEar` from `src/earcut.ts`: brute-force ear test — convex corner with no
other (non-convex) ring vertex inside the candidate triangle. -/
def isEar (fuel : ℕ) (st : EState) (ear : ℕ) : Option Bool :=
  let a := (nd st ear).prev
  let b := ear
  let c := (nd st ear).next
  if areaN st a b c ≥ 0 then some false
  else
    let ax := (nd st a).x
    let bx := (nd st b).x
    let cx := (nd st c).x
    let ay := (nd st a).y
    let yb := (nd st b).y
    let cy := (nd st c).y
    let x0 := if ax < bx then (if ax < cx then ax else cx) else (if bx < cx then bx else cx)
    let y0 := if ay < yb then (if ay < cy then ay else cy) else (if yb < cy then yb else cy)
    let x1 := if ax > bx then (if ax > cx then ax else cx) else (if bx > cx then bx else cx)
    let y1 := if ay > yb then (if ay > cy then ay else cy) else (if yb > cy then yb else cy)
    isEarLoop st a ax ay bx yb cx cy x0 y0 x1 y1 fuel ((nd st c).next)

/-- The per-candidate rejection condition inside `isEarHashed`'s three scan
loops (bbox, identity, in-triangle, non-convex). -/
def hashedBlocked (st : EState) (p aIdx cIdx : ℕ)
    (ax ay bx yb cx cy x0 y0 x1 y1 : ℚ) : Prop :=
  (nd st p).x ≥ x0 ∧ (nd st p).x ≤ x1 ∧ (nd st p).y ≥ y0 ∧ (nd st p).y ≤ y1 ∧
  p ≠ aIdx ∧ p ≠ cIdx ∧
  pointInTriangle ax ay bx yb cx cy (nd st p).x (nd st p).y ∧
  areaN st (nd st p).prev p (nd st p).next ≥ 0

instance (st : EState) (p aIdx cIdx : ℕ) (ax ay bx yb cx cy x0 y0 x1 y1 : ℚ) :
    Decidable (hashedBlocked st p aIdx cIdx ax ay bx yb cx cy x0 y0 x1 y1) := by
  unfold hashedBlocked; infer_instance

/-- First `isEarHashed` loop: walk `prevZ` and `nextZ` simultaneously while
both stay within the z range.  `some none` = a blocking point was found;
`some (some (p, n))` = proceed to the one-sided walks. -/
def hLoop1 (st : EState) (aIdx cIdx : ℕ) (ax ay bx yb cx cy x0 y0 x1 y1 : ℚ)
    (minZ maxZ : ℤ) : ℕ → Option ℕ → Option ℕ → Option (Option (Option ℕ × Option ℕ))
  | 0, _, _ => none
  | fuel + 1, p, n =>
    match p, n with
    | some pp, some nn =>
      if (nd st pp).z ≥ minZ ∧ (nd st nn).z ≤ maxZ then
        if hashedBlocked st pp aIdx cIdx ax ay bx yb cx cy x0 y0 x1 y1 then some none
        else
          let p' := (nd st pp).prevZ
          if hashedBlocked st nn aIdx cIdx ax ay bx yb cx cy x0 y0 x1 y1 then some none
          else hLoop1 st aIdx cIdx ax ay bx yb cx cy x0 y0 x1 y1 minZ maxZ fuel p' ((nd st nn).nextZ)
      else some (some (p, n))
    | _, _ => some (some (p, n))

/-- Second `isEarhashed` loop: remaining `prevZ` walk while `z ≥ minZ`;
`some false` = blocked. -/
def hLoop2 (st : EState) (aIdx cIdx : ℕ) (ax ay bx yb cx cy x0 y0 x1 y1 : ℚ)
    (minZ : ℤ) : ℕ → Option ℕ → Option Bool
  | 0, _ => none
  | fuel + 1, p =>
    match p with
    | none => some true
    | some pp =>
      if (nd st pp).z ≥ minZ then
        if hashedBlocked st pp aIdx cIdx ax ay bx yb cx cy x0 y0 x1 y1 then some false
        else hLoop2 st aIdx cIdx ax ay bx yb cx cy x0 y0 x1 y1 minZ fuel ((nd st pp).prevZ)
      else some true

/-- Third `isEarHashed` loop: remaining `nextZ` walk while `z ≤ maxZ`. -/
def hLoop3 (st : EState) (aIdx cIdx : ℕ) (ax ay bx yb cx cy x0 y0 x1 y1 : ℚ)
    (maxZ : ℤ) : ℕ → Option ℕ → Option Bool
  | 0, _ => none
  | fuel + 1, n =>
    match n with
    | none => some true
    | some nn =>
      if (nd st nn).z ≤ maxZ then
        if hashedBlocked st nn aIdx cIdx ax ay bx yb cx cy x0 y0 x1 y1 then some false
        else hLoop3 st aIdx cIdx ax ay bx yb cx cy x0 y0 x1 y1 maxZ fuel ((nd st nn).nextZ)
      else some true

/-- `isEarHashed` from `src/earcut.ts`: the z-order-indexed ear test. -/
def isEarHashed (fuel : ℕ) (st : EState) (ear : ℕ) (minX minY invSize : ℚ) : Option Bool :=
  let a := (nd st ear).prev
  let b := ear
  let c := (nd st ear).next
  if areaN st a b c ≥ 0 then some false
  else
    let ax := (nd st a).x
    let bx := (nd st b).x
    let cx := (nd st c).x
    let ay := (nd st a).y
    let yb := (nd st b).y
    let cy := (nd st c).y
    let x0 := if ax < bx then (if ax < cx then ax else cx) else (if bx < cx then bx else cx)
    let y0 := if ay < yb then (if ay < cy then ay else cy) else (if yb < cy then yb else cy)
    let x1 := if ax > bx then (if ax > cx then ax else cx) else (if bx > cx then bx else cx)
    let y1 := if ay > yb then (if ay > cy then ay else cy) else (if yb > cy then yb else cy)
    let minZ := zOrder x0 y0 minX minY invSize
    let maxZ := zOrder x1 y1 minX minY invSize
    match hLoop1 st a c ax ay bx yb cx cy x0 y0 x1 y1 minZ maxZ fuel
        ((nd st ear).prevZ) ((nd st ear).nextZ) with
    | none => none
    | some none => some false
    | some (some (p, n)) =>
      match hLoop2 st a c ax ay bx yb cx cy x0 y0 x1 y1 minZ fuel p with
      | none => none
      | some false => some false
      | some true => hLoop3 st a c ax ay bx yb cx cy x0 y0 x1 y1 maxZ fuel n

/-! ### Z-order index construction (`indexCurve` + `sortLinked`) -/

def indexCurveLoop (minX minY invSize : ℚ) :
    ℕ → EState → ℕ → ℕ → Option EState
  | 0, _, _, _ => none
  | fuel + 1, st, p, start =>
    let st := if (nd st p).z = 0 then
        updN st p (fun n => { n with z := zOrder n.x n.y minX minY invSize })
      else st
    let st := updN st p (fun n => { n with prevZ := some n.prev, nextZ := some n.next })
    let p' := (nd st p).next
    if p' = start then some st else indexCurveLoop minX minY invSize fuel st p' start

/-- The run-length counting `for` loop of `sortLinked`
(`for (i = 0; i < inSize; i++) { pSize++; q = q.nextZ; if (!q) break; }`). -/
def sortRunAdvance (st : EState) : ℕ → Option ℕ → ℕ → Option ℕ × ℕ
  | 0, q, psz => (q, psz)
  | k + 1, q, psz =>
    match q with
    | none => (none, psz)
    | some qq =>
      let psz := psz + 1
      match (nd st qq).nextZ with
      | none => (none, psz)
      | some q' => sortRunAdvance st k (some q') psz

/-- The run-merging inner `while` of `sortLinked`; returns
`(state, p, q, list, tail)`. -/
def sortMergeLoop : ℕ → EState → Option ℕ → Option ℕ → ℕ → ℕ →
    Option ℕ → Option ℕ → Option (EState × Option ℕ × Option ℕ × Option ℕ × Option ℕ)
  | 0, _, _, _, _, _, _, _ => none
  | fuel + 1, st, p, q, psz, qsz, list, tail =>
    if psz > 0 ∨ (qsz > 0 ∧ q ≠ none) then
      let takeP : Bool :=
        psz != 0 && (qsz == 0 || q.isNone || p.isNone ||
          (match p, q with
           | some pp, some qq => decide ((nd st pp).z ≤ (nd st qq).z)
           | _, _ => true))
      let e := if takeP then p else q
      let p := if takeP then (match p with | some pp => (nd st pp).nextZ | none => none) else p
      let q := if takeP then q else (match q with | some qq => (nd st qq).nextZ | none => none)
      let psz := if takeP then psz - 1 else psz
      let qsz := if takeP then qsz else qsz - 1
      let stList : EState × Option ℕ :=
        match tail with
        | some t => (updN st t (fun n => { n with nextZ := e }), list)
        | none => (st, e)
      let st := stList.1
      let list := stList.2
      let st :=
        match e with
        | some ee => updN st ee (fun n => { n with prevZ := tail })
        | none => st
      sortMergeLoop fuel st p q psz qsz list e
    else some (st, p, q, list, tail)

/-- One full pass of `sortLinked` (`while (p) { … }`); returns
`(state, numMerges, list, tail)`. -/
def sortPassLoop (inSize : ℕ) : ℕ → EState → Option ℕ → ℕ →
    Option ℕ → Option ℕ → Option (EState × ℕ × Option ℕ × Option ℕ)
  | 0, _, _, _, _, _ => none
  | fuel + 1, st, p, numMerges, list, tail =>
    match p with
    | none => some (st, numMerges, list, tail)
    | some _ =>
      let numMerges := numMerges + 1
      let r := sortRunAdvance st inSize p 0
      let q := r.1
      let psz := r.2
      let qsz := inSize
      match sortMergeLoop fuel st p q psz qsz list tail with
      | none => none
      | some (st, _, q, list, tail) => sortPassLoop inSize fuel st q numMerges list tail

/-- The doubling outer `do … while (numMerges > 1)` of `sortLinked`. -/
def sortLinkedLoop : ℕ → EState → Option ℕ → ℕ → Option (EState × Option ℕ)
  | 0, _, _, _ => none
  | fuel + 1, st, list, inSize =>
    match sortPassLoop inSize fuel st list 0 none none with
    | none => none
    | some (st, numMerges, list, tail) =>
      let st :=
        match tail with
        | some t => updN st t (fun n => { n with nextZ := none })
        | none => st
      if numMerges > 1 then sortLinkedLoop fuel st list (inSize * 2)
      else some (st, list)

/-- `sortLinked` from `src/earcut.ts`: Simon Tatham's bottom-up linked-list
merge sort over the `nextZ`/`prevZ` chain, by `z` ascending, stable. -/
def sortLinked (fuel : ℕ) (st : EState) (list : Option ℕ) : Option (EState × Option ℕ) :=
  sortLinkedLoop fuel st list 1

/-- `indexCurve` from `src/earcut.ts`: assign z values, copy the ring into
the z chain, break the cycle and sort. -/
def indexCurve (fuel : ℕ) (st : EState) (start : ℕ) (minX minY invSize : ℚ) :
    Option EState :=
  match indexCurveLoop minX minY invSize fuel st start start with
  | none => none
  | some st =>
    let st :=
      match (nd st start).prevZ with
      | some qz => updN st qz (fun n => { n with nextZ := none })
      | none => st
    let st := updN st start (fun n => { n with prevZ := none })
    match sortLinked fuel st (some start) with
    | none => none
    | some (st, _) => some st

/-! ### cureLocalIntersections -/

def cureLoop : ℕ → EState → ℕ → ℕ → Option (EState × ℕ)
  | 0, _, _, _ => none
  | fuel + 1, st, p, start =>
    let a := (nd st p).prev
    let b := (nd st (nd st p).next).next
    if ¬equalsN (nd st a) (nd st b) ∧
        intersects (nd st a) (nd st p) (nd st (nd st p).next) (nd st b) ∧
        locallyInside st a b ∧ locallyInside st b a then
      let st := pushT st [(nd st a).i, (nd st p).i, (nd st b).i]
      let st := removeNode st p
      let st := removeNode st ((nd st p).next)
      let p2 := (nd st b).next
      if p2 = b then some (st, p2) else cureLoop fuel st p2 b
    else
      let p2 := (nd st p).next
      if p2 = start then some (st, p2) else cureLoop fuel st p2 start

/-- `cureLocalIntersections` from `src/earcut.ts`: one pass removing small
bowtie self-intersections, then a collinear filter. -/
def cureLocalIntersections (fuel : ℕ) (st : EState) (start : ℕ) : Option (EState × ℕ) :=
  match cureLoop fuel st start start with
  | none => none
  | some (st, p) => filterPoints fuel st p p

/-! ### Diagonal validity -/

def intersectsPolygonLoop (st : EState) (a b : ℕ) : ℕ → ℕ → Option Bool
  | 0, _ => none
  | fuel + 1, p =>
    if (nd st p).i ≠ (nd st a).i ∧ (nd st (nd st p).next).i ≠ (nd st a).i ∧
        (nd st p).i ≠ (nd st b).i ∧ (nd st (nd st p).next).i ≠ (nd st b).i ∧
        intersects (nd st p) (nd st (nd st p).next) (nd st a) (nd st b) then some true
    else
      let p2 := (nd st p).next
      if p2 = a then some false else intersectsPolygonLoop st a b fuel p2

/-- `intersectsPolygon` from `src/earcut.ts`. -/
def intersectsPolygon (fuel : ℕ) (st : EState) (a b : ℕ) : Option Bool :=
  intersectsPolygonLoop st a b fuel a

def middleInsideLoop (st : EState) (aIdx : ℕ) (px py : ℚ) :
    ℕ → ℕ → Bool → Option Bool
  | 0, _, _ => none
  | fuel + 1, p, inside =>
    let inside :=
      if (decide ((nd st p).y > py) != decide ((nd st (nd st p).next).y > py)) &&
          decide ((nd st (nd st p).next).y ≠ (nd st p).y) &&
          decide (px < ((nd st (nd st p).next).x - (nd st p).x) * (py - (nd st p).y) /
            ((nd st (nd st p).next).y - (nd st p).y) + (nd st p).x)
      then !inside else inside
    let p2 := (nd st p).next
    if p2 = aIdx then some inside else middleInsideLoop st aIdx px py fuel p2 inside

/-- `middleInside` from `src/earcut.ts`: even-odd ray cast for the midpoint
of the diagonal `a–b`. -/
def middleInside (fuel : ℕ) (st : EState) (a b : ℕ) : Option Bool :=
  middleInsideLoop st a (((nd st a).x + (nd st b).x) / 2) (((nd st a).y + (nd st b).y) / 2)
    fuel a false

/-- `isValidDiagonal` from `src/earcut.ts` (with the source's short-circuit
order). -/
def isValidDiagonal (fuel : ℕ) (st : EState) (a b : ℕ) : Option Bool :=
  if ¬((nd st (nd st a).next).i ≠ (nd st b).i ∧ (nd st (nd st a).prev).i ≠ (nd st b).i) then
    some false
  else
    match intersectsPolygon fuel st a b with
    | none => none
    | some true => some false
    | some false =>
      let special : Bool := decide (equalsN (nd st a) (nd st b)) &&
        decide (areaN st (nd st a).prev a (nd st a).next > 0) &&
        decide (areaN st (nd st b).prev b (nd st b).next > 0)
      if locallyInside st a b ∧ locallyInside st b a then
        match middleInside fuel st a b with
        | none => none
        | some mi =>
          if mi ∧ (areaN st (nd st a).prev a (nd st b).prev ≠ 0 ∨
              areaN st a (nd st b).prev b ≠ 0) then some true
          else some special
      else some special

/-! ### Hole elimination -/

/-- `x > qx` where `qx` starts as `-Infinity` (`none`). -/
def gtNegInf (qx : Option ℚ) (x : ℚ) : Prop :=
  match qx with
  | none => True
  | some q => x > q

instance (qx : Option ℚ) (x : ℚ) : Decidable (gtNegInf qx x) := by
  unfold gtNegInf; cases qx <;> infer_instance

/-- `tan < tanMin` where `tanMin` starts as `Infinity` (`none`). -/
def ltPosInf (tan : ℚ) (tanMin : Option ℚ) : Prop :=
  match tanMin with
  | none => True
  | some t => tan < t

instance (tan : ℚ) (tanMin : Option ℚ) : Decidable (ltPosInf tan tanMin) := by
  unfold ltPosInf; cases tanMin <;> infer_instance

/-- First `findHoleBridge` loop: westward ray cast from the hole's leftmost
point; `Sum.inl m` models the early `return m` when the ray hits a vertex
x-exactly, `Sum.inr (qx, m)` the fall-through with the best intercept. -/
def fhbLoop1 (st : EState) (outerNode : ℕ) (hx hy : ℚ) :
    ℕ → ℕ → Option ℚ → Option ℕ → Option (Sum ℕ (Option ℚ × Option ℕ))
  | 0, _, _, _ => none
  | fuel + 1, p, qx, m =>
    if hy ≤ (nd st p).y ∧ hy ≥ (nd st (nd st p).next).y ∧
        (nd st (nd st p).next).y ≠ (nd st p).y then
      let x := (nd st p).x + (hy - (nd st p).y) * ((nd st (nd st p).next).x - (nd st p).x) /
        ((nd st (nd st p).next).y - (nd st p).y)
      if x ≤ hx ∧ gtNegInf qx x then
        let m2 := if (nd st p).x < (nd st (nd st p).next).x then p else (nd st p).next
        if x = hx then some (Sum.inl m2)
        else
          let p2 := (nd st p).next
          if p2 = outerNode then some (Sum.inr (some x, some m2))
          else fhbLoop1 st outerNode hx hy fuel p2 (some x) (some m2)
      else
        let p2 := (nd st p).next
        if p2 = outerNode then some (Sum.inr (qx, m))
        else fhbLoop1 st outerNode hx hy fuel p2 qx m
    else
      let p2 := (nd st p).next
      if p2 = outerNode then some (Sum.inr (qx, m))
      else fhbLoop1 st outerNode hx hy fuel p2 qx m

/-- Second `findHoleBridge` loop: refine the candidate `m` by scanning for
vertices inside the intercept triangle, minimizing the tangent. -/
def fhbLoop2 (st : EState) (hole stop : ℕ) (hx hy qx mx my : ℚ) :
    ℕ → ℕ → ℕ → Option ℚ → Option ℕ
  | 0, _, _, _ => none
  | fuel + 1, p, m, tanMin =>
    let mtm : ℕ × Option ℚ :=
      if hx ≥ (nd st p).x ∧ (nd st p).x ≥ mx ∧ hx ≠ (nd st p).x ∧
          pointInTriangle (if hy < my then hx else qx) hy mx my
            (if hy < my then qx else hx) hy (nd st p).x (nd st p).y then
        let tan := |hy - (nd st p).y| / (hx - (nd st p).x)
        if locallyInside st p hole ∧
            (ltPosInf tan tanMin ∨
             (tanMin = some tan ∧ ((nd st p).x > (nd st m).x ∨
               ((nd st p).x = (nd st m).x ∧ sectorContainsSector st m p)))) then
          (p, some tan)
        else (m, tanMin)
      else (m, tanMin)
    let p2 := (nd st p).next
    if p2 = stop then some mtm.1
    else fhbLoop2 st hole stop hx hy qx mx my fuel p2 mtm.1 mtm.2

/-- `findHoleBridge` from `src/earcut.ts` (David Eberly's algorithm);
`some none` models the JS `null` result (no bridge). -/
def findHoleBridge (fuel : ℕ) (st : EState) (hole outerNode : ℕ) : Option (Option ℕ) :=
  let hx := (nd st hole).x
  let hy := (nd st hole).y
  match fhbLoop1 st outerNode hx hy fuel outerNode none none with
  | none => none
  | some (Sum.inl m) => some (some m)
  | some (Sum.inr (_, none)) => some none
  | some (Sum.inr (qx, some m)) =>
    match fhbLoop2 st hole m hx hy (qx.getD 0) ((nd st m).x) ((nd st m).y) fuel m m none with
    | none => none
    | some m2 => some (some m2)

/-- `eliminateHole` from `src/earcut.ts`: find a bridge and splice; a hole
with no bridge is silently skipped. -/
def eliminateHole (fuel : ℕ) (st : EState) (hole outerNode : ℕ) : Option (EState × ℕ) :=
  match findHoleBridge fuel st hole outerNode with
  | none => none
  | some none => some (st, outerNode)
  | some (some bridge) =>
    let r := splitPolygon st bridge hole
    let st := r.1
    let bridgeReverse := r.2
    match filterPoints fuel st bridgeReverse ((nd st bridgeReverse).next) with
    | none => none
    | some (st, _) =>
      match filterPoints fuel st bridge ((nd st bridge).next) with
      | none => none
      | some (st, r2) => some (st, r2)

/-- Queue construction of `eliminateHoles`: build each hole ring (opposite
winding), flag single-point holes as Steiner, collect leftmost nodes.
A degenerate empty hole range (for which the JS code would throw on
`list.next`) is skipped. -/
def ehBuild (fuel : ℕ) (data : List ℚ) (dim : ℕ) :
    List ℕ → EState → List ℕ → Option (EState × List ℕ)
  | [], st, queue => some (st, queue)
  | h :: rest, st, queue =>
    let start : ℤ := (h : ℤ) * dim
    let end_ : ℤ :=
      match rest with
      | h2 :: _ => (h2 : ℤ) * dim
      | [] => (data.length : ℤ)
    match linkedList st data start end_ dim false with
    | (st, none) => ehBuild fuel data dim rest st queue
    | (st, some l) =>
      let st := if l = (nd st l).next then updN st l (fun n => { n with steiner := true }) else st
      match getLeftmost fuel st l with
      | none => none
      | some lm => ehBuild fuel data dim rest st (queue ++ [lm])

/-- Stable insertion into a list sorted ascending by `x` (models the stable
JS `Array.prototype.sort` with comparator `a.x - b.x`). -/
def insertByX (st : EState) (q : ℕ) : List ℕ → List ℕ
  | [] => [q]
  | a :: rest => if (nd st q).x ≤ (nd st a).x then q :: a :: rest else a :: insertByX st q rest

def sortQueue (st : EState) : List ℕ → List ℕ
  | [] => []
  | a :: rest => insertByX st a (sortQueue st rest)

def ehProcess (fuel : ℕ) : List ℕ → EState → ℕ → Option (EState × ℕ)
  | [], st, outerNode => some (st, outerNode)
  | q :: rest, st, outerNode =>
    match eliminateHole fuel st q outerNode with
    | none => none
    | some (st, outerNode) => ehProcess fuel rest st outerNode

/-- `eliminateHoles` from `src/earcut.ts`: link every hole into the outer
ring, processing holes left to right. -/
def eliminateHoles (fuel : ℕ) (st : EState) (data : List ℚ) (holeIndices : List ℕ)
    (outerNode : ℕ) (dim : ℕ) : Option (EState × ℕ) :=
  match ehBuild fuel data dim holeIndices st [] with
  | none => none
  | some (st, queue) => ehProcess fuel (sortQueue st queue) st outerNode

/-! ### The main slicing loop with its three fallback passes -/

mutual

/-- `earcutLinked` from `src/earcut.ts` (entry: optional z-indexing, then the
slicing loop). -/
def earcutLinked (fuel : ℕ) (ear : Option ℕ) (st : EState) (dim : ℕ)
    (minX minY invSize : ℚ) (pass : ℕ) : Option EState :=
  match fuel with
  | 0 => none
  | fuel + 1 =>
    match ear with
    | none => some st
    | some ear =>
      match (if pass = 0 ∧ invSize ≠ 0 then indexCurve fuel st ear minX minY invSize
             else some st) with
      | none => none
      | some st => earLoop fuel st ear ear dim minX minY invSize pass

/-- The `while (ear.prev !== ear.next)` slicing loop of `earcutLinked`,
including the pass-escalation when a full lap finds no ear. -/
def earLoop (fuel : ℕ) (st : EState) (ear stop : ℕ) (dim : ℕ)
    (minX minY invSize : ℚ) (pass : ℕ) : Option EState :=
  match fuel with
  | 0 => none
  | fuel + 1 =>
    if (nd st ear).prev = (nd st ear).next then some st
    else
      let prev := (nd st ear).prev
      let next := (nd st ear).next
      match (if invSize ≠ 0 then isEarHashed fuel st ear minX minY invSize
             else isEar fuel st ear) with
      | none => none
      | some true =>
        let st := pushT st [(nd st prev).i, (nd st ear).i, (nd st next).i]
        let st := removeNode st ear
        earLoop fuel st ((nd st next).next) ((nd st next).next) dim minX minY invSize pass
      | some false =>
        let ear2 := next
        if ear2 = stop then
          if pass = 0 then
            match filterPoints fuel st ear2 ear2 with
            | none => none
            | some (st, e) => earcutLinked fuel (some e) st dim minX minY invSize 1
          else if pass = 1 then
            match filterPoints fuel st ear2 ear2 with
            | none => none
            | some (st, e) =>
              match cureLocalIntersections fuel st e with
              | none => none
              | some (st, e2) => earcutLinked fuel (some e2) st dim minX minY invSize 2
          else if pass = 2 then
            splitEarcut fuel st ear2 dim minX minY invSize
          else some st
        else earLoop fuel st ear2 stop dim minX minY invSize pass

/-- Inner diagonal-scan (`while (b !== a.prev)`) of `splitEarcut`; the `Bool`
records whether a split was performed (the source `return`). -/
def splitEarcutInner (fuel : ℕ) (st : EState) (a b : ℕ) (dim : ℕ)
    (minX minY invSize : ℚ) : Option (EState × Bool) :=
  match fuel with
  | 0 => none
  | fuel + 1 =>
    if b = (nd st a).prev then some (st, false)
    else
      match (if (nd st a).i ≠ (nd st b).i then isValidDiagonal fuel st a b
             else some false) with
      | none => none
      | some true =>
        let r := splitPolygon st a b
        let st := r.1
        let c := r.2
        match filterPoints fuel st a ((nd st a).next) with
        | none => none
        | some (st, a2) =>
          match filterPoints fuel st c ((nd st c).next) with
          | none => none
          | some (st, c2) =>
            match earcutLinked fuel (some a2) st dim minX minY invSize 0 with
            | none => none
            | some st =>
              match earcutLinked fuel (some c2) st dim minX minY invSize 0 with
              | none => none
              | some st => some (st, true)
      | some false => splitEarcutInner fuel st a ((nd st b).next) dim minX minY invSize

/-- Outer candidate loop (`do { … a = a.next } while (a !== start)`) of
`splitEarcut`. -/
def splitEarcutOuter (fuel : ℕ) (st : EState) (a start : ℕ) (dim : ℕ)
    (minX minY invSize : ℚ) : Option EState :=
  match fuel with
  | 0 => none
  | fuel + 1 =>
    match splitEarcutInner fuel st a ((nd st (nd st a).next).next) dim minX minY invSize with
    | none => none
    | some (st, true) => some st
    | some (st, false) =>
      let a2 := (nd st a).next
      if a2 = start then some st
      else splitEarcutOuter fuel st a2 start dim minX minY invSize

/-- `splitEarcut` from `src/earcut.ts`: last-resort split of the remaining
polygon through a valid diagonal, re-running the engine on both halves. -/
def splitEarcut (fuel : ℕ) (st : EState) (start : ℕ) (dim : ℕ)
    (minX minY invSize : ℚ) : Option EState :=
  match fuel with
  | 0 => none
  | fuel + 1 => splitEarcutOuter fuel st start start dim minX minY invSize

end

/-- The bbox scan of `earcut` (`for (i = dim; i < outerLen; i += dim)`). -/
def bboxLoop (data : List ℚ) (dim : ℕ) :
    ℕ → ℤ → ℚ → ℚ → ℚ → ℚ → ℚ × ℚ × ℚ × ℚ
  | 0, _, minX, minY, maxX, maxY => (minX, minY, maxX, maxY)
  | steps + 1, i, minX, minY, maxX, maxY =>
    let x := dget data i
    let y := dget data (i + 1)
    bboxLoop data dim steps (i + dim)
      (if x < minX then x else minX) (if y < minY then y else minY)
      (if x > maxX then x else maxX) (if y > maxY then y else maxY)

/-- `earcut` from `src/earcut.ts`, the triangulation entry point.  When the
input is small (`data.length ≤ 80 * dim`) the JS code leaves
`minX = minY = Infinity` and `invSize = 0`; since `minX`/`minY` are only ever
read under `invSize ≠ 0`, the model passes `0` for them in that case. -/
def earcut (fuel : ℕ) (data : List ℚ) (holeIndices : List ℕ) (dim : ℕ) :
    Option (List ℕ) :=
  let hasHoles := holeIndices ≠ []
  let outerLen : ℤ := if hasHoles then (holeIndices.getD 0 0 : ℤ) * dim else (data.length : ℤ)
  let r := linkedList ⟨[], []⟩ data 0 outerLen dim true
  let st := r.1
  match r.2 with
  | none => some []
  | some outerNode =>
    if (nd st outerNode).next = (nd st outerNode).prev then some []
    else
      match (if hasHoles then eliminateHoles fuel st data holeIndices outerNode dim
             else some (st, outerNode)) with
      | none => none
      | some (st, outerNode) =>
        let useHash := data.length > 80 * dim
        let bb := bboxLoop data dim (sAsteps dim outerLen dim) dim
          (dget data 0) (dget data 1) (dget data 0) (dget data 1)
        let minX := if useHash then bb.1 else 0
        let minY := if useHash then bb.2.1 else 0
        let sz := max (bb.2.2.1 - bb.1) (bb.2.2.2 - bb.2.1)
        let invSize := if useHash then (if sz ≠ 0 then 1 / sz else 0) else 0
        match earcutLinked fuel (some outerNode) st dim minX minY invSize 0 with
        | none => none
        | some st => some st.triangles

/-!
## Properties of `mod2` for non-positive modulus (claim C9)
-/

theorem ratTrunc_nonneg_bounds {q : ℚ} (h : 0 ≤ q) :
    (ratTrunc q : ℚ) ≤ q ∧ q - 1 < (ratTrunc q : ℚ) := by
  rw [ratTrunc, if_pos h]
  exact ⟨Int.floor_le q, Int.sub_one_lt_floor q⟩

theorem ratTrunc_neg_bounds {q : ℚ} (h : ¬0 ≤ q) :
    q ≤ (ratTrunc q : ℚ) ∧ (ratTrunc q : ℚ) < q + 1 := by
  rw [ratTrunc, if_neg h]
  exact ⟨Int.le_ceil q, Int.ceil_lt_add_one q⟩

theorem jsRem_eq_mul (x n : ℚ) (hn : n ≠ 0) :
    jsRem x n = n * (x / n - (ratTrunc (x / n) : ℚ)) := by
  rw [jsRem, mul_sub, mul_div_cancel₀ x hn]

/-- For a negative modulus the JS remainder is strictly below `-n`. -/
theorem jsRem_lt_neg {n : ℚ} (x : ℚ) (hn : n < 0) : jsRem x n < -n := by
  have hn0 : n ≠ 0 := ne_of_lt hn
  rw [jsRem_eq_mul x n hn0]
  by_cases h : 0 ≤ x / n
  · obtain ⟨h1, _⟩ := ratTrunc_nonneg_bounds h
    nlinarith
  · obtain ⟨_, h2⟩ := ratTrunc_neg_bounds h
    nlinarith

/-- For a negative modulus and negative argument the JS remainder lies in
`(n, 0]`. -/
theorem jsRem_neg_arg {n y : ℚ} (hn : n < 0) (hy : y < 0) :
    n < jsRem y n ∧ jsRem y n ≤ 0 := by
  have hn0 : n ≠ 0 := ne_of_lt hn
  rw [jsRem_eq_mul y n hn0]
  have hq : 0 ≤ y / n := le_of_lt (div_pos_of_neg_of_neg hy hn)
  obtain ⟨h1, h2⟩ := ratTrunc_nonneg_bounds hq
  constructor
  · nlinarith
  · nlinarith

/-- For a strictly negative modulus, `mod2` yields a value in `(modulo, 0]`. -/
theorem mod2_neg_bounds {modulo : ℚ} (x : ℚ) (hn : modulo < 0) :
    ∃ m, mod2 x modulo = some m ∧ modulo < m ∧ m ≤ 0 := by
  have hn0 : modulo ≠ 0 := ne_of_lt hn
  have hy : jsRem x modulo + modulo < 0 := by
    have := jsRem_lt_neg x hn
    linarith
  refine ⟨jsRem (jsRem x modulo + modulo) modulo, ?_, jsRem_neg_arg hn hy⟩
  rw [mod2, if_neg hn0]

/-- With a non-positive modulus no guard of `splitIfNecessary` can fire. -/
theorem sinDecide_nonpos {v1 v2 v3 modulo : ℚ} (h : modulo ≤ 0) :
    sinDecide v1 v2 v3 modulo = none := by
  rcases lt_or_eq_of_le h with hneg | h0
  · obtain ⟨m1, hm1, hm1l, hm1r⟩ := mod2_neg_bounds v1 hneg
    obtain ⟨m2, hm2, hm2l, hm2r⟩ := mod2_neg_bounds v2 hneg
    obtain ⟨m3, hm3, hm3l, hm3r⟩ := mod2_neg_bounds v3 hneg
    have gmin : ∀ v w u m : ℚ, modulo < m → m ≤ 0 →
        ¬(v + modulo - m > v ∧ v + modulo - m ≤ w ∧ v + modulo - m ≤ u ∧ w ≠ v + modulo - m) := by
      intro v w u m hml _ hc
      have := hc.1
      linarith
    have gmin' : ∀ v w u a b m : ℚ, modulo < m → m ≤ 0 →
        ¬(v + modulo - m > v ∧ v + modulo - m ≤ w ∧ v + modulo - m ≤ u ∧
          (a ≠ v + modulo - m ∨ b ≠ v + modulo - m)) := by
      intro v w u a b m hml _ hc
      have := hc.1
      linarith
    have gmax : ∀ v w u m : ℚ, modulo < m → m ≤ 0 →
        ¬(v - (if m = 0 then modulo else m) < v ∧ v - (if m = 0 then modulo else m) ≥ w ∧
          v - (if m = 0 then modulo else m) ≥ u ∧ w ≠ v - (if m = 0 then modulo else m)) := by
      intro v w u m _ hmr hc
      have h1 := hc.1
      by_cases hm0 : m = 0
      · rw [if_pos hm0] at h1; linarith
      · rw [if_neg hm0] at h1; linarith
    have gmax' : ∀ v w u a b m : ℚ, modulo < m → m ≤ 0 →
        ¬(v - (if m = 0 then modulo else m) < v ∧ v - (if m = 0 then modulo else m) ≥ w ∧
          v - (if m = 0 then modulo else m) ≥ u ∧
          (a ≠ v - (if m = 0 then modulo else m) ∨ b ≠ v - (if m = 0 then modulo else m))) := by
      intro v w u a b m _ hmr hc
      have h1 := hc.1
      by_cases hm0 : m = 0
      · rw [if_pos hm0] at h1; linarith
      · rw [if_neg hm0] at h1; linarith
    simp only [sinDecide, hm1, hm2, hm3]
    rw [if_neg (gmin v1 v2 v3 m1 hm1l hm1r), if_neg (gmax v1 v2 v3 m1 hm1l hm1r),
      if_neg (gmin' v2 v3 v1 v1 v3 m2 hm2l hm2r), if_neg (gmax' v2 v3 v1 v1 v3 m2 hm2l hm2r),
      if_neg (gmin' v3 v1 v2 v1 v2 m3 hm3l hm3r), if_neg (gmax' v3 v1 v2 v1 v2 m3 hm3l hm3r)]
    split_ifs <;> rfl
  · subst h0
    simp only [sinDecide, mod2, if_pos rfl]
    split_ifs <;> rfl

/-- With a non-positive modulus `splitIfNecessary` never splits. -/
theorem splitIfNecessary_nonpos {modulo : ℚ} (h : modulo ≤ 0)
    (i1 i2 i3 : ℕ) (st : TState) (dim axis fuel : ℕ) :
    splitIfNecessary i1 i2 i3 st dim axis modulo fuel = some (st, none) := by
  simp only [splitIfNecessary, sinDecide_nonpos h]

/-- With a non-positive modulus one axis pass of `tesselate` is the
identity, given enough fuel to walk the index list. -/
theorem tessAxisLoop_nonpos {modulo : ℚ} (h : modulo ≤ 0) (dim axis : ℕ) :
    ∀ (fuel i : ℕ) (st : TState), st.indices.length < i + fuel → 0 < fuel →
      tessAxisLoop fuel i st dim axis modulo = some st := by
  intro fuel
  induction fuel with
  | zero => intro i st _ hf; exact absurd hf (Nat.lt_irrefl 0)
  | succ f ih =>
    intro i st hlen _
    rw [tessAxisLoop]
    by_cases hi : i < st.indices.length
    · rw [if_pos hi]
      simp only [splitIfNecessary_nonpos h]
      exact ih (i + 3) st (by omega) (by omega)
    · rw [if_neg hi]

/-- C9 (amended): a non-positive modulo is not rejected; `tesselate` runs to
completion without error and performs no split at all — the vertex and index
lists are returned unchanged. -/
theorem tesselate_nonpos_modulo {modulo : ℚ} (h : modulo ≤ 0) (fuel : ℕ)
    (vertices : List ℚ) (indices : List ℕ) (dim : ℕ)
    (hf : indices.length < fuel) :
    tesselate fuel vertices indices modulo dim = some ⟨vertices, indices⟩ := by
  have key : ∀ l : List ℕ,
      List.foldlM (fun st axis => tessAxisLoop fuel 0 st dim axis modulo)
        (⟨vertices, indices⟩ : TState) l = some ⟨vertices, indices⟩ := by
    intro l
    induction l with
    | nil => rfl
    | cons a rest ih =>
      rw [List.foldlM_cons,
        tessAxisLoop_nonpos h dim a fuel 0 ⟨vertices, indices⟩ (by simpa using hf) (by omega)]
      exact ih
  exact key (List.range dim)

/-- C9 counterexample: `tesselate` does not reject a zero modulo — it
proceeds and returns normally (leaving the state unchanged), whereas the same
input with a positive modulo is actually re-tessellated. -/
theorem c9_tesselate_zero_modulo_not_rejected :
    tesselate 100 [0, 0, 3, 0, 0, 3] [0, 1, 2] 0 2 =
      some ⟨[0, 0, 3, 0, 0, 3], [0, 1, 2]⟩ ∧
    tesselate 100 [0, 0, 3, 0, 0, 3] [0, 1, 2] 2 2 ≠
      some ⟨[0, 0, 3, 0, 0, 3], [0, 1, 2]⟩ := by
  constructor
  · with_unfolding_all rfl
  · with_unfolding_all decide

/-- C9 witness: the amended statement applied at a concrete negative modulo. -/
theorem c9_tesselate_nonpos_witness :
    tesselate 10 [0, 0, 3, 0, 0, 3] [0, 1, 2] (-2) 2 =
      some ⟨[0, 0, 3, 0, 0, 3], [0, 1, 2]⟩ :=
  tesselate_nonpos_modulo (by decide) 10 [0, 0, 3, 0, 0, 3] [0, 1, 2] 2 (by decide)

/-!
## C6: the adversarial regression case

`earcut([1,2,2,2,1,2,1,1,1,2,4,1,5,1,3,2,4,2,4,1], [5], 2)` terminates
(fuel 300 suffices) and returns exactly `[8, 5, 6]`.
-/

set_option maxRecDepth 100000 in
set_option maxHeartbeats 2000000 in
/-- C6: the known adversarial single-hole case terminates and produces
exactly the index list `[8, 5, 6]`. -/
theorem earcut_infinite_loop_case :
    earcut 300 [1, 2, 2, 2, 1, 2, 1, 1, 1, 2, 4, 1, 5, 1, 3, 2, 4, 2, 4, 1] [5] 2 =
      some [8, 5, 6] := by
  with_unfolding_all rfl

/-!
## C8: degenerate inputs produce an empty triangulation
-/

/-- C8: empty input yields `[]`, and any input whose outer ring has fewer
than 3 effective vertices after `linkedList`'s duplicate-endpoint removal
yields `[]`, at every fuel (no error, no fuel consumption). -/
theorem earcut_degenerate_empty :
    (∀ fuel : ℕ, earcut fuel [] [] 2 = some []) ∧
    (∀ (fuel : ℕ) (data : List ℚ) (holeIndices : List ℕ) (dim : ℕ),
      ((linkedList ⟨[], []⟩ data 0
          (if holeIndices ≠ [] then (holeIndices.getD 0 0 : ℤ) * dim else (data.length : ℤ))
          dim true).2 = none ∨
        ∃ o, (linkedList ⟨[], []⟩ data 0
            (if holeIndices ≠ [] then (holeIndices.getD 0 0 : ℤ) * dim else (data.length : ℤ))
            dim true).2 = some o ∧
          (nd (linkedList ⟨[], []⟩ data 0
              (if holeIndices ≠ [] then (holeIndices.getD 0 0 : ℤ) * dim else (data.length : ℤ))
              dim true).1 o).next =
            (nd (linkedList ⟨[], []⟩ data 0
              (if holeIndices ≠ [] then (holeIndices.getD 0 0 : ℤ) * dim else (data.length : ℤ))
              dim true).1 o).prev) →
      earcut fuel data holeIndices dim = some []) := by
  refine ⟨fun _ => rfl, ?_⟩
  intro fuel data holeIndices dim h
  rcases h with h | ⟨o, ho, hnp⟩
  · simp only [earcut, h]
  · simp only [earcut, ho, hnp, if_pos]

/-- C8 witness: a two-vertex "polygon" produces an empty triangulation. -/
theorem earcut_degenerate_witness : earcut 5 [0, 0, 1, 1] [] 2 = some [] :=
  earcut_degenerate_empty.2 5 [0, 0, 1, 1] [] 2
    (Or.inr ⟨1, by with_unfolding_all rfl, by with_unfolding_all rfl⟩)

/-!
## C7: ring construction direction and winding

The shoelace sum of a cyclic point list, in the same per-edge form
`(x_prev - x_cur) * (y_cur + y_prev)` used by the source's `signedArea`.
-/

/-- One shoelace term for the edge from `a` to `b`. -/
def shoe (a b : ℚ × ℚ) : ℚ := (a.1 - b.1) * (b.2 + a.2)

/-- Shoelace sum along an (open) path. -/
def pathSA : List (ℚ × ℚ) → ℚ
  | a :: b :: rest => shoe a b + pathSA (b :: rest)
  | _ => 0

/-- Shoelace sum of a closed ring of points (the cycle is closed through the
head).  Positive = the engine's "clockwise" orientation. -/
def listSA : List (ℚ × ℚ) → ℚ
  | [] => 0
  | a :: t => pathSA ((a :: t) ++ [a])

/-- The forward point sequence visited by `linkedList`'s forward loop. -/
def fwdPts (data : List ℚ) (dim : ℕ) : ℕ → ℤ → List (ℚ × ℚ)
  | 0, _ => []
  | steps + 1, i => (dget data i, dget data (i + 1)) :: fwdPts data dim steps (i + dim)

theorem pathSA_cons_cons (a b : ℚ × ℚ) (l : List (ℚ × ℚ)) :
    pathSA (a :: b :: l) = shoe a b + pathSA (b :: l) := rfl

theorem pathSA_append_last (x : ℚ × ℚ) :
    ∀ l : List (ℚ × ℚ), pathSA (l ++ [x]) =
      pathSA l + (match l.getLast? with | none => 0 | some b => shoe b x)
  | [] => by simp [pathSA]
  | [a] => by simp [pathSA, List.getLast?]
  | a :: b :: rest => by
    have ih := pathSA_append_last x (b :: rest)
    simp only [List.cons_append] at ih ⊢
    rw [pathSA_cons_cons, pathSA_cons_cons, ih, List.getLast?_cons_cons]
    ring

theorem shoe_swap (a b : ℚ × ℚ) : shoe b a = -shoe a b := by
  simp only [shoe]; ring

theorem pathSA_reverse : ∀ l : List (ℚ × ℚ), pathSA l.reverse = -pathSA l
  | [] => by simp [pathSA]
  | [a] => by simp [pathSA]
  | a :: b :: rest => by
    have ih := pathSA_reverse (b :: rest)
    have hgl : (b :: rest).reverse.getLast? = some b := by
      rw [List.getLast?_reverse]; rfl
    calc pathSA ((a :: b :: rest).reverse)
        = pathSA ((b :: rest).reverse ++ [a]) := by simp
      _ = pathSA ((b :: rest).reverse) + shoe b a := by
          rw [pathSA_append_last a ((b :: rest).reverse), hgl]
      _ = -(shoe a b + pathSA (b :: rest)) := by rw [ih, shoe_swap]; ring
      _ = -pathSA (a :: b :: rest) := by rw [pathSA_cons_cons]

/-- Closing a nonempty path cycle at the head or prepending the last point
gives the same shoelace sum. -/
theorem pathSA_close (a : ℚ × ℚ) (l : List (ℚ × ℚ)) (z : ℚ × ℚ)
    (hz : (a :: l).getLast? = some z) :
    pathSA (z :: a :: l) = pathSA ((a :: l) ++ [a]) := by
  rw [pathSA_cons_cons, pathSA_append_last a (a :: l), hz]
  ring

/-- Reversing a ring negates its shoelace sum. -/
theorem listSA_reverse (l : List (ℚ × ℚ)) : listSA l.reverse = -listSA l := by
  match l with
  | [] => simp [listSA]
  | a :: t =>
    obtain ⟨z, hz⟩ : ∃ z, (a :: t).getLast? = some z :=
      ⟨(a :: t).getLast (by simp), List.getLast?_eq_getLast _ _⟩
    cases hr : (a :: t).reverse with
    | nil => exact absurd hr (by simp)
    | cons z' w =>
      have hz' : z' = z := by
        have h1 : (a :: t).reverse.head? = some z' := by rw [hr]; rfl
        rw [List.head?_reverse, hz] at h1
        exact (Option.some_inj.mp h1).symm
      subst hz'
      have h2 : listSA (z' :: w) = pathSA ((a :: t).reverse ++ [z']) := by
        rw [listSA, hr]
      have h3 : (a :: t).reverse ++ [z'] = (z' :: a :: t).reverse := by simp
      rw [h2, h3, pathSA_reverse, pathSA_close a t z' hz]
      rfl

/-- The shoelace loop of `signedArea` computes the path sum with the trailing
point prepended. -/
theorem signedAreaLoop_eq_pathSA (data : List ℚ) (dim : ℕ) :
    ∀ (s : ℕ) (i j : ℤ) (acc : ℚ),
      signedAreaLoop data dim s i j acc =
        acc + pathSA ((dget data j, dget data (j + 1)) :: fwdPts data dim s i) := by
  intro s
  induction s with
  | zero => intro i j acc; simp [signedAreaLoop, fwdPts, pathSA]
  | succ n ih =>
    intro i j acc
    rw [signedAreaLoop, ih, fwdPts, pathSA_cons_cons]
    simp only [shoe]
    ring

theorem fwdPts_snoc (data : List ℚ) (dim : ℕ) :
    ∀ (k : ℕ) (i : ℤ), fwdPts data dim (k + 1) i =
      fwdPts data dim k i ++ [(dget data (i + k * dim), dget data (i + k * dim + 1))] := by
  intro k
  induction k with
  | zero => intro i; simp [fwdPts]
  | succ n ih =>
    intro i
    rw [fwdPts, ih (i + dim), fwdPts]
    simp only [List.cons_append, List.cons.injEq, true_and]
    congr 2 <;> push_cast <;> ring

theorem fwdPts_length (data : List ℚ) (dim : ℕ) :
    ∀ (k : ℕ) (i : ℤ), (fwdPts data dim k i).length = k := by
  intro k
  induction k with
  | zero => intro i; rfl
  | succ n ih => intro i; simp [fwdPts, ih]

theorem fwdPts_getLast (data : List ℚ) (dim : ℕ) (k : ℕ) (i : ℤ) :
    (fwdPts data dim (k + 1) i).getLast? =
      some (dget data (i + k * dim), dget data (i + k * dim + 1)) := by
  rw [fwdPts_snoc, List.getLast?_append]
  rfl

/-- The backward point sequence visited by `linkedList`'s backward loop. -/
def bwdPts (data : List ℚ) (dim : ℕ) : ℕ → ℤ → List (ℚ × ℚ)
  | 0, _ => []
  | steps + 1, i => (dget data i, dget data (i + 1)) :: bwdPts data dim steps (i - dim)

theorem bwdPts_eq_reverse (data : List ℚ) (dim : ℕ) :
    ∀ (k : ℕ) (i : ℤ), bwdPts data dim k (i + k * dim - dim) =
      (fwdPts data dim k i).reverse := by
  intro k
  induction k with
  | zero => intro i; rfl
  | succ n ih =>
    intro i
    rw [bwdPts, fwdPts_snoc, List.reverse_append]
    have h1 : (i + ((n + 1 : ℕ) : ℤ) * ↑dim - ↑dim) = i + n * dim := by push_cast; ring
    rw [h1, ih i]
    simp

/-- `sAsteps` over an exactly divisible range is the quotient. -/
theorem sAsteps_exact (start end_ : ℤ) (dim q : ℕ) (hdim : 0 < dim)
    (hq : end_ - start = (dim : ℤ) * q) : sAsteps start end_ dim = q := by
  rw [sAsteps, if_neg (Nat.pos_iff_ne_zero.mp hdim)]
  have h1 : (end_ - start).toNat = dim * q := by omega
  rw [h1]
  have h3 : dim * q + dim - 1 = (dim - 1) + dim * q := by omega
  rw [h3, Nat.add_mul_div_left _ _ hdim, Nat.div_eq_of_lt (by omega)]
  omega

/-- `signedArea` over a well-formed range equals the ring shoelace sum of the
forward point sequence. -/
theorem signedArea_eq_listSA (data : List ℚ) (start end_ : ℤ) (dim q : ℕ)
    (hdim : 0 < dim) (hq : end_ - start = (dim : ℤ) * q) (hq1 : 0 < q) :
    signedArea data start end_ dim = listSA (fwdPts data dim q start) := by
  obtain ⟨qq, rfl⟩ : ∃ qq, q = qq + 1 := ⟨q - 1, by omega⟩
  have hend : end_ - dim = start + qq * dim := by
    push_cast at hq ⊢
    linear_combination hq
  rw [signedArea, sAsteps_exact start end_ dim (qq + 1) hdim hq,
    signedAreaLoop_eq_pathSA, zero_add, hend]
  have hfw : fwdPts data dim (qq + 1) start =
      (dget data start, dget data (start + 1)) :: fwdPts data dim qq (start + dim) := rfl
  rw [hfw, listSA]
  exact pathSA_close _ _ _ (by rw [← hfw, fwdPts_getLast])

/-! ### Arena access lemmas -/

theorem nd_set (st : EState) (p q : ℕ) (n : ENode) :
    nd { st with nodes := st.nodes.set p n } q =
      if q = p ∧ p < st.nodes.length then n else nd st q := by
  simp only [nd, List.getD_eq_getElem?_getD, List.getElem?_set]
  rcases eq_or_ne p q with rfl | hne
  · by_cases h2 : p < st.nodes.length
    · simp [h2]
    · rw [if_pos rfl, if_neg h2, if_neg (fun hc => h2 hc.2)]
      rw [List.getElem?_eq_none (by omega)]
  · rw [if_neg hne, if_neg (fun hc => hne hc.1.symm)]

theorem nd_updN (st : EState) (p q : ℕ) (f : ENode → ENode) :
    nd (updN st p f) q = if q = p ∧ p < st.nodes.length then f (nd st p) else nd st q :=
  nd_set st p q (f (nd st p))

theorem nd_append_lt (st : EState) (q : ℕ) (l : List ENode) (h : q < st.nodes.length) :
    nd { st with nodes := st.nodes ++ l } q = nd st q := by
  simp [nd, List.getD_eq_getElem?_getD, List.getElem?_append, h]

theorem nd_append_right (st : EState) (l : List ENode) (j : ℕ) :
    nd { st with nodes := st.nodes ++ l } (st.nodes.length + j) = l.getD j dummyNode := by
  simp only [nd, List.getD_eq_getElem?_getD]
  rw [List.getElem?_append_right (by omega)]
  simp

theorem updN_length (st : EState) (p : ℕ) (f : ENode → ENode) :
    (updN st p f).nodes.length = st.nodes.length := by
  simp [updN]

theorem updN_triangles (st : EState) (p : ℕ) (f : ENode → ENode) :
    (updN st p f).triangles = st.triangles := rfl

/-! ### Ring construction (`linkedList`) builds a circular block -/

/-- The arena block `n0 … n0+k-1` forms a circular doubly linked list in
arena order with node payloads `f 0 … f (k-1)` and fresh z/steiner fields. -/
def chainBlock (st : EState) (n0 k : ℕ) (f : ℕ → ℕ × ℚ × ℚ) : Prop :=
  ∀ m, m < k →
    nd st (n0 + m) = ⟨(f m).1, (f m).2.1, (f m).2.2, 0, none, none, false,
      n0 + (if m = 0 then k - 1 else m - 1),
      n0 + (if m = k - 1 then 0 else m + 1)⟩

/-- The node payload inserted at step `m` of the forward loop. -/
def fwdNode (data : List ℚ) (dim : ℕ) (i0 : ℤ) (m : ℕ) : ℕ × ℚ × ℚ :=
  ((if 0 ≤ i0 + m * dim then (i0 + m * dim).toNat else 0) / dim,
   dget data (i0 + m * dim), dget data (i0 + m * dim + 1))

/-- The node payload inserted at step `m` of the backward loop. -/
def bwdNode (data : List ℚ) (dim : ℕ) (i0 : ℤ) (m : ℕ) : ℕ × ℚ × ℚ :=
  ((if 0 ≤ i0 - m * dim then (i0 - m * dim).toNat else 0) / dim,
   dget data (i0 - m * dim), dget data (i0 - m * dim + 1))

/-- Inserting one more node after the block's last node extends the cycle. -/
theorem newNode_chain (st : EState) (n0 m : ℕ) (f : ℕ → ℕ × ℚ × ℚ)
    (hlen : st.nodes.length = n0 + m) (hm : 0 < m) (hch : chainBlock st n0 m f) :
    (newNode st (f m).1 (f m).2.1 (f m).2.2 (some (n0 + m - 1))).2 = n0 + m ∧
    (newNode st (f m).1 (f m).2.1 (f m).2.2 (some (n0 + m - 1))).1.nodes.length
      = n0 + (m + 1) ∧
    chainBlock (newNode st (f m).1 (f m).2.1 (f m).2.2 (some (n0 + m - 1))).1
      n0 (m + 1) f ∧
    (∀ j, j < n0 → nd (newNode st (f m).1 (f m).2.1 (f m).2.2 (some (n0 + m - 1))).1 j
      = nd st j) ∧
    (newNode st (f m).1 (f m).2.1 (f m).2.2 (some (n0 + m - 1))).1.triangles
      = st.triangles := by
  have hm1 : n0 + m - 1 = n0 + (m - 1) := by omega
  have hprev : nd st (n0 + (m - 1)) = ⟨(f (m - 1)).1, (f (m - 1)).2.1, (f (m - 1)).2.2,
      0, none, none, false,
      n0 + (if m - 1 = 0 then m - 1 else m - 1 - 1),
      n0 + (if m - 1 = m - 1 then 0 else m - 1 + 1)⟩ := hch (m - 1) (by omega)
  have hln : (nd st (n0 + m - 1)).next = n0 := by
    rw [hm1, hprev]
    simp
  have hnew : newNode st (f m).1 (f m).2.1 (f m).2.2 (some (n0 + m - 1)) =
      (updN (updN { st with nodes := st.nodes ++
          [⟨(f m).1, (f m).2.1, (f m).2.2, 0, none, none, false, n0 + m - 1, n0⟩] }
        n0 (fun n => { n with prev := n0 + m }))
        (n0 + m - 1) (fun n => { n with next := n0 + m }), n0 + m) := by
    simp only [newNode, hln, hlen]
  set node : ENode :=
    ⟨(f m).1, (f m).2.1, (f m).2.2, 0, none, none, false, n0 + m - 1, n0⟩ with hnode
  set st1 : EState := { st with nodes := st.nodes ++ [node] } with hst1
  have hL1 : st1.nodes.length = n0 + m + 1 := by simp [hst1, hlen]
  set st2 : EState := updN st1 n0 (fun n => { n with prev := n0 + m }) with hst2
  have hL2 : st2.nodes.length = n0 + m + 1 := by rw [hst2, updN_length, hL1]
  set st3 : EState := updN st2 (n0 + m - 1) (fun n => { n with next := n0 + m }) with hst3
  have hL3 : st3.nodes.length = n0 + m + 1 := by rw [hst3, updN_length, hL2]
  have hnd1 : ∀ j, j < n0 + m → nd st1 j = nd st j := fun j hj =>
    nd_append_lt st j [node] (by omega)
  have hnd1m : nd st1 (n0 + m) = node := by
    have hx : n0 + m = st.nodes.length + 0 := by omega
    rw [hst1, hx, nd_append_right]
    rfl
  rw [hnew]
  refine ⟨rfl, hL3, ?_, ?_, rfl⟩
  · intro j hj
    by_cases hjm : j = m
    · subst hjm
      rw [hst3, nd_updN, if_neg (by rintro ⟨h, -⟩; omega),
        hst2, nd_updN, if_neg (by rintro ⟨h, -⟩; omega), hnd1m]
      rw [hnode]
      simp only [ENode.mk.injEq]
      split_ifs <;> and_intros <;> first | trivial | omega
    · by_cases hj0 : j = 0
      · subst hj0
        simp only [Nat.add_zero]
        have h0 := hch 0 (by omega)
        rw [Nat.add_zero] at h0
        by_cases hm1' : m = 1
        · subst hm1'
          rw [hst3, nd_updN, if_pos ⟨by omega, by omega⟩,
            hst2, nd_updN, if_pos ⟨rfl, by omega⟩,
            hnd1 n0 (by omega), h0]
          simp only [ENode.mk.injEq]
          split_ifs <;> and_intros <;> first | trivial | omega
        · rw [hst3, nd_updN, if_neg (by rintro ⟨h, -⟩; omega),
            hst2, nd_updN, if_pos ⟨by omega, by omega⟩,
            hnd1 n0 (by omega), h0]
          simp only [ENode.mk.injEq]
          split_ifs <;> and_intros <;> first | trivial | omega
      · by_cases hjl : j = m - 1
        · subst hjl
          rw [hst3, nd_updN, if_pos ⟨by omega, by omega⟩,
            hst2, nd_updN, if_neg (by rintro ⟨h, -⟩; omega),
            hnd1 _ (by omega), hm1, hch (m - 1) (by omega)]
          simp only [ENode.mk.injEq]
          split_ifs <;> and_intros <;> first | trivial | omega
        · rw [hst3, nd_updN, if_neg (by rintro ⟨h, -⟩; omega),
            hst2, nd_updN, if_neg (by rintro ⟨h, -⟩; omega),
            hnd1 _ (by omega), hch j (by omega)]
          simp only [ENode.mk.injEq]
          split_ifs <;> and_intros <;> first | trivial | omega
  · intro j hj
    rw [hst3, nd_updN, if_neg (by rintro ⟨h, -⟩; omega),
      hst2, nd_updN, if_neg (by rintro ⟨h, -⟩; omega), hnd1 j (by omega)]

/-- The forward loop, continued from a partial chain, extends it one node per
step. -/
theorem llForward_chain (data : List ℚ) (dim : ℕ) (i0 : ℤ) :
    ∀ (steps m : ℕ) (st : EState) (n0 : ℕ),
      st.nodes.length = n0 + m → 0 < m →
      chainBlock st n0 m (fwdNode data dim i0) →
      ∃ st', llForward data dim steps (i0 + m * dim) st (some (n0 + m - 1)) =
          (st', some (n0 + (m + steps) - 1)) ∧
        st'.nodes.length = n0 + (m + steps) ∧
        chainBlock st' n0 (m + steps) (fwdNode data dim i0) ∧
        (∀ j, j < n0 → nd st' j = nd st j) ∧ st'.triangles = st.triangles := by
  intro steps
  induction steps with
  | zero =>
    intro m st n0 hlen hm hch
    exact ⟨st, rfl, by omega, by simpa using hch, fun j _ => rfl, rfl⟩
  | succ s ih =>
    intro m st n0 hlen hm hch
    have hkey := newNode_chain st n0 m (fwdNode data dim i0) hlen hm hch
    simp only [fwdNode] at hkey
    obtain ⟨h2, hL, hCh, hPre, hTr⟩ := hkey
    rw [llForward]
    set r := newNode st ((if 0 ≤ i0 + m * dim then (i0 + m * dim).toNat else 0) / dim)
      (dget data (i0 + m * dim)) (dget data (i0 + m * dim + 1)) (some (n0 + m - 1)) with hr
    obtain ⟨st', heq, hlen', hch', hpre', htr'⟩ :=
      ih (m + 1) r.1 n0 hL (by omega) hCh
    have hi : i0 + ↑m * ↑dim + ↑dim = i0 + ((m + 1 : ℕ) : ℤ) * ↑dim := by
      push_cast; ring
    rw [show n0 + (m + 1) - 1 = n0 + m from by omega] at heq
    refine ⟨st', ?_, by omega, by have := hch'; rwa [show m + 1 + s = m + (s + 1) by omega] at this,
      ?_, by rw [htr', hTr]⟩
    · rw [hi, h2, heq]
      congr 2
      omega
    · intro j hj
      rw [hpre' j hj, hPre j hj]

/-- The forward loop starting from an empty chain builds a full circular
block of `steps` nodes. -/
theorem llForward_build (data : List ℚ) (dim : ℕ) (i0 : ℤ) (steps : ℕ) (hs : 0 < steps)
    (st : EState) (n0 : ℕ) (hlen : st.nodes.length = n0) :
    ∃ st', llForward data dim steps i0 st none = (st', some (n0 + steps - 1)) ∧
      st'.nodes.length = n0 + steps ∧ chainBlock st' n0 steps (fwdNode data dim i0) ∧
      (∀ j, j < n0 → nd st' j = nd st j) ∧ st'.triangles = st.triangles := by
  obtain ⟨s, rfl⟩ : ∃ s, steps = s + 1 := ⟨steps - 1, by omega⟩
  rw [llForward]
  set node : ENode := ⟨(if 0 ≤ i0 then i0.toNat else 0) / dim,
    dget data i0, dget data (i0 + 1), 0, none, none, false, n0, n0⟩ with hnode
  have hfirst : newNode st ((if 0 ≤ i0 then i0.toNat else 0) / dim)
      (dget data i0) (dget data (i0 + 1)) none =
      ({ st with nodes := st.nodes ++ [node] }, n0) := by
    simp only [newNode, hlen, hnode]
  set st1 : EState := { st with nodes := st.nodes ++ [node] } with hst1
  have hL1 : st1.nodes.length = n0 + 1 := by simp [hst1, hlen]
  have hch1 : chainBlock st1 n0 1 (fwdNode data dim i0) := by
    intro m hm
    have hm0 : m = 0 := by omega
    subst hm0
    have hx : n0 + 0 = st.nodes.length + 0 := by omega
    rw [hst1, hx, nd_append_right]
    simp [hnode, fwdNode]
  have hpre1 : ∀ j, j < n0 → nd st1 j = nd st j := fun j hj =>
    nd_append_lt st j [node] (by omega)
  obtain ⟨st', heq, hlen', hch', hpre', htr'⟩ :=
    llForward_chain data dim i0 s 1 st1 n0 hL1 (by omega) hch1
  have hi : i0 + dim = i0 + ((1 : ℕ) : ℤ) * dim := by push_cast; ring
  rw [show n0 + 1 - 1 = n0 from by omega] at heq
  refine ⟨st', ?_, by omega,
    by rwa [show 1 + s = s + 1 by omega] at hch', ?_, htr'⟩
  · rw [hfirst, hi, heq]
    congr 2
    omega
  · intro j hj
    rw [hpre' j hj, hpre1 j hj]

/-- The backward loop, continued from a partial chain, extends it one node
per step. -/
theorem llBackward_chain (data : List ℚ) (dim : ℕ) (i0 : ℤ) :
    ∀ (steps m : ℕ) (st : EState) (n0 : ℕ),
      st.nodes.length = n0 + m → 0 < m →
      chainBlock st n0 m (bwdNode data dim i0) →
      ∃ st', llBackward data dim steps (i0 - m * dim) st (some (n0 + m - 1)) =
          (st', some (n0 + (m + steps) - 1)) ∧
        st'.nodes.length = n0 + (m + steps) ∧
        chainBlock st' n0 (m + steps) (bwdNode data dim i0) ∧
        (∀ j, j < n0 → nd st' j = nd st j) ∧ st'.triangles = st.triangles := by
  intro steps
  induction steps with
  | zero =>
    intro m st n0 hlen hm hch
    exact ⟨st, rfl, by omega, by simpa using hch, fun j _ => rfl, rfl⟩
  | succ s ih =>
    intro m st n0 hlen hm hch
    have hkey := newNode_chain st n0 m (bwdNode data dim i0) hlen hm hch
    simp only [bwdNode] at hkey
    obtain ⟨h2, hL, hCh, hPre, hTr⟩ := hkey
    rw [llBackward]
    set r := newNode st ((if 0 ≤ i0 - m * dim then (i0 - m * dim).toNat else 0) / dim)
      (dget data (i0 - m * dim)) (dget data (i0 - m * dim + 1)) (some (n0 + m - 1)) with hr
    obtain ⟨st', heq, hlen', hch', hpre', htr'⟩ :=
      ih (m + 1) r.1 n0 hL (by omega) hCh
    have hi : i0 - ↑m * ↑dim - ↑dim = i0 - ((m + 1 : ℕ) : ℤ) * ↑dim := by
      push_cast; ring
    rw [show n0 + (m + 1) - 1 = n0 + m from by omega] at heq
    refine ⟨st', ?_, by omega, by have := hch'; rwa [show m + 1 + s = m + (s + 1) by omega] at this,
      ?_, by rw [htr', hTr]⟩
    · rw [hi, h2, heq]
      congr 2
      omega
    · intro j hj
      rw [hpre' j hj, hPre j hj]

/-- The backward loop starting from an empty chain builds a full circular
block of `steps` nodes. -/
theorem llBackward_build (data : List ℚ) (dim : ℕ) (i0 : ℤ) (steps : ℕ) (hs : 0 < steps)
    (st : EState) (n0 : ℕ) (hlen : st.nodes.length = n0) :
    ∃ st', llBackward data dim steps i0 st none = (st', some (n0 + steps - 1)) ∧
      st'.nodes.length = n0 + steps ∧ chainBlock st' n0 steps (bwdNode data dim i0) ∧
      (∀ j, j < n0 → nd st' j = nd st j) ∧ st'.triangles = st.triangles := by
  obtain ⟨s, rfl⟩ : ∃ s, steps = s + 1 := ⟨steps - 1, by omega⟩
  rw [llBackward]
  set node : ENode := ⟨(if 0 ≤ i0 then i0.toNat else 0) / dim,
    dget data i0, dget data (i0 + 1), 0, none, none, false, n0, n0⟩ with hnode
  have hfirst : newNode st ((if 0 ≤ i0 then i0.toNat else 0) / dim)
      (dget data i0) (dget data (i0 + 1)) none =
      ({ st with nodes := st.nodes ++ [node] }, n0) := by
    simp only [newNode, hlen, hnode]
  set st1 : EState := { st with nodes := st.nodes ++ [node] } with hst1
  have hL1 : st1.nodes.length = n0 + 1 := by simp [hst1, hlen]
  have hch1 : chainBlock st1 n0 1 (bwdNode data dim i0) := by
    intro m hm
    have hm0 : m = 0 := by omega
    subst hm0
    have hx : n0 + 0 = st.nodes.length + 0 := by omega
    rw [hst1, hx, nd_append_right]
    simp [hnode, bwdNode]
  have hpre1 : ∀ j, j < n0 → nd st1 j = nd st j := fun j hj =>
    nd_append_lt st j [node] (by omega)
  obtain ⟨st', heq, hlen', hch', hpre', htr'⟩ :=
    llBackward_chain data dim i0 s 1 st1 n0 hL1 (by omega) hch1
  have hi : i0 - dim = i0 - ((1 : ℕ) : ℤ) * dim := by push_cast; ring
  rw [show n0 + 1 - 1 = n0 from by omega] at heq
  refine ⟨st', ?_, by omega,
    by rwa [show 1 + s = s + 1 by omega] at hch', ?_, htr'⟩
  · rw [hfirst, hi, heq]
    congr 2
    omega
  · intro j hj
    rw [hpre' j hj, hpre1 j hj]

/-- Removing the last node of a circular block of `q ≥ 2` nodes leaves a
circular block of `q - 1` nodes (the removed node's own links go stale but
its `next` still points at the block head, which `linkedList` then returns). -/
theorem removeNode_last_chain (st : EState) (n0 q : ℕ) (f : ℕ → ℕ × ℚ × ℚ)
    (hq2 : 2 ≤ q) (hlen : st.nodes.length = n0 + q) (hch : chainBlock st n0 q f) :
    (removeNode st (n0 + q - 1)).nodes.length = n0 + q ∧
    chainBlock (removeNode st (n0 + q - 1)) n0 (q - 1) f ∧
    (∀ j, j < n0 → nd (removeNode st (n0 + q - 1)) j = nd st j) ∧
    (removeNode st (n0 + q - 1)).triangles = st.triangles ∧
    (nd (removeNode st (n0 + q - 1)) (n0 + q - 1)).next = n0 := by
  have hm1 : n0 + q - 1 = n0 + (q - 1) := by omega
  have hlast : nd st (n0 + q - 1) = ⟨(f (q - 1)).1, (f (q - 1)).2.1, (f (q - 1)).2.2,
      0, none, none, false,
      n0 + (if q - 1 = 0 then q - 1 else q - 1 - 1),
      n0 + (if q - 1 = q - 1 then 0 else q - 1 + 1)⟩ := by
    rw [hm1]; exact hch (q - 1) (by omega)
  have hnext : (nd st (n0 + q - 1)).next = n0 := by rw [hlast]; simp
  have hprev : (nd st (n0 + q - 1)).prev = n0 + (q - 2) := by
    rw [hlast]
    show n0 + (if q - 1 = 0 then q - 1 else q - 1 - 1) = n0 + (q - 2)
    rw [if_neg (by omega)]
    omega
  have hpz : (nd st (n0 + q - 1)).prevZ = none := by rw [hlast]
  have hnz : (nd st (n0 + q - 1)).nextZ = none := by rw [hlast]
  set st1 : EState := updN st n0 (fun n => { n with prev := n0 + (q - 2) }) with hst1
  have hL1 : st1.nodes.length = n0 + q := by rw [hst1, updN_length, hlen]
  have hsame1 : nd st1 (n0 + q - 1) = nd st (n0 + q - 1) := by
    rw [hst1, nd_updN, if_neg (by rintro ⟨h, -⟩; omega)]
  set st2 : EState := updN st1 (n0 + (q - 2)) (fun n => { n with next := n0 }) with hst2
  have hL2 : st2.nodes.length = n0 + q := by rw [hst2, updN_length, hL1]
  have hsame2 : nd st2 (n0 + q - 1) = nd st (n0 + q - 1) := by
    rw [hst2, nd_updN, if_neg (by rintro ⟨h, -⟩; omega), hsame1]
  have hrm : removeNode st (n0 + q - 1) = st2 := by
    rw [removeNode, hnext, hprev, ← hst1, hsame1, hprev, hnext, ← hst2, hsame2, hpz]
    dsimp only
    rw [hsame2, hnz]
  refine ⟨by rw [hrm, hL2], ?_, ?_, by rw [hrm, hst2, updN_triangles, hst1, updN_triangles], ?_⟩
  · intro j hj
    by_cases hj0 : j = 0
    · subst hj0
      simp only [Nat.add_zero]
      have h0 := hch 0 (by omega)
      rw [Nat.add_zero] at h0
      by_cases hq2' : q = 2
      · subst hq2'
        rw [hrm, hst2, nd_updN, if_pos ⟨by omega, by omega⟩,
          hst1, nd_updN, if_pos ⟨by omega, by omega⟩, h0]
        simp only [ENode.mk.injEq]
        split_ifs <;> and_intros <;> first | trivial | omega
      · rw [hrm, hst2, nd_updN, if_neg (by rintro ⟨h, -⟩; omega),
          hst1, nd_updN, if_pos ⟨by omega, by omega⟩, h0]
        simp only [ENode.mk.injEq]
        split_ifs <;> and_intros <;> first | trivial | omega
    · by_cases hjl : j = q - 2
      · subst hjl
        rw [hrm, hst2, nd_updN, if_pos ⟨by omega, by omega⟩,
          hst1, nd_updN, if_neg (by rintro ⟨h, -⟩; omega), hch (q - 2) (by omega)]
        simp only [ENode.mk.injEq]
        split_ifs <;> and_intros <;> first | trivial | omega
      · rw [hrm, hst2, nd_updN, if_neg (by rintro ⟨h, -⟩; omega),
          hst1, nd_updN, if_neg (by rintro ⟨h, -⟩; omega), hch j (by omega)]
        simp only [ENode.mk.injEq]
        split_ifs <;> and_intros <;> first | trivial | omega
  · intro j hj
    rw [hrm, hst2, nd_updN, if_neg (by rintro ⟨h, -⟩; omega),
      hst1, nd_updN, if_neg (by rintro ⟨h, -⟩; omega)]
  · rw [hrm, hsame2, hnext]

/-- Removing the single node of a one-node ring is a no-op on its links. -/
theorem removeNode_single_chain (st : EState) (n0 : ℕ) (f : ℕ → ℕ × ℚ × ℚ)
    (hlen : st.nodes.length = n0 + 1) (hch : chainBlock st n0 1 f) :
    (removeNode st n0).nodes.length = n0 + 1 ∧
    chainBlock (removeNode st n0) n0 1 f ∧
    (∀ j, j < n0 → nd (removeNode st n0) j = nd st j) ∧
    (removeNode st n0).triangles = st.triangles ∧
    (nd (removeNode st n0) n0).next = n0 := by
  have h0 := hch 0 (by omega)
  rw [Nat.add_zero] at h0
  have hnext : (nd st n0).next = n0 := by rw [h0]; simp
  have hprev : (nd st n0).prev = n0 := by rw [h0]; simp
  set st1 : EState := updN st n0 (fun n => { n with prev := n0 }) with hst1
  have hL1 : st1.nodes.length = n0 + 1 := by rw [hst1, updN_length, hlen]
  have h1 : nd st1 n0 = { nd st n0 with prev := n0 } := by
    rw [hst1, nd_updN, if_pos ⟨rfl, by omega⟩]
  have h1prev : (nd st1 n0).prev = n0 := by rw [h1]
  have h1next : (nd st1 n0).next = n0 := by
    rw [h1]
    show (nd st n0).next = n0
    exact hnext
  set st2 : EState := updN st1 n0 (fun n => { n with next := n0 }) with hst2
  have hL2 : st2.nodes.length = n0 + 1 := by rw [hst2, updN_length, hL1]
  have h2 : nd st2 n0 = { nd st1 n0 with next := n0 } := by
    rw [hst2, nd_updN, if_pos ⟨rfl, by omega⟩]
  have h2pz : (nd st2 n0).prevZ = none := by
    rw [h2]
    show (nd st1 n0).prevZ = none
    rw [h1]
    show (nd st n0).prevZ = none
    rw [h0]
  have h2nz : (nd st2 n0).nextZ = none := by
    rw [h2]
    show (nd st1 n0).nextZ = none
    rw [h1]
    show (nd st n0).nextZ = none
    rw [h0]
  have hrm : removeNode st n0 = st2 := by
    rw [removeNode, hnext, hprev, ← hst1, h1prev, h1next, ← hst2, h2pz]
    dsimp only
    rw [h2nz]
  have hn2 : nd st2 n0 = nd st n0 := by
    rw [h2, h1, h0]
    simp
  refine ⟨by rw [hrm, hL2], ?_, ?_,
    by rw [hrm, hst2, updN_triangles, hst1, updN_triangles], by rw [hrm, hn2, hnext]⟩
  · intro m hm
    have : m = 0 := by omega
    subst this
    rw [Nat.add_zero, hrm, hn2, h0]
  · intro j hj
    rw [hrm, hst2, nd_updN, if_neg (by rintro ⟨h, -⟩; omega),
      hst1, nd_updN, if_neg (by rintro ⟨h, -⟩; omega)]

/-- The coordinate pairs of an arena block, in arena (= ring) order. -/
def blockPts (st : EState) (n0 k : ℕ) : List (ℚ × ℚ) :=
  (List.range k).map (fun m => ((nd st (n0 + m)).x, (nd st (n0 + m)).y))

theorem blockPts_of_chain (st : EState) (n0 k : ℕ) (f : ℕ → ℕ × ℚ × ℚ)
    (hch : chainBlock st n0 k f) :
    blockPts st n0 k = (List.range k).map (fun m => ((f m).2.1, (f m).2.2)) := by
  unfold blockPts
  apply List.map_congr_left
  intro m hm
  rw [hch m (List.mem_range.mp hm)]

theorem fwdPts_eq_map (data : List ℚ) (dim : ℕ) :
    ∀ (k : ℕ) (i0 : ℤ), fwdPts data dim k i0 =
      (List.range k).map
        (fun (m : ℕ) =>
          (dget data (i0 + (m : ℤ) * dim), dget data (i0 + (m : ℤ) * dim + 1))) := by
  intro k
  induction k with
  | zero => intro i0; rfl
  | succ n ih =>
    intro i0
    rw [fwdPts_snoc, ih, List.range_succ]
    simp

theorem bwdPts_eq_map (data : List ℚ) (dim : ℕ) :
    ∀ (k : ℕ) (i0 : ℤ), bwdPts data dim k i0 =
      (List.range k).map
        (fun (m : ℕ) =>
          (dget data (i0 - (m : ℤ) * dim), dget data (i0 - (m : ℤ) * dim + 1))) := by
  intro k
  induction k with
  | zero => intro i0; rfl
  | succ n ih =>
    intro i0
    rw [bwdPts, ih (i0 - dim), List.range_succ_eq_map, List.map_cons, List.map_map]
    refine congrArg₂ _ (by simp) ?_
    apply List.map_congr_left
    intro m _
    simp only [Function.comp_apply]
    congr 2 <;> push_cast <;> ring

theorem llBackSteps_exact (start end_ : ℤ) (dim q : ℕ) (hdim : 0 < dim)
    (hq : end_ - start = (dim : ℤ) * q) (hq1 : 0 < q) :
    llBackSteps start end_ dim = q := by
  obtain ⟨qq, rfl⟩ : ∃ qq, q = qq + 1 := ⟨q - 1, by omega⟩
  rw [llBackSteps, if_neg (Nat.pos_iff_ne_zero.mp hdim)]
  have h1 : end_ - dim - start = (dim : ℤ) * qq := by
    push_cast at hq ⊢
    linear_combination hq
  have h2 : (0 : ℤ) ≤ (dim : ℤ) * qq := by positivity
  rw [if_neg (not_lt.mpr (by linarith))]
  have h3 : (end_ - ↑dim - start).toNat = dim * qq := by
    rw [h1, ← Nat.cast_mul, Int.toNat_natCast]
  rw [h3, Nat.mul_div_cancel_left _ hdim]

theorem listSA_dropLast_dup (l : List (ℚ × ℚ)) (a : ℚ × ℚ) (hhead : l.head? = some a)
    (hlast : l.getLast? = some a) : listSA l.dropLast = listSA l := by
  have hshoe : shoe a a = 0 := by simp [shoe]
  rcases l with _ | ⟨x, _ | ⟨y, t⟩⟩
  · simp at hhead
  · have hx : x = a := by simpa using hhead
    rw [hx]
    simp [listSA, pathSA, hshoe]
  · have hx : x = a := by simpa using hhead
    rw [hx] at hlast ⊢
    have hsplit : (a :: y :: t).dropLast ++ [a] = a :: y :: t :=
      List.dropLast_append_getLast? a hlast
    have hne : (a :: y :: t).dropLast ≠ [] := by
      simp [List.dropLast_cons_of_ne_nil]
    obtain ⟨w, hw⟩ : ∃ w, (a :: y :: t).dropLast = a :: w := by
      cases hd : (a :: y :: t).dropLast with
      | nil => exact absurd hd hne
      | cons c w =>
        refine ⟨w, ?_⟩
        have : c = a := by
          have := congrArg List.head? hsplit
          rw [hd] at this
          simpa using this
        rw [this]
    obtain ⟨gl, hgl⟩ : ∃ gl, (a :: w).getLast? = some gl :=
      ⟨(a :: w).getLast (by simp), List.getLast?_eq_getLast _ _⟩
    have hLHS : listSA (a :: y :: t).dropLast = pathSA (a :: w) + shoe gl a := by
      rw [hw, listSA, pathSA_append_last, hgl]
    have hRHS : listSA (a :: y :: t) = pathSA (a :: w) + shoe gl a + shoe a a := by
      rw [listSA, ← hsplit, hw]
      have e1 : (a :: w) ++ [a] ++ [a] = ((a :: w) ++ [a]) ++ [a] := by simp
      rw [e1, pathSA_append_last, pathSA_append_last, hgl]
      have e2 : ((a :: w) ++ [a]).getLast? = some a := List.getLast?_concat _
      rw [e2]
    rw [hLHS, hRHS, hshoe, add_zero]

/-- `listSA` of a single point is zero (a ring of one vertex has no area). -/
theorem listSA_single (p : ℚ × ℚ) : listSA [p] = 0 := by
  simp [listSA, pathSA, shoe]

/-- The point list `linkedList` is asked to assemble: the forward sequence of
the range when the requested winding agrees with the sign test of
`signedArea`, the reversed sequence otherwise. -/
def dirPts (data : List ℚ) (start end_ : ℤ) (dim q : ℕ) (cw : Bool) :
    List (ℚ × ℚ) :=
  if cw = decide (signedArea data start end_ dim > 0) then fwdPts data dim q start
  else (fwdPts data dim q start).reverse

/-- The duplicate-endpoint removal step at the end of `linkedList`: on any
circular block it yields a ring (dropping the last node exactly when it
duplicates the head's coordinates) with an unchanged shoelace sum. -/
theorem dedupStep (st1 : EState) (n0 q : ℕ) (f : ℕ → ℕ × ℚ × ℚ)
    (hq1 : 0 < q) (hlen : st1.nodes.length = n0 + q)
    (hch : chainBlock st1 n0 q f) :
    ∃ st' r k',
      (if equalsN (nd st1 (n0 + q - 1)) (nd st1 (nd st1 (n0 + q - 1)).next) then
        (removeNode st1 (n0 + q - 1),
         some ((nd (removeNode st1 (n0 + q - 1)) (n0 + q - 1)).next))
      else (st1, some (n0 + q - 1))) = (st', some r) ∧
      0 < k' ∧ n0 ≤ r ∧ r < n0 + k' ∧
      st'.triangles = st1.triangles ∧
      (∀ j, j < n0 → nd st' j = nd st1 j) ∧
      (∃ g, chainBlock st' n0 k' g) ∧
      ((k' = q ∧ blockPts st' n0 k' = blockPts st1 n0 q) ∨
       (2 ≤ q ∧ k' = q - 1 ∧
         blockPts st' n0 k' = (blockPts st1 n0 q).dropLast ∧
         (blockPts st1 n0 q).getLast? = (blockPts st1 n0 q).head?)) ∧
      listSA (blockPts st' n0 k') = listSA (blockPts st1 n0 q) := by
  obtain ⟨qq, rfl⟩ : ∃ qq, q = qq + 1 := ⟨q - 1, by omega⟩
  have e1 : n0 + (qq + 1) - 1 = n0 + qq := rfl
  have hnext : (nd st1 (n0 + (qq + 1) - 1)).next = n0 := by
    rw [e1, hch qq (by omega)]
    simp
  have hPmap : blockPts st1 n0 (qq + 1) =
      (List.range (qq + 1)).map (fun m => ((f m).2.1, (f m).2.2)) :=
    blockPts_of_chain st1 n0 (qq + 1) f hch
  have hPhead : (blockPts st1 n0 (qq + 1)).head? = some ((f 0).2.1, (f 0).2.2) := by
    rw [hPmap, List.range_succ_eq_map]
    rfl
  have hPlast : (blockPts st1 n0 (qq + 1)).getLast? =
      some ((f qq).2.1, (f qq).2.2) := by
    rw [hPmap, List.range_succ, List.map_append, List.map_cons, List.map_nil]
    exact List.getLast?_concat _
  by_cases hdup : equalsN (nd st1 (n0 + (qq + 1) - 1))
      (nd st1 (nd st1 (n0 + (qq + 1) - 1)).next)
  · have hdup2 := hdup
    rw [hnext, e1] at hdup2
    have hc0 := hch 0 (by omega)
    rw [Nat.add_zero] at hc0
    have hx' : (f qq).2.1 = (f 0).2.1 := by
      have h := hdup2.1
      rw [hch qq (by omega), hc0] at h
      exact h
    have hy' : (f qq).2.2 = (f 0).2.2 := by
      have h := hdup2.2
      rw [hch qq (by omega), hc0] at h
      exact h
    rcases Nat.eq_zero_or_pos qq with rfl | hqq
    · have e0 : n0 + (0 + 1) - 1 = n0 := rfl
      obtain ⟨hL, hch', hpre, htri, hnext'⟩ := removeNode_single_chain st1 n0 f hlen hch
      have hbp : blockPts (removeNode st1 n0) n0 (0 + 1) = blockPts st1 n0 (0 + 1) := by
        rw [blockPts_of_chain _ _ _ _ hch', hPmap]
      refine ⟨removeNode st1 n0, n0, 0 + 1, ?_, by omega, le_refl _, by omega,
        htri, hpre, ⟨f, hch'⟩, Or.inl ⟨rfl, hbp⟩, by rw [hbp]⟩
      rw [if_pos hdup, e0, hnext']
    · obtain ⟨hL, hch', hpre, htri, hnext'⟩ :=
        removeNode_last_chain st1 n0 (qq + 1) f (by omega) hlen hch
      have hbp : blockPts (removeNode st1 (n0 + (qq + 1) - 1)) n0 (qq + 1 - 1) =
          (blockPts st1 n0 (qq + 1)).dropLast := by
        rw [blockPts_of_chain _ _ _ _ hch', hPmap, List.range_succ, List.map_append,
          List.map_cons, List.map_nil, List.dropLast_concat]
        rfl
      have hgl : (blockPts st1 n0 (qq + 1)).getLast? = (blockPts st1 n0 (qq + 1)).head? := by
        rw [hPlast, hPhead, hx', hy']
      refine ⟨removeNode st1 (n0 + (qq + 1) - 1), n0, qq + 1 - 1, ?_, by omega,
        le_refl _, by omega, htri, hpre, ⟨f, hch'⟩,
        Or.inr ⟨by omega, rfl, hbp, hgl⟩, ?_⟩
      · rw [if_pos hdup, hnext']
      · rw [hbp]
        exact listSA_dropLast_dup _ ((f 0).2.1, (f 0).2.2) hPhead
          (by rw [hPlast, hx', hy'])
  · exact ⟨st1, n0 + (qq + 1) - 1, qq + 1, by rw [if_neg hdup], by omega, by omega,
      by omega, rfl, fun j _ => rfl, ⟨f, hch⟩, Or.inl ⟨rfl, rfl⟩, rfl⟩

/-- C7: over a well-formed range (`end - start = dim * q`, `q > 0`),
`linkedList` builds a circular ring of the range\'s points, walking the data
forward exactly when the requested `clockwise` flag equals the sign test
`signedArea > 0` and backward otherwise (possibly dropping a duplicated
endpoint), so that whenever the range\'s signed area is nonzero the built
ring\'s own shoelace sum is positive — the engine\'s clockwise winding — if and
only if `clockwise` was requested. Since `earcut` requests the outer ring
with `clockwise = true` and `ehBuild` requests every hole ring with
`clockwise = false`, outer and hole rings get opposite windings regardless of
the input\'s winding. -/
theorem linkedList_direction_winding (st0 : EState) (data : List ℚ)
    (start end_ : ℤ) (dim q n0 : ℕ) (cw : Bool)
    (hdim : 0 < dim) (hq : end_ - start = (dim : ℤ) * q) (hq1 : 0 < q)
    (hn0 : st0.nodes.length = n0) :
    ∃ st' r k',
      linkedList st0 data start end_ dim cw = (st', some r) ∧
      0 < k' ∧ n0 ≤ r ∧ r < n0 + k' ∧
      st'.triangles = st0.triangles ∧
      (∀ j, j < n0 → nd st' j = nd st0 j) ∧
      (∃ g, chainBlock st' n0 k' g) ∧
      ((k' = q ∧ blockPts st' n0 k' = dirPts data start end_ dim q cw) ∨
       (2 ≤ q ∧ k' = q - 1 ∧
         blockPts st' n0 k' = (dirPts data start end_ dim q cw).dropLast ∧
         (dirPts data start end_ dim q cw).getLast? =
           (dirPts data start end_ dim q cw).head?)) ∧
      (signedArea data start end_ dim ≠ 0 →
        (0 < listSA (blockPts st' n0 k') ↔ cw = true)) := by
  have hSA := signedArea_eq_listSA data start end_ dim q hdim hq hq1
  by_cases hdir : cw = decide (signedArea data start end_ dim > 0)
  · obtain ⟨st1, heq, hL1, hch1, hpre1, htri1⟩ :=
      llForward_build data dim start q hq1 st0 n0 hn0
    obtain ⟨st', r, k', hstep, hk0, hr1, hr2, htri2, hpre2, hchain', hdisj, hlsa⟩ :=
      dedupStep st1 n0 q (fwdNode data dim start) hq1 hL1 hch1
    have hpts : blockPts st1 n0 q = fwdPts data dim q start := by
      rw [blockPts_of_chain st1 n0 q _ hch1, fwdPts_eq_map]
      apply List.map_congr_left
      intro m _
      rfl
    have hdirpts : dirPts data start end_ dim q cw = fwdPts data dim q start := by
      rw [dirPts, if_pos hdir]
    have hLL : linkedList st0 data start end_ dim cw = (st', some r) := by
      simp only [linkedList, if_pos hdir, sAsteps_exact start end_ dim q hdim hq, heq]
      exact hstep
    refine ⟨st', r, k', hLL, hk0, hr1, hr2, htri2.trans htri1,
      fun j hj => (hpre2 j hj).trans (hpre1 j hj), hchain', ?_, ?_⟩
    · rcases hdisj with ⟨hk, hbp⟩ | ⟨hq2, hk, hbp, hgl⟩
      · exact Or.inl ⟨hk, by rw [hbp, hpts, hdirpts]⟩
      · refine Or.inr ⟨hq2, hk, by rw [hbp, hpts, hdirpts], ?_⟩
        rw [hdirpts, ← hpts]
        exact hgl
    · intro hne0
      rw [hlsa, hpts, ← hSA, hdir]
      simp
  · obtain ⟨st1, heq, hL1, hch1, hpre1, htri1⟩ :=
      llBackward_build data dim (end_ - dim) q hq1 st0 n0 hn0
    obtain ⟨st', r, k', hstep, hk0, hr1, hr2, htri2, hpre2, hchain', hdisj, hlsa⟩ :=
      dedupStep st1 n0 q (bwdNode data dim (end_ - dim)) hq1 hL1 hch1
    have hpts : blockPts st1 n0 q = (fwdPts data dim q start).reverse := by
      rw [blockPts_of_chain st1 n0 q _ hch1]
      have h1 : (List.range q).map
          (fun m => ((bwdNode data dim (end_ - dim) m).2.1,
            (bwdNode data dim (end_ - dim) m).2.2)) =
          bwdPts data dim q (end_ - dim) := by
        rw [bwdPts_eq_map]
        apply List.map_congr_left
        intro m _
        rfl
      rw [h1, show end_ - (dim : ℤ) = start + (q : ℤ) * dim - dim from by
        linear_combination hq, bwdPts_eq_reverse]
    have hdirpts : dirPts data start end_ dim q cw = (fwdPts data dim q start).reverse := by
      rw [dirPts, if_neg hdir]
    have hLL : linkedList st0 data start end_ dim cw = (st', some r) := by
      simp only [linkedList, if_neg hdir,
        llBackSteps_exact start end_ dim q hdim hq hq1, heq]
      exact hstep
    refine ⟨st', r, k', hLL, hk0, hr1, hr2, htri2.trans htri1,
      fun j hj => (hpre2 j hj).trans (hpre1 j hj), hchain', ?_, ?_⟩
    · rcases hdisj with ⟨hk, hbp⟩ | ⟨hq2, hk, hbp, hgl⟩
      · exact Or.inl ⟨hk, by rw [hbp, hpts, hdirpts]⟩
      · refine Or.inr ⟨hq2, hk, by rw [hbp, hpts, hdirpts], ?_⟩
        rw [hdirpts, ← hpts]
        exact hgl
    · intro hne0
      rw [hlsa, hpts, listSA_reverse, ← hSA]
      have h1 : cw = !decide (signedArea data start end_ dim > 0) := by
        rcases Bool.eq_false_or_eq_true cw with hc | hc <;>
          rcases Bool.eq_false_or_eq_true
              (decide (signedArea data start end_ dim > 0)) with hd | hd <;>
            rw [hc, hd] <;>
              first
              | rfl
              | (exact absurd (by rw [hc, hd]) hdir)
      rw [h1]
      simp only [gt_iff_lt, Bool.not_eq_true', decide_eq_false_iff_not, neg_pos]
      constructor
      · exact fun h => not_lt.mpr h.le
      · exact fun h => lt_of_le_of_ne (not_lt.mp h) hne0

/-- C7 witness: the direction/winding theorem applied to a concrete
counterclockwise triangle with `clockwise = true` requested. -/
theorem linkedList_direction_winding_witness :
    (0 < 2 ∧ (6 : ℤ) - 0 = ((2 : ℕ) : ℤ) * ((3 : ℕ) : ℤ) ∧ 0 < 3 ∧
      (⟨[], []⟩ : EState).nodes.length = 0) ∧
    (∃ st' r k',
      linkedList ⟨[], []⟩ [0, 0, 3, 0, 0, 3] 0 6 2 true = (st', some r) ∧
      0 < k' ∧ 0 ≤ r ∧ r < 0 + k' ∧
      st'.triangles = (⟨[], []⟩ : EState).triangles ∧
      (∀ j, j < 0 → nd st' j = nd ⟨[], []⟩ j) ∧
      (∃ g, chainBlock st' 0 k' g) ∧
      ((k' = 3 ∧ blockPts st' 0 k' = dirPts [0, 0, 3, 0, 0, 3] 0 6 2 3 true) ∨
       (2 ≤ 3 ∧ k' = 3 - 1 ∧
         blockPts st' 0 k' = (dirPts [0, 0, 3, 0, 0, 3] 0 6 2 3 true).dropLast ∧
         (dirPts [0, 0, 3, 0, 0, 3] 0 6 2 3 true).getLast? =
           (dirPts [0, 0, 3, 0, 0, 3] 0 6 2 3 true).head?)) ∧
      (signedArea [0, 0, 3, 0, 0, 3] 0 6 2 ≠ 0 →
        (0 < listSA (blockPts st' 0 k') ↔ true = true))) :=
  ⟨⟨by decide, by decide, by decide, rfl⟩,
    linkedList_direction_winding ⟨[], []⟩ [0, 0, 3, 0, 0, 3] 0 6 2 3 0 true
      (by decide) (by decide) (by decide) rfl⟩

/-!
## C3: grid re-tessellation leaves no triangle straddling a grid line
-/

/-- For a positive modulus the JS remainder of a nonnegative argument lies in
`[0, n)`. -/
theorem jsRem_pos_nonneg {n x : ℚ} (hn : 0 < n) (hx : 0 ≤ x) :
    0 ≤ jsRem x n ∧ jsRem x n < n := by
  have hn0 : n ≠ 0 := ne_of_gt hn
  rw [jsRem_eq_mul x n hn0]
  have hq : 0 ≤ x / n := div_nonneg hx hn.le
  obtain ⟨h1, h2⟩ := ratTrunc_nonneg_bounds hq
  constructor <;> nlinarith

/-- For a positive modulus the JS remainder of a negative argument lies in
`(-n, 0]`. -/
theorem jsRem_pos_neg {n x : ℚ} (hn : 0 < n) (hx : x < 0) :
    -n < jsRem x n ∧ jsRem x n ≤ 0 := by
  have hn0 : n ≠ 0 := ne_of_gt hn
  rw [jsRem_eq_mul x n hn0]
  have hq : ¬0 ≤ x / n := by
    rw [not_le]
    exact div_neg_of_neg_of_pos hx hn
  obtain ⟨h1, h2⟩ := ratTrunc_neg_bounds hq
  constructor <;> nlinarith

/-- The JS remainder differs from its argument by a whole number of moduli. -/
theorem jsRem_sub (x n : ℚ) : ∃ k : ℤ, x - jsRem x n = n * k :=
  ⟨ratTrunc (x / n), by rw [jsRem]; ring⟩

/-- For a positive modulus `mod2` yields the canonical representative in
`[0, modulo)` congruent to the argument. -/
theorem mod2_pos_spec {modulo : ℚ} (x : ℚ) (hmod : 0 < modulo) :
    ∃ m, mod2 x modulo = some m ∧ 0 ≤ m ∧ m < modulo ∧
      ∃ k : ℤ, x - m = modulo * k := by
  have hn0 : modulo ≠ 0 := ne_of_gt hmod
  have hy0 : 0 < jsRem x modulo + modulo := by
    rcases le_or_lt 0 x with hx | hx
    · have := (jsRem_pos_nonneg hmod hx).1
      linarith
    · have := (jsRem_pos_neg hmod hx).1
      linarith
  have hb := jsRem_pos_nonneg hmod hy0.le
  refine ⟨jsRem (jsRem x modulo + modulo) modulo, by rw [mod2, if_neg hn0], hb.1, hb.2, ?_⟩
  obtain ⟨k1, hk1⟩ := jsRem_sub x modulo
  obtain ⟨k2, hk2⟩ := jsRem_sub (jsRem x modulo + modulo) modulo
  refine ⟨k1 + k2 - 1, ?_⟩
  push_cast
  linear_combination hk1 + hk2

/-- `v + modulo - mod2 v modulo` is the least grid multiple strictly above
`v`. -/
theorem nextMult_spec {modulo : ℚ} (v : ℚ) (hmod : 0 < modulo) :
    ∃ m, mod2 v modulo = some m ∧
      (∃ k : ℤ, v + modulo - m = modulo * k) ∧
      v < v + modulo - m ∧
      ∀ j : ℤ, v < j * modulo → v + modulo - m ≤ j * modulo := by
  obtain ⟨m, hm, h0, hlt, k, hk⟩ := mod2_pos_spec v hmod
  refine ⟨m, hm, ⟨k + 1, by push_cast; linarith⟩, by linarith, ?_⟩
  intro j hj
  have hkj : (k : ℚ) < (j : ℚ) := by
    by_contra hc
    push_neg at hc
    nlinarith
  have hkj2 : k < j := by exact_mod_cast hkj
  have hkj3 : ((k + 1 : ℤ) : ℚ) ≤ (j : ℚ) := by exact_mod_cast hkj2
  push_cast at hkj3
  nlinarith

/-- `v` minus the adjusted remainder is the greatest grid multiple strictly
below `v`. -/
theorem prevMult_spec {modulo : ℚ} (v : ℚ) (hmod : 0 < modulo) :
    ∃ m0, mod2 v modulo = some m0 ∧
      (∃ k : ℤ, v - (if m0 = 0 then modulo else m0) = modulo * k) ∧
      v - (if m0 = 0 then modulo else m0) < v ∧
      ∀ j : ℤ, j * modulo < v → j * modulo ≤ v - (if m0 = 0 then modulo else m0) := by
  obtain ⟨m, hm, h0, hlt, k, hk⟩ := mod2_pos_spec v hmod
  refine ⟨m, hm, ?_, ?_, ?_⟩
  · by_cases hz : m = 0
    · exact ⟨k - 1, by rw [if_pos hz]; push_cast; rw [hz] at hk; linarith⟩
    · exact ⟨k, by rw [if_neg hz]; linarith⟩
  · split_ifs with hz
    · linarith
    · have : 0 < m := lt_of_le_of_ne h0 (Ne.symm hz)
      linarith
  · intro j hj
    by_cases hz : m = 0
    · rw [if_pos hz]
      rw [hz] at hk
      have hkj : (j : ℚ) < (k : ℚ) := by
        by_contra hc
        push_neg at hc
        nlinarith
      have hkj2 : j ≤ k - 1 := by
        have : j < k := by exact_mod_cast hkj
        omega
      have hkj3 : (j : ℚ) ≤ ((k - 1 : ℤ) : ℚ) := by exact_mod_cast hkj2
      push_cast at hkj3
      nlinarith
    · rw [if_neg hz]
      have hkj : (j : ℚ) < ((k : ℚ) + 1) := by
        by_contra hc
        push_neg at hc
        nlinarith
      have hkj2 : j ≤ k := by
        have : j < k + 1 := by exact_mod_cast hkj
        omega
      have hkj3 : (j : ℚ) ≤ (k : ℚ) := by exact_mod_cast hkj2
      nlinarith

theorem orElse_eq_none_iff {α : Type} (x y : Option α) :
    (x <|> y) = none ↔ x = none ∧ y = none := by
  cases x <;> simp [HOrElse.hOrElse, OrElse.orElse, Option.orElse]

/-- If corner 1 is the strict minimum and its guard holds, `splitIfNecessary`
decides to split. -/
theorem sin_fires_min1 {v1 v2 v3 modulo m : ℚ} (h12 : v1 < v2) (h13 : v1 < v3)
    (hm : mod2 v1 modulo = some m)
    (hg : v1 + modulo - m > v1 ∧ v1 + modulo - m ≤ v2 ∧ v1 + modulo - m ≤ v3 ∧
      v2 ≠ v1 + modulo - m) :
    sinDecide v1 v2 v3 modulo ≠ none := by
  intro hnone
  rw [sinDecide] at hnone
  rw [orElse_eq_none_iff, orElse_eq_none_iff] at hnone
  obtain ⟨hA, -, -⟩ := hnone
  rw [if_pos (And.intro h12 h13), hm] at hA
  dsimp only at hA
  rw [if_pos hg] at hA
  exact Option.noConfusion hA

/-- If corner 1 is the strict maximum and its guard holds, `splitIfNecessary`
decides to split. -/
theorem sin_fires_max1 {v1 v2 v3 modulo m0 : ℚ} (h12 : v2 < v1) (h13 : v3 < v1)
    (hm : mod2 v1 modulo = some m0)
    (hg : v1 - (if m0 = 0 then modulo else m0) < v1 ∧
      v1 - (if m0 = 0 then modulo else m0) ≥ v2 ∧
      v1 - (if m0 = 0 then modulo else m0) ≥ v3 ∧
      v2 ≠ v1 - (if m0 = 0 then modulo else m0)) :
    sinDecide v1 v2 v3 modulo ≠ none := by
  intro hnone
  rw [sinDecide] at hnone
  rw [orElse_eq_none_iff, orElse_eq_none_iff] at hnone
  obtain ⟨hA, -, -⟩ := hnone
  rw [if_neg (fun hc => absurd hc.1 (not_lt.mpr h12.le)),
    if_pos (And.intro h12 h13), hm] at hA
  dsimp only at hA
  rw [if_pos hg] at hA
  exact Option.noConfusion hA

/-- If corner 2 is the strict minimum and its guard holds, `splitIfNecessary`
decides to split. -/
theorem sin_fires_min2 {v1 v2 v3 modulo m : ℚ} (h21 : v2 < v1) (h23 : v2 < v3)
    (hm : mod2 v2 modulo = some m)
    (hg : v2 + modulo - m > v2 ∧ v2 + modulo - m ≤ v3 ∧ v2 + modulo - m ≤ v1 ∧
      (v1 ≠ v2 + modulo - m ∨ v3 ≠ v2 + modulo - m)) :
    sinDecide v1 v2 v3 modulo ≠ none := by
  intro hnone
  rw [sinDecide] at hnone
  rw [orElse_eq_none_iff, orElse_eq_none_iff] at hnone
  obtain ⟨-, hB, -⟩ := hnone
  rw [if_pos (And.intro h21 h23), hm] at hB
  dsimp only at hB
  rw [if_pos hg] at hB
  exact Option.noConfusion hB

/-- If corner 2 is the strict maximum and its guard holds, `splitIfNecessary`
decides to split. -/
theorem sin_fires_max2 {v1 v2 v3 modulo m0 : ℚ} (h21 : v1 < v2) (h23 : v3 < v2)
    (hm : mod2 v2 modulo = some m0)
    (hg : v2 - (if m0 = 0 then modulo else m0) < v2 ∧
      v2 - (if m0 = 0 then modulo else m0) ≥ v3 ∧
      v2 - (if m0 = 0 then modulo else m0) ≥ v1 ∧
      (v1 ≠ v2 - (if m0 = 0 then modulo else m0) ∨
        v3 ≠ v2 - (if m0 = 0 then modulo else m0))) :
    sinDecide v1 v2 v3 modulo ≠ none := by
  intro hnone
  rw [sinDecide] at hnone
  rw [orElse_eq_none_iff, orElse_eq_none_iff] at hnone
  obtain ⟨-, hB, -⟩ := hnone
  rw [if_neg (fun hc => absurd hc.1 (not_lt.mpr h21.le)),
    if_pos (And.intro h21 h23), hm] at hB
  dsimp only at hB
  rw [if_pos hg] at hB
  exact Option.noConfusion hB

/-- If corner 3 is the strict minimum and its guard holds, `splitIfNecessary`
decides to split. -/
theorem sin_fires_min3 {v1 v2 v3 modulo m : ℚ} (h31 : v3 < v1) (h32 : v3 < v2)
    (hm : mod2 v3 modulo = some m)
    (hg : v3 + modulo - m > v3 ∧ v3 + modulo - m ≤ v1 ∧ v3 + modulo - m ≤ v2 ∧
      (v1 ≠ v3 + modulo - m ∨ v2 ≠ v3 + modulo - m)) :
    sinDecide v1 v2 v3 modulo ≠ none := by
  intro hnone
  rw [sinDecide] at hnone
  rw [orElse_eq_none_iff, orElse_eq_none_iff] at hnone
  obtain ⟨-, -, hC⟩ := hnone
  rw [if_pos (And.intro h31 h32), hm] at hC
  dsimp only at hC
  rw [if_pos hg] at hC
  exact Option.noConfusion hC

/-- If corner 3 is the strict maximum and its guard holds, `splitIfNecessary`
decides to split. -/
theorem sin_fires_max3 {v1 v2 v3 modulo m0 : ℚ} (h31 : v1 < v3) (h32 : v2 < v3)
    (hm : mod2 v3 modulo = some m0)
    (hg : v3 - (if m0 = 0 then modulo else m0) < v3 ∧
      v3 - (if m0 = 0 then modulo else m0) ≥ v1 ∧
      v3 - (if m0 = 0 then modulo else m0) ≥ v2 ∧
      (v1 ≠ v3 - (if m0 = 0 then modulo else m0) ∨
        v2 ≠ v3 - (if m0 = 0 then modulo else m0))) :
    sinDecide v1 v2 v3 modulo ≠ none := by
  intro hnone
  rw [sinDecide] at hnone
  rw [orElse_eq_none_iff, orElse_eq_none_iff] at hnone
  obtain ⟨-, -, hC⟩ := hnone
  rw [if_neg (fun hc => absurd hc.1 (not_lt.mpr h31.le)),
    if_pos (And.intro h31 h32), hm] at hC
  dsimp only at hC
  rw [if_pos hg] at hC
  exact Option.noConfusion hC

/-- The fixpoint of the split decision: when `splitIfNecessary` declines to
split (positive modulus), no grid multiple lies strictly between the
triangle\'s least and greatest coordinate on the inspected axis. -/
theorem sinDecide_none_no_straddle {v1 v2 v3 modulo : ℚ} (hmod : 0 < modulo)
    (hnone : sinDecide v1 v2 v3 modulo = none) (k : ℤ)
    (hlo : min v1 (min v2 v3) < k * modulo)
    (hhi : k * modulo < max v1 (max v2 v3)) : False := by
  by_cases hA : v2 < v1 ∧ v3 < v1
  · -- corner 1 is the strict maximum
    obtain ⟨h12, h13⟩ := hA
    rw [max_eq_left (max_le h12.le h13.le)] at hhi
    rw [min_eq_right ((min_le_left v2 v3).trans h12.le)] at hlo
    obtain ⟨m0, hm0, ⟨kp, hkp⟩, hpmlt, hpmmax⟩ := prevMult_spec v1 hmod
    have hMpm : k * modulo ≤ v1 - (if m0 = 0 then modulo else m0) := hpmmax k hhi
    rcases le_or_lt v2 (v1 - (if m0 = 0 then modulo else m0)) with hge2 | hlt2
    · rcases le_or_lt v3 (v1 - (if m0 = 0 then modulo else m0)) with hge3 | hlt3
      · by_cases hne2 : v2 = v1 - (if m0 = 0 then modulo else m0)
        · rcases lt_trichotomy v3 v2 with h32 | h32 | h32
          · obtain ⟨m3, hm3, ⟨kn, hkn⟩, hnp1, hnp2⟩ := nextMult_spec v3 hmod
            have hpmv : (kp : ℚ) * modulo = v2 := by
              rw [mul_comm, ← hkp, ← hne2]
            have h1 : v3 < (kp : ℚ) * modulo := by
              rw [hpmv]
              exact h32
            have h2 : v3 + modulo - m3 ≤ v2 := by
              have := hnp2 kp h1
              rwa [hpmv] at this
            exact sin_fires_min3 (h32.trans h12) h32 hm3
              ⟨hnp1, by linarith, h2, Or.inl (ne_of_gt (by linarith))⟩ hnone
          · rw [h32, min_self] at hlo
            linarith
          · linarith
        · exact sin_fires_max1 h12 h13 hm0 ⟨hpmlt, hge2, hge3, hne2⟩ hnone
      · have h23 : v2 < v3 := by
          rcases le_or_lt v3 v2 with h | h
          · rw [min_eq_right h] at hlo
            linarith
          · exact h
        rw [min_eq_left h23.le] at hlo
        obtain ⟨m2, hm2, ⟨kn, hkn⟩, hnp1, hnp2⟩ := nextMult_spec v2 hmod
        have hnpM : v2 + modulo - m2 ≤ k * modulo := hnp2 k hlo
        exact sin_fires_min2 h12 h23 hm2
          ⟨hnp1, by linarith, by linarith, Or.inl (ne_of_gt (by linarith))⟩ hnone
    · have h32 : v3 < v2 := by
        rcases le_or_lt v2 v3 with h | h
        · rw [min_eq_left h] at hlo
          linarith
        · exact h
      rw [min_eq_right h32.le] at hlo
      obtain ⟨m3, hm3, ⟨kn, hkn⟩, hnp1, hnp2⟩ := nextMult_spec v3 hmod
      have hnpM : v3 + modulo - m3 ≤ k * modulo := hnp2 k hlo
      exact sin_fires_min3 (h32.trans h12) h32 hm3
        ⟨hnp1, by linarith, by linarith, Or.inl (ne_of_gt (by linarith))⟩ hnone
  · by_cases hB : v1 < v2 ∧ v3 < v2
    · -- corner 2 is the strict maximum
      obtain ⟨h12, h32⟩ := hB
      rw [max_eq_left h32.le, max_eq_right h12.le] at hhi
      rw [min_eq_right h32.le] at hlo
      obtain ⟨m0, hm0, ⟨kp, hkp⟩, hpmlt, hpmmax⟩ := prevMult_spec v2 hmod
      have hMpm : k * modulo ≤ v2 - (if m0 = 0 then modulo else m0) := hpmmax k hhi
      rcases le_or_lt v1 (v2 - (if m0 = 0 then modulo else m0)) with hge1 | hlt1
      · rcases le_or_lt v3 (v2 - (if m0 = 0 then modulo else m0)) with hge3 | hlt3
        · by_cases hne1 : v1 = v2 - (if m0 = 0 then modulo else m0)
          · by_cases hne3 : v3 = v2 - (if m0 = 0 then modulo else m0)
            · rw [hne1, hne3, min_self] at hlo
              linarith
            · exact sin_fires_max2 h12 h32 hm0 ⟨hpmlt, hge3, hge1, Or.inr hne3⟩ hnone
          · exact sin_fires_max2 h12 h32 hm0 ⟨hpmlt, hge3, hge1, Or.inl hne1⟩ hnone
        · have h13 : v1 < v3 := by
            rcases le_or_lt v3 v1 with h | h
            · rw [min_eq_right h] at hlo
              linarith
            · exact h
          rw [min_eq_left h13.le] at hlo
          obtain ⟨m1, hm1, ⟨kn, hkn⟩, hnp1, hnp2⟩ := nextMult_spec v1 hmod
          have hnpM : v1 + modulo - m1 ≤ k * modulo := hnp2 k hlo
          exact sin_fires_min1 h12 h13 hm1
            ⟨hnp1, by linarith, by linarith, ne_of_gt (by linarith)⟩ hnone
      · have h31 : v3 < v1 := by
          rcases le_or_lt v1 v3 with h | h
          · rw [min_eq_left h] at hlo
            linarith
          · exact h
        rw [min_eq_right h31.le] at hlo
        obtain ⟨m3, hm3, ⟨kn, hkn⟩, hnp1, hnp2⟩ := nextMult_spec v3 hmod
        have hnpM : v3 + modulo - m3 ≤ k * modulo := hnp2 k hlo
        exact sin_fires_min3 h31 h32 hm3
          ⟨hnp1, by linarith, by linarith, Or.inl (ne_of_gt (by linarith))⟩ hnone
    · by_cases hC : v1 < v3 ∧ v2 < v3
      · -- corner 3 is the strict maximum
        obtain ⟨h13, h23⟩ := hC
        rw [max_eq_right h23.le, max_eq_right h13.le] at hhi
        rw [min_eq_left h23.le] at hlo
        obtain ⟨m0, hm0, ⟨kp, hkp⟩, hpmlt, hpmmax⟩ := prevMult_spec v3 hmod
        have hMpm : k * modulo ≤ v3 - (if m0 = 0 then modulo else m0) := hpmmax k hhi
        rcases le_or_lt v1 (v3 - (if m0 = 0 then modulo else m0)) with hge1 | hlt1
        · rcases le_or_lt v2 (v3 - (if m0 = 0 then modulo else m0)) with hge2 | hlt2
          · by_cases hne1 : v1 = v3 - (if m0 = 0 then modulo else m0)
            · by_cases hne2 : v2 = v3 - (if m0 = 0 then modulo else m0)
              · rw [hne1, hne2, min_self] at hlo
                linarith
              · exact sin_fires_max3 h13 h23 hm0 ⟨hpmlt, hge1, hge2, Or.inr hne2⟩ hnone
            · exact sin_fires_max3 h13 h23 hm0 ⟨hpmlt, hge1, hge2, Or.inl hne1⟩ hnone
          · have h12 : v1 < v2 := by
              rcases le_or_lt v2 v1 with h | h
              · rw [min_eq_right h] at hlo
                linarith
              · exact h
            rw [min_eq_left h12.le] at hlo
            obtain ⟨m1, hm1, ⟨kn, hkn⟩, hnp1, hnp2⟩ := nextMult_spec v1 hmod
            have hnpM : v1 + modulo - m1 ≤ k * modulo := hnp2 k hlo
            exact sin_fires_min1 h12 h13 hm1
              ⟨hnp1, by linarith, by linarith, ne_of_gt (by linarith)⟩ hnone
        · have h21 : v2 < v1 := by
            rcases le_or_lt v1 v2 with h | h
            · rw [min_eq_left h] at hlo
              linarith
            · exact h
          rw [min_eq_right h21.le] at hlo
          obtain ⟨m2, hm2, ⟨kn, hkn⟩, hnp1, hnp2⟩ := nextMult_spec v2 hmod
          have hnpM : v2 + modulo - m2 ≤ k * modulo := hnp2 k hlo
          exact sin_fires_min2 h21 h23 hm2
            ⟨hnp1, by linarith, by linarith, Or.inl (ne_of_gt (by linarith))⟩ hnone
      · -- no strict maximum: the top value is attained at least twice
        push_neg at hA hB hC
        rcases lt_trichotomy v1 v2 with h12 | h12 | h12
        · have hv23 : v2 ≤ v3 := hB h12
          have h13 : v1 < v3 := lt_of_lt_of_le h12 hv23
          have heq : v2 = v3 := le_antisymm hv23 (hC h13)
          rw [min_eq_left (le_min h12.le h13.le)] at hlo
          rw [← heq, max_self, max_eq_right h12.le] at hhi
          obtain ⟨m1, hm1, ⟨kn, hkn⟩, hnp1, hnp2⟩ := nextMult_spec v1 hmod
          have hnpM : v1 + modulo - m1 ≤ k * modulo := hnp2 k hlo
          exact sin_fires_min1 h12 h13 hm1
            ⟨hnp1, by linarith, by linarith, ne_of_gt (by linarith)⟩ hnone
        · rcases lt_trichotomy v3 v1 with h31 | h31 | h31
          · have h32 : v3 < v2 := by rw [← h12]; exact h31
            rw [min_eq_right h32.le, min_eq_right h31.le] at hlo
            rw [max_eq_left h32.le, ← h12, max_self] at hhi
            obtain ⟨m3, hm3, ⟨kn, hkn⟩, hnp1, hnp2⟩ := nextMult_spec v3 hmod
            have hnpM : v3 + modulo - m3 ≤ k * modulo := hnp2 k hlo
            exact sin_fires_min3 h31 h32 hm3
              ⟨hnp1, by linarith, by linarith, Or.inl (ne_of_gt (by linarith))⟩ hnone
          · rw [← h12, h31, min_self, min_self] at hlo
            rw [← h12, h31, max_self, max_self] at hhi
            linarith
          · have := hC h31
            linarith
        · have hv13 : v1 ≤ v3 := hA h12
          have h23 : v2 < v3 := lt_of_lt_of_le h12 hv13
          have hv31 : v1 = v3 := by
            rcases lt_or_eq_of_le hv13 with h | h
            · have := hC h
              linarith
            · exact h
          rw [min_eq_left h23.le, min_eq_right h12.le] at hlo
          rw [max_eq_right h23.le, ← hv31, max_self] at hhi
          obtain ⟨m2, hm2, ⟨kn, hkn⟩, hnp1, hnp2⟩ := nextMult_spec v2 hmod
          have hnpM : v2 + modulo - m2 ≤ k * modulo := hnp2 k hlo
          exact sin_fires_min2 h12 h23 hm2
            ⟨hnp1, by linarith, by linarith, Or.inl (ne_of_gt (by linarith))⟩ hnone

/-- Linear interpolation with a parameter in `[0, 1]` stays between the
endpoints. -/
theorem interp_bounds (a b t : ℚ) (h0 : 0 ≤ t) (h1 : t ≤ 1) :
    min a b ≤ a + (b - a) * t ∧ a + (b - a) * t ≤ max a b := by
  rcases le_total a b with h | h
  · rw [min_eq_left h, max_eq_right h]
    constructor <;> nlinarith
  · rw [min_eq_right h, max_eq_left h]
    constructor <;> nlinarith

/-- The travel fraction of a rightward split lies in `[0, 1]`. -/
theorem ratio_bounds_right (w1 w2 sp : ℚ) (h1 : w1 < sp) (h2 : sp ≤ w2) :
    0 ≤ (sp - w1) / (w2 - w1) ∧ (sp - w1) / (w2 - w1) ≤ 1 :=
  ⟨div_nonneg (by linarith) (by linarith),
    (div_le_one (by linarith)).mpr (by linarith)⟩

/-- The travel fraction of a leftward split lies in `[0, 1]`. -/
theorem ratio_bounds_left (w1 w2 sp : ℚ) (h1 : sp < w1) (h2 : w2 ≤ sp) :
    0 ≤ (sp - w1) / (w2 - w1) ∧ (sp - w1) / (w2 - w1) ≤ 1 := by
  have he : (sp - w1) / (w2 - w1) = (w1 - sp) / (w1 - w2) := by
    rw [← neg_div_neg_eq]
    congr 1 <;> ring
  rw [he]
  exact ⟨div_nonneg (by linarith) (by linarith),
    (div_le_one (by linarith)).mpr (by linarith)⟩

/-- `st1` has the vertex buffer of `st0` plus appended entries. -/
def vExt (st0 st1 : TState) : Prop :=
  ∃ t, st1.vertices = st0.vertices ++ t

theorem vExt_refl (st : TState) : vExt st st := ⟨[], by simp⟩

theorem vExt_trans {st0 st1 st2 : TState} (h1 : vExt st0 st1) (h2 : vExt st1 st2) :
    vExt st0 st2 := by
  obtain ⟨t1, ht1⟩ := h1
  obtain ⟨t2, ht2⟩ := h2
  exact ⟨t1 ++ t2, by rw [ht2, ht1, List.append_assoc]⟩

theorem vExt_length {st0 st1 : TState} (h : vExt st0 st1) :
    st0.vertices.length ≤ st1.vertices.length := by
  obtain ⟨t, ht⟩ := h
  rw [ht]
  simp

/-- Reads below the old length are unchanged by a vertex extension. -/
theorem vget_vExt {st0 st1 : TState} (h : vExt st0 st1) (p : ℕ)
    (hp : p < st0.vertices.length) : vget st1 p = vget st0 p := by
  obtain ⟨t, ht⟩ := h
  rw [vget, vget, ht, List.getD_append _ _ _ _ hp]

/-- Vertex `ix` addresses a complete `dim`-tuple inside the buffer. -/
def vValid (st : TState) (dim ix : ℕ) : Prop :=
  (ix + 1) * dim ≤ st.vertices.length

theorem vValid_vExt {st0 st1 : TState} (h : vExt st0 st1) {dim ix : ℕ}
    (hv : vValid st0 dim ix) : vValid st1 dim ix :=
  le_trans hv (vExt_length h)

theorem vget_vExt_valid {st0 st1 : TState} (h : vExt st0 st1) {dim axis ix : ℕ}
    (hv : vValid st0 dim ix) (hax : axis < dim) :
    vget st1 (ix * dim + axis) = vget st0 (ix * dim + axis) := by
  apply vget_vExt h
  have hv' : (ix + 1) * dim ≤ st0.vertices.length := hv
  have h1 : ix * dim + axis < ix * dim + dim := by omega
  have h2 : ix * dim + dim = (ix + 1) * dim := by ring
  omega

/-- Coordinates of vertex `ix` on every non-split axis lie in `[lo i, hi i]`. -/
def coordsIn (st : TState) (dim axis : ℕ) (lo hi : ℕ → ℚ) (ix : ℕ) : Prop :=
  ∀ i, i < dim → i ≠ axis →
    lo i ≤ vget st (ix * dim + i) ∧ vget st (ix * dim + i) ≤ hi i

theorem coordsIn_vExt {st0 st1 : TState} (h : vExt st0 st1) {dim axis : ℕ}
    {lo hi : ℕ → ℚ} {ix : ℕ} (hv : vValid st0 dim ix)
    (hc : coordsIn st0 dim axis lo hi ix) : coordsIn st1 dim axis lo hi ix := by
  intro i hi1 hi2
  rw [vget_vExt_valid h hv hi1]
  exact hc i hi1 hi2

/-- Full specification of `createVertex`: appended coordinates, returned
index, and exact read-back of the fresh vertex. -/
theorem createVertex_spec (sp : ℚ) (i1 i2 : ℕ) (w1 w2 : ℚ) (st : TState)
    (dim axis : ℕ) (hdvd : dim ∣ st.vertices.length) :
    (createVertex sp i1 i2 w1 w2 st dim axis).1.indices = st.indices ∧
    vExt st (createVertex sp i1 i2 w1 w2 st dim axis).1 ∧
    (createVertex sp i1 i2 w1 w2 st dim axis).1.vertices.length
      = st.vertices.length + dim ∧
    (createVertex sp i1 i2 w1 w2 st dim axis).2 = st.vertices.length / dim ∧
    (∀ i, i < dim → vget (createVertex sp i1 i2 w1 w2 st dim axis).1
        ((createVertex sp i1 i2 w1 w2 st dim axis).2 * dim + i) =
      if i ≠ axis then
        vget st (i1 * dim + i) +
          (vget st (i2 * dim + i) - vget st (i1 * dim + i)) * (sp - w1) / (w2 - w1)
      else sp) := by
  refine ⟨rfl, ⟨_, rfl⟩, by simp [createVertex], rfl, ?_⟩
  intro i hi
  have hpos : st.vertices.length / dim * dim = st.vertices.length :=
    Nat.div_mul_cancel hdvd
  show (st.vertices ++ (List.range dim).map _).getD
      (st.vertices.length / dim * dim + i) 0 = _
  rw [hpos, List.getD_append_right _ _ _ _ (Nat.le_add_right _ _),
    Nat.add_sub_cancel_left, List.getD_eq_getElem?_getD, List.getElem?_map,
    List.getElem?_range hi]
  show (if i ≠ axis then
      vget st (i1 * dim + i) +
        (vget st (i2 * dim + i) - vget st (i1 * dim + i)) / ((w2 - w1) / (sp - w1))
    else sp) = _
  split_ifs
  · rw [div_div_eq_mul_div]
  · rfl

theorem pushI_vertices (st : TState) (l : List ℕ) : (pushI st l).vertices = st.vertices := rfl

theorem pushI_indices (st : TState) (l : List ℕ) : (pushI st l).indices = st.indices ++ l := rfl

theorem vExt_pushI (st : TState) (l : List ℕ) : vExt st (pushI st l) :=
  ⟨[], by simp [pushI]⟩

theorem vValid_pushI (st : TState) (l : List ℕ) (dim ix : ℕ) :
    vValid (pushI st l) dim ix = vValid st dim ix := rfl

theorem coordsIn_pushI (st : TState) (l : List ℕ) (dim axis : ℕ) (lo hi : ℕ → ℚ)
    (ix : ℕ) : coordsIn (pushI st l) dim axis lo hi ix = coordsIn st dim axis lo hi ix := rfl

/-- A fresh vertex interpolated with a travel fraction in `[0,1]` between two
parents bounded by `[lo, hi]` is itself bounded and addressable. -/
theorem createVertex_coordsIn (sp : ℚ) (i1 i2 : ℕ) (w1 w2 : ℚ) (st : TState)
    (dim axis : ℕ) (hdvd : dim ∣ st.vertices.length) (lo hi : ℕ → ℚ)
    (hc1 : coordsIn st dim axis lo hi i1) (hc2 : coordsIn st dim axis lo hi i2)
    (ht : 0 ≤ (sp - w1) / (w2 - w1) ∧ (sp - w1) / (w2 - w1) ≤ 1) :
    vValid (createVertex sp i1 i2 w1 w2 st dim axis).1 dim
      (createVertex sp i1 i2 w1 w2 st dim axis).2 ∧
    coordsIn (createVertex sp i1 i2 w1 w2 st dim axis).1 dim axis lo hi
      (createVertex sp i1 i2 w1 w2 st dim axis).2 := by
  obtain ⟨hind, hext, hlen, hidx, hread⟩ := createVertex_spec sp i1 i2 w1 w2 st dim axis hdvd
  constructor
  · unfold vValid
    rw [hidx, hlen]
    have he : (st.vertices.length / dim + 1) * dim = st.vertices.length + dim := by
      rw [add_mul, one_mul, Nat.div_mul_cancel hdvd]
    omega
  · intro i hi1 hi2
    rw [hread i hi1, if_pos hi2]
    have heq : vget st (i1 * dim + i) +
        (vget st (i2 * dim + i) - vget st (i1 * dim + i)) * (sp - w1) / (w2 - w1) =
        vget st (i1 * dim + i) +
        (vget st (i2 * dim + i) - vget st (i1 * dim + i)) * ((sp - w1) / (w2 - w1)) := by
      rw [mul_div_assoc]
    rw [heq]
    have hb := interp_bounds (vget st (i1 * dim + i)) (vget st (i2 * dim + i))
      ((sp - w1) / (w2 - w1)) ht.1 ht.2
    obtain ⟨ha1, ha2⟩ := hc1 i hi1 hi2
    obtain ⟨hb1, hb2⟩ := hc2 i hi1 hi2
    exact ⟨le_trans (le_min ha1 hb1) hb.1, le_trans hb.2 (max_le ha2 hb2)⟩

/-- Specification of the rightward strip loop: it only appends whole, bounded
triangles and hands back bounded working vertices. -/
theorem splitRightLoop_spec (dim axis : ℕ) (modulo : ℚ) (lo hi : ℕ → ℚ)
    (i1 i2 i3 : ℕ) (w1 w2 w3 bound : ℚ)
    (hax : axis < dim) (hmod : 0 < modulo) (hb2 : bound ≤ w2) (hb3 : bound ≤ w3) :
    ∀ (fuel : ℕ) (modPoint : ℚ) (i12 i13 : ℕ) (st st' : TState) (i12' i13' : ℕ),
      splitRightLoop fuel modPoint bound i1 i2 i3 i12 i13 w1 w2 w3 st dim axis modulo
        = some (st', i12', i13') →
      dim ∣ st.vertices.length → w1 < modPoint →
      vValid st dim i1 → vValid st dim i2 → vValid st dim i3 →
      vValid st dim i12 → vValid st dim i13 →
      coordsIn st dim axis lo hi i1 → coordsIn st dim axis lo hi i2 →
      coordsIn st dim axis lo hi i3 →
      coordsIn st dim axis lo hi i12 → coordsIn st dim axis lo hi i13 →
      vExt st st' ∧ dim ∣ st'.vertices.length ∧
      (∃ app, st'.indices = st.indices ++ app ∧ app.length % 3 = 0 ∧
        ∀ ix ∈ app, vValid st' dim ix ∧ coordsIn st' dim axis lo hi ix) ∧
      vValid st' dim i12' ∧ vValid st' dim i13' ∧
      coordsIn st' dim axis lo hi i12' ∧ coordsIn st' dim axis lo hi i13' := by
  intro fuel
  induction fuel with
  | zero =>
    intro modPoint i12 i13 st st' i12' i13' hres
    exact fun _ _ _ _ _ _ _ _ _ _ _ _ => absurd hres (by rw [splitRightLoop]; exact fun h => Option.noConfusion h)
  | succ f ih =>
    intro modPoint i12 i13 st st' i12' i13' hres hdvd hw1 hv1 hv2 hv3 hv12 hv13
      hc1 hc2 hc3 hc12 hc13
    rw [splitRightLoop] at hres
    by_cases hcond : modPoint < bound
    · rw [if_pos hcond] at hres
      dsimp only at hres
      set st1 := pushI st [i13, i12] with hst1
      set P := createVertex modPoint i1 i3 w1 w3 st1 dim axis with hP
      set st2 := pushI P.1 [P.2, P.2, i12] with hst2
      set Q := createVertex modPoint i1 i2 w1 w2 st2 dim axis with hQ
      set st3 := pushI Q.1 [Q.2] with hst3
      have hmp3 : modPoint ≤ w3 := le_of_lt (lt_of_lt_of_le hcond hb3)
      have hmp2 : modPoint ≤ w2 := le_of_lt (lt_of_lt_of_le hcond hb2)
      have hdvd1 : dim ∣ st1.vertices.length := by rw [hst1, pushI_vertices]; exact hdvd
      obtain ⟨hPind, hPext, hPlen, hPidx, hPread⟩ :=
        createVertex_spec modPoint i1 i3 w1 w3 st1 dim axis hdvd1
      obtain ⟨hPval, hPcoords⟩ :=
        createVertex_coordsIn modPoint i1 i3 w1 w3 st1 dim axis hdvd1 lo hi
          hc1 hc3 (ratio_bounds_right w1 w3 modPoint hw1 hmp3)
      have hextP : vExt st P.1 := vExt_trans (vExt_pushI st [i13, i12]) hPext
      have hdvd2 : dim ∣ st2.vertices.length := by
        rw [hst2, pushI_vertices, hPlen, hst1, pushI_vertices]
        exact Nat.dvd_add hdvd dvd_rfl
      have hextP2 : vExt st st2 := vExt_trans hextP (vExt_pushI P.1 _)
      obtain ⟨hQind, hQext, hQlen, hQidx, hQread⟩ :=
        createVertex_spec modPoint i1 i2 w1 w2 st2 dim axis hdvd2
      obtain ⟨hQval, hQcoords⟩ :=
        createVertex_coordsIn modPoint i1 i2 w1 w2 st2 dim axis hdvd2 lo hi
          (coordsIn_vExt hextP2 hv1 hc1) (coordsIn_vExt hextP2 hv2 hc2)
          (ratio_bounds_right w1 w2 modPoint hw1 hmp2)
      have hextQ : vExt st Q.1 := vExt_trans hextP2 hQext
      have hext3 : vExt st st3 := vExt_trans hextQ (vExt_pushI Q.1 _)
      have hextP3 : vExt P.1 st3 :=
        vExt_trans (vExt_trans (vExt_pushI P.1 _) hQext) (vExt_pushI Q.1 _)
      have hdvd3 : dim ∣ st3.vertices.length := by
        rw [hst3, pushI_vertices, hQlen]
        exact Nat.dvd_add hdvd2 dvd_rfl
      obtain ⟨hext', hdvd', ⟨app, happ, hlen3, hmem⟩, hv12', hv13', hc12', hc13'⟩ :=
        ih (modPoint + modulo) Q.2 P.2 st3 st' i12' i13' hres hdvd3
          (by linarith)
          (vValid_vExt hext3 hv1) (vValid_vExt hext3 hv2) (vValid_vExt hext3 hv3)
          (by rw [vValid_pushI]; exact hQval)
          (vValid_vExt (vExt_trans (vExt_pushI P.1 _) (vExt_trans hQext (vExt_pushI Q.1 _))) hPval)
          (coordsIn_vExt hext3 hv1 hc1) (coordsIn_vExt hext3 hv2 hc2)
          (coordsIn_vExt hext3 hv3 hc3)
          (by rw [coordsIn_pushI]; exact hQcoords)
          (coordsIn_vExt hextP3 hPval hPcoords)
      refine ⟨vExt_trans hext3 hext', hdvd',
        ⟨[i13, i12, P.2, P.2, i12, Q.2] ++ app, ?_, by simp; omega, ?_⟩,
        hv12', hv13', hc12', hc13'⟩
      · rw [happ, hst3, pushI_indices, hQind, hst2, pushI_indices, hPind, hst1,
          pushI_indices]
        simp
      · intro ix hix
        have hextS : vExt st st' := vExt_trans hext3 hext'
        have hextPS : vExt P.1 st' := vExt_trans hextP3 hext'
        have hextQS : vExt Q.1 st' := vExt_trans (vExt_pushI Q.1 _) hext'
        rcases List.mem_append.mp hix with hmem6 | hmemapp
        · simp only [List.mem_cons, List.not_mem_nil, or_false] at hmem6
          rcases hmem6 with rfl | rfl | rfl | rfl | rfl | rfl
          · exact ⟨vValid_vExt hextS hv13, coordsIn_vExt hextS hv13 hc13⟩
          · exact ⟨vValid_vExt hextS hv12, coordsIn_vExt hextS hv12 hc12⟩
          · exact ⟨vValid_vExt hextPS hPval, coordsIn_vExt hextPS hPval hPcoords⟩
          · exact ⟨vValid_vExt hextPS hPval, coordsIn_vExt hextPS hPval hPcoords⟩
          · exact ⟨vValid_vExt hextS hv12, coordsIn_vExt hextS hv12 hc12⟩
          · exact ⟨vValid_vExt hextQS hQval, coordsIn_vExt hextQS hQval hQcoords⟩
        · exact hmem ix hmemapp
    · rw [if_neg hcond, Option.some_inj, Prod.mk.injEq] at hres
      obtain ⟨rfl, hres2⟩ := hres
      rw [Prod.mk.injEq] at hres2
      obtain ⟨rfl, rfl⟩ := hres2
      exact ⟨vExt_refl st, hdvd, ⟨[], by simp, rfl, fun ix h => absurd h (List.not_mem_nil ix)⟩,
        hv12, hv13, hc12, hc13⟩

/-- Specification of the leftward strip loop: mirror image of
`splitRightLoop_spec`. -/
theorem splitLeftLoop_spec (dim axis : ℕ) (modulo : ℚ) (lo hi : ℕ → ℚ)
    (i1 i2 i3 : ℕ) (w1 w2 w3 bound : ℚ)
    (hax : axis < dim) (hmod : 0 < modulo) (hb2 : w2 ≤ bound) (hb3 : w3 ≤ bound) :
    ∀ (fuel : ℕ) (modPoint : ℚ) (i12 i13 : ℕ) (st st' : TState) (i12' i13' : ℕ),
      splitLeftLoop fuel modPoint bound i1 i2 i3 i12 i13 w1 w2 w3 st dim axis modulo
        = some (st', i12', i13') →
      dim ∣ st.vertices.length → modPoint < w1 →
      vValid st dim i1 → vValid st dim i2 → vValid st dim i3 →
      vValid st dim i12 → vValid st dim i13 →
      coordsIn st dim axis lo hi i1 → coordsIn st dim axis lo hi i2 →
      coordsIn st dim axis lo hi i3 →
      coordsIn st dim axis lo hi i12 → coordsIn st dim axis lo hi i13 →
      vExt st st' ∧ dim ∣ st'.vertices.length ∧
      (∃ app, st'.indices = st.indices ++ app ∧ app.length % 3 = 0 ∧
        ∀ ix ∈ app, vValid st' dim ix ∧ coordsIn st' dim axis lo hi ix) ∧
      vValid st' dim i12' ∧ vValid st' dim i13' ∧
      coordsIn st' dim axis lo hi i12' ∧ coordsIn st' dim axis lo hi i13' := by
  intro fuel
  induction fuel with
  | zero =>
    intro modPoint i12 i13 st st' i12' i13' hres
    exact fun _ _ _ _ _ _ _ _ _ _ _ _ =>
      absurd hres (by rw [splitLeftLoop]; exact fun h => Option.noConfusion h)
  | succ f ih =>
    intro modPoint i12 i13 st st' i12' i13' hres hdvd hw1 hv1 hv2 hv3 hv12 hv13
      hc1 hc2 hc3 hc12 hc13
    rw [splitLeftLoop] at hres
    by_cases hcond : modPoint > bound
    · rw [if_pos hcond] at hres
      dsimp only at hres
      set st1 := pushI st [i13, i12] with hst1
      set P := createVertex modPoint i1 i3 w1 w3 st1 dim axis with hP
      set st2 := pushI P.1 [P.2, P.2, i12] with hst2
      set Q := createVertex modPoint i1 i2 w1 w2 st2 dim axis with hQ
      set st3 := pushI Q.1 [Q.2] with hst3
      have hmp3 : w3 ≤ modPoint := le_of_lt (lt_of_le_of_lt hb3 hcond)
      have hmp2 : w2 ≤ modPoint := le_of_lt (lt_of_le_of_lt hb2 hcond)
      have hdvd1 : dim ∣ st1.vertices.length := by rw [hst1, pushI_vertices]; exact hdvd
      obtain ⟨hPind, hPext, hPlen, hPidx, hPread⟩ :=
        createVertex_spec modPoint i1 i3 w1 w3 st1 dim axis hdvd1
      obtain ⟨hPval, hPcoords⟩ :=
        createVertex_coordsIn modPoint i1 i3 w1 w3 st1 dim axis hdvd1 lo hi
          hc1 hc3 (ratio_bounds_left w1 w3 modPoint hw1 hmp3)
      have hextP : vExt st P.1 := vExt_trans (vExt_pushI st [i13, i12]) hPext
      have hdvd2 : dim ∣ st2.vertices.length := by
        rw [hst2, pushI_vertices, hPlen, hst1, pushI_vertices]
        exact Nat.dvd_add hdvd dvd_rfl
      have hextP2 : vExt st st2 := vExt_trans hextP (vExt_pushI P.1 _)
      obtain ⟨hQind, hQext, hQlen, hQidx, hQread⟩ :=
        createVertex_spec modPoint i1 i2 w1 w2 st2 dim axis hdvd2
      obtain ⟨hQval, hQcoords⟩ :=
        createVertex_coordsIn modPoint i1 i2 w1 w2 st2 dim axis hdvd2 lo hi
          (coordsIn_vExt hextP2 hv1 hc1) (coordsIn_vExt hextP2 hv2 hc2)
          (ratio_bounds_left w1 w2 modPoint hw1 hmp2)
      have hextQ : vExt st Q.1 := vExt_trans hextP2 hQext
      have hext3 : vExt st st3 := vExt_trans hextQ (vExt_pushI Q.1 _)
      have hextP3 : vExt P.1 st3 :=
        vExt_trans (vExt_trans (vExt_pushI P.1 _) hQext) (vExt_pushI Q.1 _)
      have hdvd3 : dim ∣ st3.vertices.length := by
        rw [hst3, pushI_vertices, hQlen]
        exact Nat.dvd_add hdvd2 dvd_rfl
      obtain ⟨hext', hdvd', ⟨app, happ, hlen3, hmem⟩, hv12', hv13', hc12', hc13'⟩ :=
        ih (modPoint - modulo) Q.2 P.2 st3 st' i12' i13' hres hdvd3
          (by linarith)
          (vValid_vExt hext3 hv1) (vValid_vExt hext3 hv2) (vValid_vExt hext3 hv3)
          (by rw [vValid_pushI]; exact hQval)
          (vValid_vExt (vExt_trans (vExt_pushI P.1 _) (vExt_trans hQext (vExt_pushI Q.1 _))) hPval)
          (coordsIn_vExt hext3 hv1 hc1) (coordsIn_vExt hext3 hv2 hc2)
          (coordsIn_vExt hext3 hv3 hc3)
          (by rw [coordsIn_pushI]; exact hQcoords)
          (coordsIn_vExt hextP3 hPval hPcoords)
      refine ⟨vExt_trans hext3 hext', hdvd',
        ⟨[i13, i12, P.2, P.2, i12, Q.2] ++ app, ?_, by simp; omega, ?_⟩,
        hv12', hv13', hc12', hc13'⟩
      · rw [happ, hst3, pushI_indices, hQind, hst2, pushI_indices, hPind, hst1,
          pushI_indices]
        simp
      · intro ix hix
        have hextS : vExt st st' := vExt_trans hext3 hext'
        have hextPS : vExt P.1 st' := vExt_trans hextP3 hext'
        have hextQS : vExt Q.1 st' := vExt_trans (vExt_pushI Q.1 _) hext'
        rcases List.mem_append.mp hix with hmem6 | hmemapp
        · simp only [List.mem_cons, List.not_mem_nil, or_false] at hmem6
          rcases hmem6 with rfl | rfl | rfl | rfl | rfl | rfl
          · exact ⟨vValid_vExt hextS hv13, coordsIn_vExt hextS hv13 hc13⟩
          · exact ⟨vValid_vExt hextS hv12, coordsIn_vExt hextS hv12 hc12⟩
          · exact ⟨vValid_vExt hextPS hPval, coordsIn_vExt hextPS hPval hPcoords⟩
          · exact ⟨vValid_vExt hextPS hPval, coordsIn_vExt hextPS hPval hPcoords⟩
          · exact ⟨vValid_vExt hextS hv12, coordsIn_vExt hextS hv12 hc12⟩
          · exact ⟨vValid_vExt hextQS hQval, coordsIn_vExt hextQS hQval hQcoords⟩
        · exact hmem ix hmemapp
    · rw [if_neg hcond, Option.some_inj, Prod.mk.injEq] at hres
      obtain ⟨rfl, hres2⟩ := hres
      rw [Prod.mk.injEq] at hres2
      obtain ⟨rfl, rfl⟩ := hres2
      exact ⟨vExt_refl st, hdvd, ⟨[], by simp, rfl, fun ix h => absurd h (List.not_mem_nil ix)⟩,
        hv12, hv13, hc12, hc13⟩

/-- Specification of `splitRight`: appends whole, bounded triangles and
returns a bounded replacement triangle. -/
theorem splitRight_spec (dim axis : ℕ) (modulo : ℚ) (lo hi : ℕ → ℚ)
    (modPoint : ℚ) (i1 i2 i3 : ℕ) (w1 w2 w3 : ℚ) (st st' : TState)
    (t1 t2 t3 : ℕ) (fuel : ℕ)
    (hax : axis < dim) (hmod : 0 < modulo)
    (hres : splitRight modPoint i1 i2 i3 w1 w2 w3 st dim axis modulo fuel
      = some (st', t1, t2, t3))
    (hdvd : dim ∣ st.vertices.length)
    (hw1 : w1 < modPoint) (hmp2 : modPoint ≤ w2) (hmp3 : modPoint ≤ w3)
    (hv1 : vValid st dim i1) (hv2 : vValid st dim i2) (hv3 : vValid st dim i3)
    (hc1 : coordsIn st dim axis lo hi i1) (hc2 : coordsIn st dim axis lo hi i2)
    (hc3 : coordsIn st dim axis lo hi i3) :
    vExt st st' ∧ dim ∣ st'.vertices.length ∧
    (∃ app, st'.indices = st.indices ++ app ∧ app.length % 3 = 0 ∧
      ∀ ix ∈ app, vValid st' dim ix ∧ coordsIn st' dim axis lo hi ix) ∧
    (vValid st' dim t1 ∧ coordsIn st' dim axis lo hi t1) ∧
    (vValid st' dim t2 ∧ coordsIn st' dim axis lo hi t2) ∧
    (vValid st' dim t3 ∧ coordsIn st' dim axis lo hi t3) := by
  rw [splitRight] at hres
  set P := createVertex modPoint i1 i2 w1 w2 st dim axis with hP
  set Q := createVertex modPoint i1 i3 w1 w3 P.1 dim axis with hQ
  set stA := pushI Q.1 [i1, P.2, Q.2] with hstA
  obtain ⟨hPind, hPext, hPlen, hPidx, hPread⟩ :=
    createVertex_spec modPoint i1 i2 w1 w2 st dim axis hdvd
  obtain ⟨hPval, hPcoords⟩ :=
    createVertex_coordsIn modPoint i1 i2 w1 w2 st dim axis hdvd lo hi
      hc1 hc2 (ratio_bounds_right w1 w2 modPoint hw1 hmp2)
  have hdvdP : dim ∣ P.1.vertices.length := by
    rw [hPlen]
    exact Nat.dvd_add hdvd dvd_rfl
  obtain ⟨hQind, hQext, hQlen, hQidx, hQread⟩ :=
    createVertex_spec modPoint i1 i3 w1 w3 P.1 dim axis hdvdP
  obtain ⟨hQval, hQcoords⟩ :=
    createVertex_coordsIn modPoint i1 i3 w1 w3 P.1 dim axis hdvdP lo hi
      (coordsIn_vExt hPext hv1 hc1) (coordsIn_vExt hPext hv3 hc3)
      (ratio_bounds_right w1 w3 modPoint hw1 hmp3)
  have hextQ : vExt st Q.1 := vExt_trans hPext hQext
  have hextA : vExt st stA := vExt_trans hextQ (vExt_pushI Q.1 _)
  have hextPA : vExt P.1 stA := vExt_trans hQext (vExt_pushI Q.1 _)
  have hdvdA : dim ∣ stA.vertices.length := by
    rw [hstA, pushI_vertices, hQlen]
    exact Nat.dvd_add hdvdP dvd_rfl
  have hindA : stA.indices = st.indices ++ [i1, P.2, Q.2] := by
    rw [hstA, pushI_indices, hQind, hPind]
  by_cases hbr : w2 < w3
  · rw [if_pos hbr] at hres
    cases hloop : splitRightLoop fuel (modPoint + modulo) w2 i1 i2 i3 P.2 Q.2
        w1 w2 w3 stA dim axis modulo with
    | none =>
      rw [hloop] at hres
      exact absurd hres (fun h => Option.noConfusion h)
    | some r =>
      obtain ⟨stL, i12L, i13L⟩ := r
      rw [hloop] at hres
      simp only [Option.some_inj, Prod.mk.injEq] at hres
      obtain ⟨rfl, rfl, rfl, rfl⟩ := hres
      obtain ⟨hextL, hdvdL, ⟨appL, happL, hlenL, hmemL⟩, hv12L, hv13L, hc12L, hc13L⟩ :=
        splitRightLoop_spec dim axis modulo lo hi i1 i2 i3 w1 w2 w3 w2 hax hmod
          le_rfl hbr.le fuel (modPoint + modulo) P.2 Q.2 stA stL i12L i13L hloop
          hdvdA (by linarith)
          (vValid_vExt hextA hv1) (vValid_vExt hextA hv2) (vValid_vExt hextA hv3)
          (vValid_vExt hextPA hPval)
          (by rw [vValid_pushI]; exact hQval)
          (coordsIn_vExt hextA hv1 hc1) (coordsIn_vExt hextA hv2 hc2)
          (coordsIn_vExt hextA hv3 hc3)
          (coordsIn_vExt hextPA hPval hPcoords)
          (by rw [coordsIn_pushI]; exact hQcoords)
      have hextF : vExt st (pushI stL [i13L, i12L, i2]) :=
        vExt_trans (vExt_trans hextA hextL) (vExt_pushI stL _)
      have hextLF : vExt stL (pushI stL [i13L, i12L, i2]) := vExt_pushI stL _
      have hextSF : vExt st stL := vExt_trans hextA hextL
      refine ⟨hextF, hdvdL, ⟨[i1, P.2, Q.2] ++ appL ++ [i13L, i12L, i2], ?_, ?_, ?_⟩,
        ⟨vValid_vExt hextLF hv13L, coordsIn_vExt hextLF hv13L hc13L⟩,
        ⟨vValid_vExt hextF hv2, coordsIn_vExt hextF hv2 hc2⟩,
        ⟨vValid_vExt hextF hv3, coordsIn_vExt hextF hv3 hc3⟩⟩
      · rw [pushI_indices, happL, hindA]
        simp
      · simp
        omega
      · intro ix hix
        have hvalids : ∀ j, vValid stL dim j → vValid (pushI stL [i13L, i12L, i2]) dim j :=
          fun j hj => by rw [vValid_pushI]; exact hj
        have hcoordss : ∀ j, coordsIn stL dim axis lo hi j →
            coordsIn (pushI stL [i13L, i12L, i2]) dim axis lo hi j :=
          fun j hj => by rw [coordsIn_pushI]; exact hj
        rcases List.mem_append.mp hix with hix2 | hix2
        · rcases List.mem_append.mp hix2 with hix3 | hix3
          · simp only [List.mem_cons, List.not_mem_nil, or_false] at hix3
            rcases hix3 with rfl | rfl | rfl
            · exact ⟨vValid_vExt hextF hv1, coordsIn_vExt hextF hv1 hc1⟩
            · exact ⟨hvalids _ (vValid_vExt hextL (vValid_vExt hextPA hPval)),
                hcoordss _ (coordsIn_vExt hextL (vValid_vExt hextPA hPval)
                  (coordsIn_vExt hextPA hPval hPcoords))⟩
            · exact ⟨hvalids _ (vValid_vExt hextL (by rw [hstA, vValid_pushI]; exact hQval)),
                hcoordss _ (coordsIn_vExt hextL (by rw [hstA, vValid_pushI]; exact hQval)
                  (by rw [hstA, coordsIn_pushI]; exact hQcoords))⟩
          · obtain ⟨hva, hca⟩ := hmemL ix hix3
            exact ⟨hvalids _ hva, hcoordss _ hca⟩
        · simp only [List.mem_cons, List.not_mem_nil, or_false] at hix2
          rcases hix2 with rfl | rfl | rfl
          · exact ⟨hvalids _ hv13L, hcoordss _ hc13L⟩
          · exact ⟨hvalids _ hv12L, hcoordss _ hc12L⟩
          · exact ⟨vValid_vExt hextF hv2, coordsIn_vExt hextF hv2 hc2⟩
  · rw [if_neg hbr] at hres
    cases hloop : splitRightLoop fuel (modPoint + modulo) w3 i1 i2 i3 P.2 Q.2
        w1 w2 w3 stA dim axis modulo with
    | none =>
      rw [hloop] at hres
      exact absurd hres (fun h => Option.noConfusion h)
    | some r =>
      obtain ⟨stL, i12L, i13L⟩ := r
      rw [hloop] at hres
      simp only [Option.some_inj, Prod.mk.injEq] at hres
      obtain ⟨rfl, rfl, rfl, rfl⟩ := hres
      obtain ⟨hextL, hdvdL, ⟨appL, happL, hlenL, hmemL⟩, hv12L, hv13L, hc12L, hc13L⟩ :=
        splitRightLoop_spec dim axis modulo lo hi i1 i2 i3 w1 w2 w3 w3 hax hmod
          (le_of_not_lt hbr) le_rfl fuel (modPoint + modulo) P.2 Q.2 stA stL i12L i13L hloop
          hdvdA (by linarith)
          (vValid_vExt hextA hv1) (vValid_vExt hextA hv2) (vValid_vExt hextA hv3)
          (vValid_vExt hextPA hPval)
          (by rw [vValid_pushI]; exact hQval)
          (coordsIn_vExt hextA hv1 hc1) (coordsIn_vExt hextA hv2 hc2)
          (coordsIn_vExt hextA hv3 hc3)
          (coordsIn_vExt hextPA hPval hPcoords)
          (by rw [coordsIn_pushI]; exact hQcoords)
      have hextF : vExt st (pushI stL [i13L, i12L, i3]) :=
        vExt_trans (vExt_trans hextA hextL) (vExt_pushI stL _)
      have hextLF : vExt stL (pushI stL [i13L, i12L, i3]) := vExt_pushI stL _
      refine ⟨hextF, hdvdL, ⟨[i1, P.2, Q.2] ++ appL ++ [i13L, i12L, i3], ?_, ?_, ?_⟩,
        ⟨vValid_vExt hextF hv3, coordsIn_vExt hextF hv3 hc3⟩,
        ⟨vValid_vExt hextLF hv12L, coordsIn_vExt hextLF hv12L hc12L⟩,
        ⟨vValid_vExt hextF hv2, coordsIn_vExt hextF hv2 hc2⟩⟩
      · rw [pushI_indices, happL, hindA]
        simp
      · simp
        omega
      · intro ix hix
        have hvalids : ∀ j, vValid stL dim j → vValid (pushI stL [i13L, i12L, i3]) dim j :=
          fun j hj => by rw [vValid_pushI]; exact hj
        have hcoordss : ∀ j, coordsIn stL dim axis lo hi j →
            coordsIn (pushI stL [i13L, i12L, i3]) dim axis lo hi j :=
          fun j hj => by rw [coordsIn_pushI]; exact hj
        rcases List.mem_append.mp hix with hix2 | hix2
        · rcases List.mem_append.mp hix2 with hix3 | hix3
          · simp only [List.mem_cons, List.not_mem_nil, or_false] at hix3
            rcases hix3 with rfl | rfl | rfl
            · exact ⟨vValid_vExt hextF hv1, coordsIn_vExt hextF hv1 hc1⟩
            · exact ⟨hvalids _ (vValid_vExt hextL (vValid_vExt hextPA hPval)),
                hcoordss _ (coordsIn_vExt hextL (vValid_vExt hextPA hPval)
                  (coordsIn_vExt hextPA hPval hPcoords))⟩
            · exact ⟨hvalids _ (vValid_vExt hextL (by rw [hstA, vValid_pushI]; exact hQval)),
                hcoordss _ (coordsIn_vExt hextL (by rw [hstA, vValid_pushI]; exact hQval)
                  (by rw [hstA, coordsIn_pushI]; exact hQcoords))⟩
          · obtain ⟨hva, hca⟩ := hmemL ix hix3
            exact ⟨hvalids _ hva, hcoordss _ hca⟩
        · simp only [List.mem_cons, List.not_mem_nil, or_false] at hix2
          rcases hix2 with rfl | rfl | rfl
          · exact ⟨hvalids _ hv13L, hcoordss _ hc13L⟩
          · exact ⟨hvalids _ hv12L, hcoordss _ hc12L⟩
          · exact ⟨vValid_vExt hextF hv3, coordsIn_vExt hextF hv3 hc3⟩

/-- Specification of `splitLeft`: appends whole, bounded triangles and
returns a bounded replacement triangle. -/
theorem splitLeft_spec (dim axis : ℕ) (modulo : ℚ) (lo hi : ℕ → ℚ)
    (modPoint : ℚ) (i1 i2 i3 : ℕ) (w1 w2 w3 : ℚ) (st st' : TState)
    (t1 t2 t3 : ℕ) (fuel : ℕ)
    (hax : axis < dim) (hmod : 0 < modulo)
    (hres : splitLeft modPoint i1 i2 i3 w1 w2 w3 st dim axis modulo fuel
      = some (st', t1, t2, t3))
    (hdvd : dim ∣ st.vertices.length)
    (hw1 : modPoint < w1) (hmp2 : w2 ≤ modPoint) (hmp3 : w3 ≤ modPoint)
    (hv1 : vValid st dim i1) (hv2 : vValid st dim i2) (hv3 : vValid st dim i3)
    (hc1 : coordsIn st dim axis lo hi i1) (hc2 : coordsIn st dim axis lo hi i2)
    (hc3 : coordsIn st dim axis lo hi i3) :
    vExt st st' ∧ dim ∣ st'.vertices.length ∧
    (∃ app, st'.indices = st.indices ++ app ∧ app.length % 3 = 0 ∧
      ∀ ix ∈ app, vValid st' dim ix ∧ coordsIn st' dim axis lo hi ix) ∧
    (vValid st' dim t1 ∧ coordsIn st' dim axis lo hi t1) ∧
    (vValid st' dim t2 ∧ coordsIn st' dim axis lo hi t2) ∧
    (vValid st' dim t3 ∧ coordsIn st' dim axis lo hi t3) := by
  rw [splitLeft] at hres
  set P := createVertex modPoint i1 i2 w1 w2 st dim axis with hP
  set Q := createVertex modPoint i1 i3 w1 w3 P.1 dim axis with hQ
  set stA := pushI Q.1 [i1, P.2, Q.2] with hstA
  obtain ⟨hPind, hPext, hPlen, hPidx, hPread⟩ :=
    createVertex_spec modPoint i1 i2 w1 w2 st dim axis hdvd
  obtain ⟨hPval, hPcoords⟩ :=
    createVertex_coordsIn modPoint i1 i2 w1 w2 st dim axis hdvd lo hi
      hc1 hc2 (ratio_bounds_left w1 w2 modPoint hw1 hmp2)
  have hdvdP : dim ∣ P.1.vertices.length := by
    rw [hPlen]
    exact Nat.dvd_add hdvd dvd_rfl
  obtain ⟨hQind, hQext, hQlen, hQidx, hQread⟩ :=
    createVertex_spec modPoint i1 i3 w1 w3 P.1 dim axis hdvdP
  obtain ⟨hQval, hQcoords⟩ :=
    createVertex_coordsIn modPoint i1 i3 w1 w3 P.1 dim axis hdvdP lo hi
      (coordsIn_vExt hPext hv1 hc1) (coordsIn_vExt hPext hv3 hc3)
      (ratio_bounds_left w1 w3 modPoint hw1 hmp3)
  have hextQ : vExt st Q.1 := vExt_trans hPext hQext
  have hextA : vExt st stA := vExt_trans hextQ (vExt_pushI Q.1 _)
  have hextPA : vExt P.1 stA := vExt_trans hQext (vExt_pushI Q.1 _)
  have hdvdA : dim ∣ stA.vertices.length := by
    rw [hstA, pushI_vertices, hQlen]
    exact Nat.dvd_add hdvdP dvd_rfl
  have hindA : stA.indices = st.indices ++ [i1, P.2, Q.2] := by
    rw [hstA, pushI_indices, hQind, hPind]
  by_cases hbr : w2 > w3
  · rw [if_pos hbr] at hres
    cases hloop : splitLeftLoop fuel (modPoint - modulo) w2 i1 i2 i3 P.2 Q.2
        w1 w2 w3 stA dim axis modulo with
    | none =>
      rw [hloop] at hres
      exact absurd hres (fun h => Option.noConfusion h)
    | some r =>
      obtain ⟨stL, i12L, i13L⟩ := r
      rw [hloop] at hres
      simp only [Option.some_inj, Prod.mk.injEq] at hres
      obtain ⟨rfl, rfl, rfl, rfl⟩ := hres
      obtain ⟨hextL, hdvdL, ⟨appL, happL, hlenL, hmemL⟩, hv12L, hv13L, hc12L, hc13L⟩ :=
        splitLeftLoop_spec dim axis modulo lo hi i1 i2 i3 w1 w2 w3 w2 hax hmod
          le_rfl hbr.le fuel (modPoint - modulo) P.2 Q.2 stA stL i12L i13L hloop
          hdvdA (by linarith)
          (vValid_vExt hextA hv1) (vValid_vExt hextA hv2) (vValid_vExt hextA hv3)
          (vValid_vExt hextPA hPval)
          (by rw [vValid_pushI]; exact hQval)
          (coordsIn_vExt hextA hv1 hc1) (coordsIn_vExt hextA hv2 hc2)
          (coordsIn_vExt hextA hv3 hc3)
          (coordsIn_vExt hextPA hPval hPcoords)
          (by rw [coordsIn_pushI]; exact hQcoords)
      have hextF : vExt st (pushI stL [i13L, i12L, i2]) :=
        vExt_trans (vExt_trans hextA hextL) (vExt_pushI stL _)
      have hextLF : vExt stL (pushI stL [i13L, i12L, i2]) := vExt_pushI stL _
      have hextSF : vExt st stL := vExt_trans hextA hextL
      refine ⟨hextF, hdvdL, ⟨[i1, P.2, Q.2] ++ appL ++ [i13L, i12L, i2], ?_, ?_, ?_⟩,
        ⟨vValid_vExt hextLF hv13L, coordsIn_vExt hextLF hv13L hc13L⟩,
        ⟨vValid_vExt hextF hv2, coordsIn_vExt hextF hv2 hc2⟩,
        ⟨vValid_vExt hextF hv3, coordsIn_vExt hextF hv3 hc3⟩⟩
      · rw [pushI_indices, happL, hindA]
        simp
      · simp
        omega
      · intro ix hix
        have hvalids : ∀ j, vValid stL dim j → vValid (pushI stL [i13L, i12L, i2]) dim j :=
          fun j hj => by rw [vValid_pushI]; exact hj
        have hcoordss : ∀ j, coordsIn stL dim axis lo hi j →
            coordsIn (pushI stL [i13L, i12L, i2]) dim axis lo hi j :=
          fun j hj => by rw [coordsIn_pushI]; exact hj
        rcases List.mem_append.mp hix with hix2 | hix2
        · rcases List.mem_append.mp hix2 with hix3 | hix3
          · simp only [List.mem_cons, List.not_mem_nil, or_false] at hix3
            rcases hix3 with rfl | rfl | rfl
            · exact ⟨vValid_vExt hextF hv1, coordsIn_vExt hextF hv1 hc1⟩
            · exact ⟨hvalids _ (vValid_vExt hextL (vValid_vExt hextPA hPval)),
                hcoordss _ (coordsIn_vExt hextL (vValid_vExt hextPA hPval)
                  (coordsIn_vExt hextPA hPval hPcoords))⟩
            · exact ⟨hvalids _ (vValid_vExt hextL (by rw [hstA, vValid_pushI]; exact hQval)),
                hcoordss _ (coordsIn_vExt hextL (by rw [hstA, vValid_pushI]; exact hQval)
                  (by rw [hstA, coordsIn_pushI]; exact hQcoords))⟩
          · obtain ⟨hva, hca⟩ := hmemL ix hix3
            exact ⟨hvalids _ hva, hcoordss _ hca⟩
        · simp only [List.mem_cons, List.not_mem_nil, or_false] at hix2
          rcases hix2 with rfl | rfl | rfl
          · exact ⟨hvalids _ hv13L, hcoordss _ hc13L⟩
          · exact ⟨hvalids _ hv12L, hcoordss _ hc12L⟩
          · exact ⟨vValid_vExt hextF hv2, coordsIn_vExt hextF hv2 hc2⟩
  · rw [if_neg hbr] at hres
    cases hloop : splitLeftLoop fuel (modPoint - modulo) w3 i1 i2 i3 P.2 Q.2
        w1 w2 w3 stA dim axis modulo with
    | none =>
      rw [hloop] at hres
      exact absurd hres (fun h => Option.noConfusion h)
    | some r =>
      obtain ⟨stL, i12L, i13L⟩ := r
      rw [hloop] at hres
      simp only [Option.some_inj, Prod.mk.injEq] at hres
      obtain ⟨rfl, rfl, rfl, rfl⟩ := hres
      obtain ⟨hextL, hdvdL, ⟨appL, happL, hlenL, hmemL⟩, hv12L, hv13L, hc12L, hc13L⟩ :=
        splitLeftLoop_spec dim axis modulo lo hi i1 i2 i3 w1 w2 w3 w3 hax hmod
          (le_of_not_lt hbr) le_rfl fuel (modPoint - modulo) P.2 Q.2 stA stL i12L i13L hloop
          hdvdA (by linarith)
          (vValid_vExt hextA hv1) (vValid_vExt hextA hv2) (vValid_vExt hextA hv3)
          (vValid_vExt hextPA hPval)
          (by rw [vValid_pushI]; exact hQval)
          (coordsIn_vExt hextA hv1 hc1) (coordsIn_vExt hextA hv2 hc2)
          (coordsIn_vExt hextA hv3 hc3)
          (coordsIn_vExt hextPA hPval hPcoords)
          (by rw [coordsIn_pushI]; exact hQcoords)
      have hextF : vExt st (pushI stL [i13L, i12L, i3]) :=
        vExt_trans (vExt_trans hextA hextL) (vExt_pushI stL _)
      have hextLF : vExt stL (pushI stL [i13L, i12L, i3]) := vExt_pushI stL _
      refine ⟨hextF, hdvdL, ⟨[i1, P.2, Q.2] ++ appL ++ [i13L, i12L, i3], ?_, ?_, ?_⟩,
        ⟨vValid_vExt hextF hv3, coordsIn_vExt hextF hv3 hc3⟩,
        ⟨vValid_vExt hextLF hv12L, coordsIn_vExt hextLF hv12L hc12L⟩,
        ⟨vValid_vExt hextF hv2, coordsIn_vExt hextF hv2 hc2⟩⟩
      · rw [pushI_indices, happL, hindA]
        simp
      · simp
        omega
      · intro ix hix
        have hvalids : ∀ j, vValid stL dim j → vValid (pushI stL [i13L, i12L, i3]) dim j :=
          fun j hj => by rw [vValid_pushI]; exact hj
        have hcoordss : ∀ j, coordsIn stL dim axis lo hi j →
            coordsIn (pushI stL [i13L, i12L, i3]) dim axis lo hi j :=
          fun j hj => by rw [coordsIn_pushI]; exact hj
        rcases List.mem_append.mp hix with hix2 | hix2
        · rcases List.mem_append.mp hix2 with hix3 | hix3
          · simp only [List.mem_cons, List.not_mem_nil, or_false] at hix3
            rcases hix3 with rfl | rfl | rfl
            · exact ⟨vValid_vExt hextF hv1, coordsIn_vExt hextF hv1 hc1⟩
            · exact ⟨hvalids _ (vValid_vExt hextL (vValid_vExt hextPA hPval)),
                hcoordss _ (coordsIn_vExt hextL (vValid_vExt hextPA hPval)
                  (coordsIn_vExt hextPA hPval hPcoords))⟩
            · exact ⟨hvalids _ (vValid_vExt hextL (by rw [hstA, vValid_pushI]; exact hQval)),
                hcoordss _ (coordsIn_vExt hextL (by rw [hstA, vValid_pushI]; exact hQval)
                  (by rw [hstA, coordsIn_pushI]; exact hQcoords))⟩
          · obtain ⟨hva, hca⟩ := hmemL ix hix3
            exact ⟨hvalids _ hva, hcoordss _ hca⟩
        · simp only [List.mem_cons, List.not_mem_nil, or_false] at hix2
          rcases hix2 with rfl | rfl | rfl
          · exact ⟨hvalids _ hv13L, hcoordss _ hc13L⟩
          · exact ⟨hvalids _ hv12L, hcoordss _ hc12L⟩
          · exact ⟨vValid_vExt hextF hv3, coordsIn_vExt hextF hv3 hc3⟩
theorem orElse_eq_some {α : Type} {x y : Option α} {a : α} (h : (x <|> y) = some a) :
    x = some a ∨ (x = none ∧ y = some a) := by
  cases x <;> simp_all [HOrElse.hOrElse, OrElse.orElse, Option.orElse]

/-- Inversion of the split decision: the chosen corner is a strict extremum
and the chosen grid value lies on the correct side of all three corners. -/
theorem sinDecide_inv {v1 v2 v3 modulo : ℚ} {dir : Bool} {mp : ℚ} {rot : ℕ}
    (h : sinDecide v1 v2 v3 modulo = some (dir, mp, rot)) :
    (rot = 0 ∧ dir = true ∧ mp > v1 ∧ mp ≤ v2 ∧ mp ≤ v3) ∨
    (rot = 0 ∧ dir = false ∧ mp < v1 ∧ mp ≥ v2 ∧ mp ≥ v3) ∨
    (rot = 1 ∧ dir = true ∧ mp > v2 ∧ mp ≤ v3 ∧ mp ≤ v1) ∨
    (rot = 1 ∧ dir = false ∧ mp < v2 ∧ mp ≥ v3 ∧ mp ≥ v1) ∨
    (rot = 2 ∧ dir = true ∧ mp > v3 ∧ mp ≤ v1 ∧ mp ≤ v2) ∨
    (rot = 2 ∧ dir = false ∧ mp < v3 ∧ mp ≥ v1 ∧ mp ≥ v2) := by
  rw [sinDecide] at h
  rcases orElse_eq_some h with hA | ⟨-, h2⟩
  ·
    by_cases hc1 : v1 < v2 ∧ v1 < v3
    · rw [if_pos hc1] at hA
      cases hm : mod2 v1 modulo with
      | none =>
        rw [hm] at hA <;> try dsimp only at hA
        exact absurd hA (fun hh => Option.noConfusion hh)
      | some m =>
        rw [hm] at hA <;> try dsimp only at hA
        by_cases hg : v1 + modulo - m > v1 ∧ v1 + modulo - m ≤ v2 ∧ v1 + modulo - m ≤ v3 ∧ v2 ≠ v1 + modulo - m
        · rw [if_pos hg] at hA
          simp only [Option.some_inj, Prod.mk.injEq] at hA
          obtain ⟨hdir, hmp, hrot⟩ := hA
          subst hdir
          subst hmp
          subst hrot
          exact Or.inl ⟨rfl, rfl, hg.1, hg.2.1, hg.2.2.1⟩
        · rw [if_neg hg] at hA
          exact absurd hA (fun hh => Option.noConfusion hh)
    · rw [if_neg hc1] at hA
      by_cases hc2 : v1 > v2 ∧ v1 > v3
      · rw [if_pos hc2] at hA
        cases hm : mod2 v1 modulo with
        | none =>
          rw [hm] at hA <;> try dsimp only at hA
          exact absurd hA (fun hh => Option.noConfusion hh)
        | some m0 =>
          rw [hm] at hA <;> try dsimp only at hA
          by_cases hg : v1 - (if m0 = 0 then modulo else m0) < v1 ∧ v1 - (if m0 = 0 then modulo else m0) ≥ v2 ∧ v1 - (if m0 = 0 then modulo else m0) ≥ v3 ∧ v2 ≠ v1 - (if m0 = 0 then modulo else m0)
          · rw [if_pos hg] at hA
            simp only [Option.some_inj, Prod.mk.injEq] at hA
            obtain ⟨hdir, hmp, hrot⟩ := hA
            subst hdir
            subst hmp
            subst hrot
            exact Or.inr (Or.inl ⟨rfl, rfl, hg.1, hg.2.1, hg.2.2.1⟩)
          · rw [if_neg hg] at hA
            exact absurd hA (fun hh => Option.noConfusion hh)
      · rw [if_neg hc2] at hA
        exact absurd hA (fun hh => Option.noConfusion hh)
  · rcases orElse_eq_some h2 with hB | ⟨-, hC⟩
    ·
        by_cases hc1 : v2 < v1 ∧ v2 < v3
        · rw [if_pos hc1] at hB
          cases hm : mod2 v2 modulo with
          | none =>
            rw [hm] at hB <;> try dsimp only at hB
            exact absurd hB (fun hh => Option.noConfusion hh)
          | some m =>
            rw [hm] at hB <;> try dsimp only at hB
            by_cases hg : v2 + modulo - m > v2 ∧ v2 + modulo - m ≤ v3 ∧ v2 + modulo - m ≤ v1 ∧ (v1 ≠ v2 + modulo - m ∨ v3 ≠ v2 + modulo - m)
            · rw [if_pos hg] at hB
              simp only [Option.some_inj, Prod.mk.injEq] at hB
              obtain ⟨hdir, hmp, hrot⟩ := hB
              subst hdir
              subst hmp
              subst hrot
              exact Or.inr (Or.inr (Or.inl ⟨rfl, rfl, hg.1, hg.2.1, hg.2.2.1⟩))
            · rw [if_neg hg] at hB
              exact absurd hB (fun hh => Option.noConfusion hh)
        · rw [if_neg hc1] at hB
          by_cases hc2 : v2 > v1 ∧ v2 > v3
          · rw [if_pos hc2] at hB
            cases hm : mod2 v2 modulo with
            | none =>
              rw [hm] at hB <;> try dsimp only at hB
              exact absurd hB (fun hh => Option.noConfusion hh)
            | some m0 =>
              rw [hm] at hB <;> try dsimp only at hB
              by_cases hg : v2 - (if m0 = 0 then modulo else m0) < v2 ∧ v2 - (if m0 = 0 then modulo else m0) ≥ v3 ∧ v2 - (if m0 = 0 then modulo else m0) ≥ v1 ∧ (v1 ≠ v2 - (if m0 = 0 then modulo else m0) ∨ v3 ≠ v2 - (if m0 = 0 then modulo else m0))
              · rw [if_pos hg] at hB
                simp only [Option.some_inj, Prod.mk.injEq] at hB
                obtain ⟨hdir, hmp, hrot⟩ := hB
                subst hdir
                subst hmp
                subst hrot
                exact Or.inr (Or.inr (Or.inr (Or.inl ⟨rfl, rfl, hg.1, hg.2.1, hg.2.2.1⟩)))
              · rw [if_neg hg] at hB
                exact absurd hB (fun hh => Option.noConfusion hh)
          · rw [if_neg hc2] at hB
            exact absurd hB (fun hh => Option.noConfusion hh)
    ·
        by_cases hc1 : v3 < v1 ∧ v3 < v2
        · rw [if_pos hc1] at hC
          cases hm : mod2 v3 modulo with
          | none =>
            rw [hm] at hC <;> try dsimp only at hC
            exact absurd hC (fun hh => Option.noConfusion hh)
          | some m =>
            rw [hm] at hC <;> try dsimp only at hC
            by_cases hg : v3 + modulo - m > v3 ∧ v3 + modulo - m ≤ v1 ∧ v3 + modulo - m ≤ v2 ∧ (v1 ≠ v3 + modulo - m ∨ v2 ≠ v3 + modulo - m)
            · rw [if_pos hg] at hC
              simp only [Option.some_inj, Prod.mk.injEq] at hC
              obtain ⟨hdir, hmp, hrot⟩ := hC
              subst hdir
              subst hmp
              subst hrot
              exact Or.inr (Or.inr (Or.inr (Or.inr (Or.inl ⟨rfl, rfl, hg.1, hg.2.1, hg.2.2.1⟩))))
            · rw [if_neg hg] at hC
              exact absurd hC (fun hh => Option.noConfusion hh)
        · rw [if_neg hc1] at hC
          by_cases hc2 : v3 > v1 ∧ v3 > v2
          · rw [if_pos hc2] at hC
            cases hm : mod2 v3 modulo with
            | none =>
              rw [hm] at hC <;> try dsimp only at hC
              exact absurd hC (fun hh => Option.noConfusion hh)
            | some m0 =>
              rw [hm] at hC <;> try dsimp only at hC
              by_cases hg : v3 - (if m0 = 0 then modulo else m0) < v3 ∧ v3 - (if m0 = 0 then modulo else m0) ≥ v1 ∧ v3 - (if m0 = 0 then modulo else m0) ≥ v2 ∧ (v1 ≠ v3 - (if m0 = 0 then modulo else m0) ∨ v2 ≠ v3 - (if m0 = 0 then modulo else m0))
              · rw [if_pos hg] at hC
                simp only [Option.some_inj, Prod.mk.injEq] at hC
                obtain ⟨hdir, hmp, hrot⟩ := hC
                subst hdir
                subst hmp
                subst hrot
                exact Or.inr (Or.inr (Or.inr (Or.inr (Or.inr ⟨rfl, rfl, hg.1, hg.2.1, hg.2.2.1⟩))))
              · rw [if_neg hg] at hC
                exact absurd hC (fun hh => Option.noConfusion hh)
          · rw [if_neg hc2] at hC
            exact absurd hC (fun hh => Option.noConfusion hh)

/-- Per-axis lower corner of a parent triangle. -/
def tlo (st : TState) (dim A B C i : ℕ) : ℚ :=
  min (vget st (A * dim + i)) (min (vget st (B * dim + i)) (vget st (C * dim + i)))

/-- Per-axis upper corner of a parent triangle. -/
def thi (st : TState) (dim A B C i : ℕ) : ℚ :=
  max (vget st (A * dim + i)) (max (vget st (B * dim + i)) (vget st (C * dim + i)))

theorem coordsIn_parent1 (st : TState) (dim axis A B C : ℕ) :
    coordsIn st dim axis (tlo st dim A B C) (thi st dim A B C) A :=
  fun _ _ _ => ⟨min_le_left _ _, le_max_left _ _⟩

theorem coordsIn_parent2 (st : TState) (dim axis A B C : ℕ) :
    coordsIn st dim axis (tlo st dim A B C) (thi st dim A B C) B :=
  fun _ _ _ => ⟨le_trans (min_le_right _ _) (min_le_left _ _),
    le_trans (le_max_left _ _) (le_max_right _ _)⟩

theorem coordsIn_parent3 (st : TState) (dim axis A B C : ℕ) :
    coordsIn st dim axis (tlo st dim A B C) (thi st dim A B C) C :=
  fun _ _ _ => ⟨le_trans (min_le_right _ _) (min_le_right _ _),
    le_trans (le_max_right _ _) (le_max_right _ _)⟩

/-- Full specification of one `splitIfNecessary` call: either it declines
(state unchanged, decision `none`) or it splits, appending whole triangles
bounded by the parent\'s per-axis extent and returning a bounded replacement. -/
theorem splitIfNecessary_spec (A B C : ℕ) (st : TState) (dim axis : ℕ)
    (modulo : ℚ) (fuel : ℕ) (st' : TState) (t : Option (ℕ × ℕ × ℕ))
    (hax : axis < dim) (hmod : 0 < modulo)
    (hres : splitIfNecessary A B C st dim axis modulo fuel = some (st', t))
    (hdvd : dim ∣ st.vertices.length)
    (hvA : vValid st dim A) (hvB : vValid st dim B) (hvC : vValid st dim C) :
    (t = none → st' = st ∧
      sinDecide (vget st (A * dim + axis)) (vget st (B * dim + axis))
        (vget st (C * dim + axis)) modulo = none) ∧
    (∀ t1 t2 t3, t = some (t1, t2, t3) →
      vExt st st' ∧ dim ∣ st'.vertices.length ∧
      (∃ app, st'.indices = st.indices ++ app ∧ app.length % 3 = 0 ∧
        ∀ ix ∈ app, vValid st' dim ix ∧
          coordsIn st' dim axis (tlo st dim A B C) (thi st dim A B C) ix) ∧
      (vValid st' dim t1 ∧ coordsIn st' dim axis (tlo st dim A B C) (thi st dim A B C) t1) ∧
      (vValid st' dim t2 ∧ coordsIn st' dim axis (tlo st dim A B C) (thi st dim A B C) t2) ∧
      (vValid st' dim t3 ∧ coordsIn st' dim axis (tlo st dim A B C) (thi st dim A B C) t3)) := by
  rw [splitIfNecessary] at hres
  cases hsin : sinDecide (vget st (A * dim + axis)) (vget st (B * dim + axis))
      (vget st (C * dim + axis)) modulo with
  | none =>
    rw [hsin] at hres
    simp only [Option.some_inj, Prod.mk.injEq] at hres
    obtain ⟨rfl, rfl⟩ := hres
    exact ⟨fun _ => ⟨rfl, rfl⟩, fun t1 t2 t3 ht => Option.noConfusion ht⟩
  | some r =>
    obtain ⟨dir, mp, rot⟩ := r
    rw [hsin] at hres
    dsimp only at hres
    rcases sinDecide_inv hsin with h6 | h6 | h6 | h6 | h6 | h6
    · obtain ⟨hrot, hdir, hg1, hg2, hg3⟩ := h6
      subst hrot
      subst hdir
      replace hres : (match splitRight mp A B C (vget st (A * dim + axis)) (vget st (B * dim + axis)) (vget st (C * dim + axis)) st dim axis modulo fuel with
        | none => none
        | some (st, t) => some (st, some t)) = some (st', t) := hres
      cases hsp : splitRight mp A B C (vget st (A * dim + axis)) (vget st (B * dim + axis)) (vget st (C * dim + axis)) st dim axis modulo fuel with
      | none =>
        rw [hsp] at hres
        exact absurd hres (fun hh => Option.noConfusion hh)
      | some rr =>
        obtain ⟨stR, r1, r2, r3⟩ := rr
        rw [hsp] at hres
        simp only [Option.some_inj, Prod.mk.injEq] at hres
        obtain ⟨rfl, rfl⟩ := hres
        obtain ⟨hext, hdvd', happ, ht1, ht2, ht3⟩ :=
          splitRight_spec dim axis modulo (tlo st dim A B C) (thi st dim A B C) mp
            A B C (vget st (A * dim + axis)) (vget st (B * dim + axis)) (vget st (C * dim + axis)) st stR r1 r2 r3 fuel hax hmod hsp hdvd
            hg1 hg2 hg3 hvA hvB hvC (coordsIn_parent1 st dim axis A B C) (coordsIn_parent2 st dim axis A B C) (coordsIn_parent3 st dim axis A B C)
        refine ⟨fun hh => Option.noConfusion hh, fun t1 t2 t3 ht => ?_⟩
        simp only [Option.some_inj, Prod.mk.injEq] at ht
        obtain ⟨rfl, rfl, rfl⟩ := ht
        exact ⟨hext, hdvd', happ, ht1, ht2, ht3⟩
    · obtain ⟨hrot, hdir, hg1, hg2, hg3⟩ := h6
      subst hrot
      subst hdir
      replace hres : (match splitLeft mp A B C (vget st (A * dim + axis)) (vget st (B * dim + axis)) (vget st (C * dim + axis)) st dim axis modulo fuel with
        | none => none
        | some (st, t) => some (st, some t)) = some (st', t) := hres
      cases hsp : splitLeft mp A B C (vget st (A * dim + axis)) (vget st (B * dim + axis)) (vget st (C * dim + axis)) st dim axis modulo fuel with
      | none =>
        rw [hsp] at hres
        exact absurd hres (fun hh => Option.noConfusion hh)
      | some rr =>
        obtain ⟨stR, r1, r2, r3⟩ := rr
        rw [hsp] at hres
        simp only [Option.some_inj, Prod.mk.injEq] at hres
        obtain ⟨rfl, rfl⟩ := hres
        obtain ⟨hext, hdvd', happ, ht1, ht2, ht3⟩ :=
          splitLeft_spec dim axis modulo (tlo st dim A B C) (thi st dim A B C) mp
            A B C (vget st (A * dim + axis)) (vget st (B * dim + axis)) (vget st (C * dim + axis)) st stR r1 r2 r3 fuel hax hmod hsp hdvd
            hg1 hg2 hg3 hvA hvB hvC (coordsIn_parent1 st dim axis A B C) (coordsIn_parent2 st dim axis A B C) (coordsIn_parent3 st dim axis A B C)
        refine ⟨fun hh => Option.noConfusion hh, fun t1 t2 t3 ht => ?_⟩
        simp only [Option.some_inj, Prod.mk.injEq] at ht
        obtain ⟨rfl, rfl, rfl⟩ := ht
        exact ⟨hext, hdvd', happ, ht1, ht2, ht3⟩
    · obtain ⟨hrot, hdir, hg1, hg2, hg3⟩ := h6
      subst hrot
      subst hdir
      replace hres : (match splitRight mp B C A (vget st (B * dim + axis)) (vget st (C * dim + axis)) (vget st (A * dim + axis)) st dim axis modulo fuel with
        | none => none
        | some (st, t) => some (st, some t)) = some (st', t) := hres
      cases hsp : splitRight mp B C A (vget st (B * dim + axis)) (vget st (C * dim + axis)) (vget st (A * dim + axis)) st dim axis modulo fuel with
      | none =>
        rw [hsp] at hres
        exact absurd hres (fun hh => Option.noConfusion hh)
      | some rr =>
        obtain ⟨stR, r1, r2, r3⟩ := rr
        rw [hsp] at hres
        simp only [Option.some_inj, Prod.mk.injEq] at hres
        obtain ⟨rfl, rfl⟩ := hres
        obtain ⟨hext, hdvd', happ, ht1, ht2, ht3⟩ :=
          splitRight_spec dim axis modulo (tlo st dim A B C) (thi st dim A B C) mp
            B C A (vget st (B * dim + axis)) (vget st (C * dim + axis)) (vget st (A * dim + axis)) st stR r1 r2 r3 fuel hax hmod hsp hdvd
            hg1 hg2 hg3 hvB hvC hvA (coordsIn_parent2 st dim axis A B C) (coordsIn_parent3 st dim axis A B C) (coordsIn_parent1 st dim axis A B C)
        refine ⟨fun hh => Option.noConfusion hh, fun t1 t2 t3 ht => ?_⟩
        simp only [Option.some_inj, Prod.mk.injEq] at ht
        obtain ⟨rfl, rfl, rfl⟩ := ht
        exact ⟨hext, hdvd', happ, ht1, ht2, ht3⟩
    · obtain ⟨hrot, hdir, hg1, hg2, hg3⟩ := h6
      subst hrot
      subst hdir
      replace hres : (match splitLeft mp B C A (vget st (B * dim + axis)) (vget st (C * dim + axis)) (vget st (A * dim + axis)) st dim axis modulo fuel with
        | none => none
        | some (st, t) => some (st, some t)) = some (st', t) := hres
      cases hsp : splitLeft mp B C A (vget st (B * dim + axis)) (vget st (C * dim + axis)) (vget st (A * dim + axis)) st dim axis modulo fuel with
      | none =>
        rw [hsp] at hres
        exact absurd hres (fun hh => Option.noConfusion hh)
      | some rr =>
        obtain ⟨stR, r1, r2, r3⟩ := rr
        rw [hsp] at hres
        simp only [Option.some_inj, Prod.mk.injEq] at hres
        obtain ⟨rfl, rfl⟩ := hres
        obtain ⟨hext, hdvd', happ, ht1, ht2, ht3⟩ :=
          splitLeft_spec dim axis modulo (tlo st dim A B C) (thi st dim A B C) mp
            B C A (vget st (B * dim + axis)) (vget st (C * dim + axis)) (vget st (A * dim + axis)) st stR r1 r2 r3 fuel hax hmod hsp hdvd
            hg1 hg2 hg3 hvB hvC hvA (coordsIn_parent2 st dim axis A B C) (coordsIn_parent3 st dim axis A B C) (coordsIn_parent1 st dim axis A B C)
        refine ⟨fun hh => Option.noConfusion hh, fun t1 t2 t3 ht => ?_⟩
        simp only [Option.some_inj, Prod.mk.injEq] at ht
        obtain ⟨rfl, rfl, rfl⟩ := ht
        exact ⟨hext, hdvd', happ, ht1, ht2, ht3⟩
    · obtain ⟨hrot, hdir, hg1, hg2, hg3⟩ := h6
      subst hrot
      subst hdir
      replace hres : (match splitRight mp C A B (vget st (C * dim + axis)) (vget st (A * dim + axis)) (vget st (B * dim + axis)) st dim axis modulo fuel with
        | none => none
        | some (st, t) => some (st, some t)) = some (st', t) := hres
      cases hsp : splitRight mp C A B (vget st (C * dim + axis)) (vget st (A * dim + axis)) (vget st (B * dim + axis)) st dim axis modulo fuel with
      | none =>
        rw [hsp] at hres
        exact absurd hres (fun hh => Option.noConfusion hh)
      | some rr =>
        obtain ⟨stR, r1, r2, r3⟩ := rr
        rw [hsp] at hres
        simp only [Option.some_inj, Prod.mk.injEq] at hres
        obtain ⟨rfl, rfl⟩ := hres
        obtain ⟨hext, hdvd', happ, ht1, ht2, ht3⟩ :=
          splitRight_spec dim axis modulo (tlo st dim A B C) (thi st dim A B C) mp
            C A B (vget st (C * dim + axis)) (vget st (A * dim + axis)) (vget st (B * dim + axis)) st stR r1 r2 r3 fuel hax hmod hsp hdvd
            hg1 hg2 hg3 hvC hvA hvB (coordsIn_parent3 st dim axis A B C) (coordsIn_parent1 st dim axis A B C) (coordsIn_parent2 st dim axis A B C)
        refine ⟨fun hh => Option.noConfusion hh, fun t1 t2 t3 ht => ?_⟩
        simp only [Option.some_inj, Prod.mk.injEq] at ht
        obtain ⟨rfl, rfl, rfl⟩ := ht
        exact ⟨hext, hdvd', happ, ht1, ht2, ht3⟩
    · obtain ⟨hrot, hdir, hg1, hg2, hg3⟩ := h6
      subst hrot
      subst hdir
      replace hres : (match splitLeft mp C A B (vget st (C * dim + axis)) (vget st (A * dim + axis)) (vget st (B * dim + axis)) st dim axis modulo fuel with
        | none => none
        | some (st, t) => some (st, some t)) = some (st', t) := hres
      cases hsp : splitLeft mp C A B (vget st (C * dim + axis)) (vget st (A * dim + axis)) (vget st (B * dim + axis)) st dim axis modulo fuel with
      | none =>
        rw [hsp] at hres
        exact absurd hres (fun hh => Option.noConfusion hh)
      | some rr =>
        obtain ⟨stR, r1, r2, r3⟩ := rr
        rw [hsp] at hres
        simp only [Option.some_inj, Prod.mk.injEq] at hres
        obtain ⟨rfl, rfl⟩ := hres
        obtain ⟨hext, hdvd', happ, ht1, ht2, ht3⟩ :=
          splitLeft_spec dim axis modulo (tlo st dim A B C) (thi st dim A B C) mp
            C A B (vget st (C * dim + axis)) (vget st (A * dim + axis)) (vget st (B * dim + axis)) st stR r1 r2 r3 fuel hax hmod hsp hdvd
            hg1 hg2 hg3 hvC hvA hvB (coordsIn_parent3 st dim axis A B C) (coordsIn_parent1 st dim axis A B C) (coordsIn_parent2 st dim axis A B C)
        refine ⟨fun hh => Option.noConfusion hh, fun t1 t2 t3 ht => ?_⟩
        simp only [Option.some_inj, Prod.mk.injEq] at ht
        obtain ⟨rfl, rfl, rfl⟩ := ht
        exact ⟨hext, hdvd', happ, ht1, ht2, ht3⟩

theorem set_append_left {α : Type} : ∀ (l l' : List α) (n : ℕ) (a : α), n < l.length →
    (l ++ l').set n a = l.set n a ++ l'
  | [], _, n, _, h => absurd h (by simp)
  | b :: t, l', 0, a, _ => rfl
  | b :: t, l', n + 1, a, h => by
    show b :: (t ++ l').set n a = b :: (t.set n a ++ l')
    rw [set_append_left t l' n a (by simpa using h)]

theorem getD_mem {α : Type} (l : List α) (n : ℕ) (d : α) (h : n < l.length) :
    l.getD n d ∈ l := by
  simp only [List.getD_eq_getElem?_getD, List.getElem?_eq_getElem h, Option.getD_some]
  exact List.getElem_mem h

theorem getD_set_ne {α : Type} (l : List α) (m n : ℕ) (a d : α) (h : m ≠ n) :
    (l.set m a).getD n d = l.getD n d := by
  simp only [List.getD_eq_getElem?_getD]
  rw [List.getElem?_set_ne h]

theorem getD_set_eq {α : Type} (l : List α) (m : ℕ) (a d : α) (h : m < l.length) :
    (l.set m a).getD m d = a := by
  simp only [List.getD_eq_getElem?_getD]
  rw [List.getElem?_set_self h]
  rfl

/-- Straddling is inherited upward: if three points lie inside a parent
interval that no grid multiple strictly crosses, their own extent is not
strictly crossed either. -/
theorem noStraddle_mono {a b c pa pb pc modulo : ℚ} (k : ℤ)
    (hpar : ¬(min pa (min pb pc) < k * modulo ∧ k * modulo < max pa (max pb pc)))
    (ha1 : min pa (min pb pc) ≤ a) (ha2 : a ≤ max pa (max pb pc))
    (hb1 : min pa (min pb pc) ≤ b) (hb2 : b ≤ max pa (max pb pc))
    (hc1 : min pa (min pb pc) ≤ c) (hc2 : c ≤ max pa (max pb pc)) :
    ¬(min a (min b c) < k * modulo ∧ k * modulo < max a (max b c)) := by
  rintro ⟨h1, h2⟩
  exact hpar ⟨lt_of_le_of_lt (le_min ha1 (le_min hb1 hc1)) h1,
    lt_of_lt_of_le h2 (max_le ha2 (max_le hb2 hc2))⟩

/-- Triangle slot `j` of `st` needs no split on `axis`. -/
def slotClean (st : TState) (dim axis : ℕ) (modulo : ℚ) (j : ℕ) : Prop :=
  sinDecide (vget st (st.indices.getD j 0 * dim + axis))
    (vget st (st.indices.getD (j + 1) 0 * dim + axis))
    (vget st (st.indices.getD (j + 2) 0 * dim + axis)) modulo = none

/-- No triangle of `st` strictly straddles a grid multiple on `axis`. -/
def axisNoStraddle (st : TState) (dim axis : ℕ) (modulo : ℚ) : Prop :=
  ∀ j, 3 ∣ j → j + 3 ≤ st.indices.length → ∀ k : ℤ,
    ¬(tlo st dim (st.indices.getD j 0) (st.indices.getD (j + 1) 0)
        (st.indices.getD (j + 2) 0) axis < k * modulo ∧
      k * modulo < thi st dim (st.indices.getD j 0) (st.indices.getD (j + 1) 0)
        (st.indices.getD (j + 2) 0) axis)

/-- Every stored index addresses a complete vertex. -/
def idxValid (st : TState) (dim : ℕ) : Prop := ∀ ix ∈ st.indices, vValid st dim ix

/-- One axis pass of `tesselate`: given no-straddle invariants on the other
axes, it terminates with every triangle clean on this axis and the other
axes\' invariants intact. -/
theorem tessAxisLoop_spec (dim axis : ℕ) (PRE : ℕ → Prop) (modulo : ℚ)
    (hax : axis < dim) (hmod : 0 < modulo) :
    ∀ (fuel i : ℕ) (st st' : TState),
      tessAxisLoop fuel i st dim axis modulo = some st' →
      3 ∣ i →
      dim ∣ st.vertices.length → 3 ∣ st.indices.length → idxValid st dim →
      (∀ j, 3 ∣ j → j + 3 ≤ i → j + 3 ≤ st.indices.length →
        slotClean st dim axis modulo j) →
      (∀ x, x < dim → x ≠ axis → PRE x → axisNoStraddle st dim x modulo) →
      dim ∣ st'.vertices.length ∧ 3 ∣ st'.indices.length ∧ idxValid st' dim ∧
      (∀ j, 3 ∣ j → j + 3 ≤ st'.indices.length → slotClean st' dim axis modulo j) ∧
      (∀ x, x < dim → x ≠ axis → PRE x → axisNoStraddle st' dim x modulo) := by
  intro fuel
  induction fuel with
  | zero =>
    intro i st st' hres
    exact absurd hres (by rw [tessAxisLoop]; exact fun h => Option.noConfusion h)
  | succ f ih =>
    intro i st st' hres h3i hdvd h3len hvalid hI1 hI2
    rw [tessAxisLoop] at hres
    by_cases hi : i < st.indices.length
    · rw [if_pos hi] at hres
      dsimp only at hres
      have hi3 : i + 3 ≤ st.indices.length := by omega
      have hvA : vValid st dim (st.indices.getD i 0) :=
        hvalid _ (getD_mem _ _ _ (by omega))
      have hvB : vValid st dim (st.indices.getD (i + 1) 0) :=
        hvalid _ (getD_mem _ _ _ (by omega))
      have hvC : vValid st dim (st.indices.getD (i + 2) 0) :=
        hvalid _ (getD_mem _ _ _ (by omega))
      cases hsi : splitIfNecessary (st.indices.getD i 0) (st.indices.getD (i + 1) 0)
          (st.indices.getD (i + 2) 0) st dim axis modulo f with
      | none =>
        rw [hsi] at hres
        exact absurd hres (fun h => Option.noConfusion h)
      | some r =>
        obtain ⟨st2, topt⟩ := r
        rw [hsi] at hres
        obtain ⟨hnoneCase, hsomeCase⟩ :=
          splitIfNecessary_spec _ _ _ st dim axis modulo f st2 topt hax hmod hsi
            hdvd hvA hvB hvC
        cases topt with
        | none =>
          dsimp only at hres
          obtain ⟨hst2, hclean⟩ := hnoneCase rfl
          rw [hst2] at hres
          have hI1n : ∀ j, 3 ∣ j → j + 3 ≤ i + 3 → j + 3 ≤ st.indices.length →
              slotClean st dim axis modulo j := by
            intro j hj3 hji hjlen
            rcases Nat.lt_or_ge (j + 3) (i + 3) with hlt | hge
            · exact hI1 j hj3 (by omega) hjlen
            · have hje : j = i := by omega
              subst hje
              exact hclean
          exact ih (i + 3) st st' hres (by omega) hdvd h3len hvalid hI1n hI2
        | some tt =>
          obtain ⟨t1, t2, t3⟩ := tt
          dsimp only at hres
          obtain ⟨hext, hdvd2, ⟨app, happ, happ3, hmem⟩, ht1, ht2, ht3⟩ :=
            hsomeCase t1 t2 t3 rfl
          set st3 : TState := { st2 with
            indices := ((st2.indices.set i t1).set (i + 1) t2).set (i + 2) t3 } with hst3
          have hext3 : vExt st st3 := by
            obtain ⟨tl, htl⟩ := hext
            exact ⟨tl, htl⟩
          have hind3 : st3.indices =
              ((st.indices.set i t1).set (i + 1) t2).set (i + 2) t3 ++ app := by
            show ((st2.indices.set i t1).set (i + 1) t2).set (i + 2) t3 = _
            rw [happ, set_append_left st.indices app i t1 hi,
              set_append_left (st.indices.set i t1) app (i + 1) t2
                (by simp only [List.length_set]; omega),
              set_append_left ((st.indices.set i t1).set (i + 1) t2) app (i + 2) t3
                (by simp only [List.length_set]; omega)]
          have hlen3 : st3.indices.length = st.indices.length + app.length := by
            rw [hind3]
            simp
          have h3len3 : 3 ∣ st3.indices.length := by
            rw [hlen3]
            omega
          have hgetOld : ∀ p, p < i ∨ (i + 2 < p ∧ p < st.indices.length) →
              st3.indices.getD p 0 = st.indices.getD p 0 := by
            intro p hp
            rw [hind3, List.getD_append _ _ _ _ (by simp only [List.length_set]; omega),
              getD_set_ne _ _ _ _ _ (by omega), getD_set_ne _ _ _ _ _ (by omega),
              getD_set_ne _ _ _ _ _ (by omega)]
          have hget1 : st3.indices.getD i 0 = t1 := by
            rw [hind3, List.getD_append _ _ _ _ (by simp only [List.length_set]; omega),
              getD_set_ne _ _ _ _ _ (by omega), getD_set_ne _ _ _ _ _ (by omega),
              getD_set_eq _ _ _ _ hi]
          have hget2 : st3.indices.getD (i + 1) 0 = t2 := by
            rw [hind3, List.getD_append _ _ _ _ (by simp only [List.length_set]; omega),
              getD_set_ne _ _ _ _ _ (by omega),
              getD_set_eq _ _ _ _ (by simp only [List.length_set]; omega)]
          have hget3 : st3.indices.getD (i + 2) 0 = t3 := by
            rw [hind3, List.getD_append _ _ _ _ (by simp only [List.length_set]; omega),
              getD_set_eq _ _ _ _ (by simp only [List.length_set]; omega)]
          have hgetApp : ∀ r, r < app.length →
              st3.indices.getD (st.indices.length + r) 0 = app.getD r 0 := by
            intro r hr
            have hXlen : (((st.indices.set i t1).set (i + 1) t2).set (i + 2) t3).length
                = st.indices.length := by simp
            rw [hind3, ← hXlen, List.getD_append_right _ _ _ _ (Nat.le_add_right _ _),
              Nat.add_sub_cancel_left]
          have hvget3 : ∀ ix, vValid st dim ix → ∀ x, x < dim →
              vget st3 (ix * dim + x) = vget st (ix * dim + x) :=
            fun ix hv x hx => vget_vExt_valid hext3 hv hx
          have hvalid3 : idxValid st3 dim := by
            intro ix hix
            rw [hind3] at hix
            rcases List.mem_append.mp hix with hixL | hixR
            · rcases List.mem_or_eq_of_mem_set hixL with hix2 | rfl
              · rcases List.mem_or_eq_of_mem_set hix2 with hix3 | rfl
                · rcases List.mem_or_eq_of_mem_set hix3 with hix4 | rfl
                  · exact vValid_vExt hext3 (hvalid _ hix4)
                  · exact ht1.1
                · exact ht2.1
              · exact ht3.1
            · exact (hmem _ hixR).1
          have hI1s : ∀ j, 3 ∣ j → j + 3 ≤ i → j + 3 ≤ st3.indices.length →
              slotClean st3 dim axis modulo j := by
            intro j hj3 hji _
            have he0 : st3.indices.getD j 0 = st.indices.getD j 0 :=
              hgetOld j (Or.inl (by omega))
            have he1 : st3.indices.getD (j + 1) 0 = st.indices.getD (j + 1) 0 :=
              hgetOld (j + 1) (Or.inl (by omega))
            have he2 : st3.indices.getD (j + 2) 0 = st.indices.getD (j + 2) 0 :=
              hgetOld (j + 2) (Or.inl (by omega))
            have hcleanOld := hI1 j hj3 (by omega) (by omega)
            unfold slotClean at hcleanOld ⊢
            rw [he0, he1, he2,
              hvget3 _ (hvalid _ (getD_mem _ _ _ (by omega))) axis hax,
              hvget3 _ (hvalid _ (getD_mem _ _ _ (by omega))) axis hax,
              hvget3 _ (hvalid _ (getD_mem _ _ _ (by omega))) axis hax]
            exact hcleanOld
          have hI2s : ∀ x, x < dim → x ≠ axis → PRE x → axisNoStraddle st3 dim x modulo := by
            intro x hx hxa hpre j hj3 hjlen k
            rcases Nat.lt_or_ge j st.indices.length with hjold | hjnew
            · have hj3le : j + 3 ≤ st.indices.length := by omega
              by_cases hji : j = i
              · subst hji
                rw [hget1, hget2, hget3]
                exact noStraddle_mono k (hI2 x hx hxa hpre j hj3 hj3le k)
                  (ht1.2 x hx hxa).1 (ht1.2 x hx hxa).2
                  (ht2.2 x hx hxa).1 (ht2.2 x hx hxa).2
                  (ht3.2 x hx hxa).1 (ht3.2 x hx hxa).2
              · have hne : j < i ∨ i + 2 < j := by omega
                have hcnd : ∀ p, j ≤ p → p ≤ j + 2 →
                    (p < i ∨ (i + 2 < p ∧ p < st.indices.length)) := by
                  intro p hp1 hp2
                  rcases hne with h | h
                  · exact Or.inl (by omega)
                  · exact Or.inr ⟨by omega, by omega⟩
                have he0 := hgetOld j (hcnd j le_rfl (by omega))
                have he1 := hgetOld (j + 1) (hcnd (j + 1) (by omega) (by omega))
                have he2 := hgetOld (j + 2) (hcnd (j + 2) (by omega) (by omega))
                rw [he0, he1, he2]
                have e1 : tlo st3 dim (st.indices.getD j 0) (st.indices.getD (j + 1) 0)
                    (st.indices.getD (j + 2) 0) x =
                    tlo st dim (st.indices.getD j 0) (st.indices.getD (j + 1) 0)
                    (st.indices.getD (j + 2) 0) x := by
                  unfold tlo
                  rw [hvget3 _ (hvalid _ (getD_mem _ _ _ (by omega))) x hx,
                    hvget3 _ (hvalid _ (getD_mem _ _ _ (by omega))) x hx,
                    hvget3 _ (hvalid _ (getD_mem _ _ _ (by omega))) x hx]
                have e2 : thi st3 dim (st.indices.getD j 0) (st.indices.getD (j + 1) 0)
                    (st.indices.getD (j + 2) 0) x =
                    thi st dim (st.indices.getD j 0) (st.indices.getD (j + 1) 0)
                    (st.indices.getD (j + 2) 0) x := by
                  unfold thi
                  rw [hvget3 _ (hvalid _ (getD_mem _ _ _ (by omega))) x hx,
                    hvget3 _ (hvalid _ (getD_mem _ _ _ (by omega))) x hx,
                    hvget3 _ (hvalid _ (getD_mem _ _ _ (by omega))) x hx]
                rw [e1, e2]
                exact hI2 x hx hxa hpre j hj3 hj3le k
            · obtain ⟨r, rfl⟩ : ∃ r, j = st.indices.length + r :=
                ⟨j - st.indices.length, by omega⟩
              rw [hlen3] at hjlen
              have ha0 := hgetApp r (by omega)
              have ha1 : st3.indices.getD (st.indices.length + r + 1) 0 = app.getD (r + 1) 0 := by
                rw [show st.indices.length + r + 1 = st.indices.length + (r + 1) from by omega]
                exact hgetApp (r + 1) (by omega)
              have ha2 : st3.indices.getD (st.indices.length + r + 2) 0 = app.getD (r + 2) 0 := by
                rw [show st.indices.length + r + 2 = st.indices.length + (r + 2) from by omega]
                exact hgetApp (r + 2) (by omega)
              rw [ha0, ha1, ha2]
              have hm1 := hmem _ (getD_mem app r 0 (by omega))
              have hm2 := hmem _ (getD_mem app (r + 1) 0 (by omega))
              have hm3 := hmem _ (getD_mem app (r + 2) 0 (by omega))
              exact noStraddle_mono k (hI2 x hx hxa hpre i h3i hi3 k)
                (hm1.2 x hx hxa).1 (hm1.2 x hx hxa).2
                (hm2.2 x hx hxa).1 (hm2.2 x hx hxa).2
                (hm3.2 x hx hxa).1 (hm3.2 x hx hxa).2
          exact ih i st3 st' hres h3i hdvd2 h3len3 hvalid3 hI1s hI2s
    · rw [if_neg hi] at hres
      rw [Option.some_inj] at hres
      subst hres
      refine ⟨hdvd, h3len, hvalid, ?_, hI2⟩
      intro j hj3 hjlen
      exact hI1 j hj3 (by omega) hjlen

/-- If every triangle is clean on axis `a`, no triangle straddles a grid
multiple on axis `a`. -/
theorem axisNoStraddle_of_clean (st : TState) (dim a : ℕ) (modulo : ℚ)
    (hmod : 0 < modulo)
    (h : ∀ j, 3 ∣ j → j + 3 ≤ st.indices.length → slotClean st dim a modulo j) :
    axisNoStraddle st dim a modulo := by
  intro j hj3 hjlen k
  rintro ⟨h1, h2⟩
  exact sinDecide_none_no_straddle hmod (h j hj3 hjlen) k h1 h2

/-- The axis fold of `tesselate`: axes still in the worklist get cleaned,
already-clean axes stay clean. -/
theorem tessFold_spec (dim : ℕ) (modulo : ℚ) (fuel : ℕ) (hmod : 0 < modulo) :
    ∀ (axes : List ℕ) (st st' : TState),
      List.foldlM (fun s a => tessAxisLoop fuel 0 s dim a modulo) st axes = some st' →
      (∀ a ∈ axes, a < dim) →
      dim ∣ st.vertices.length → 3 ∣ st.indices.length → idxValid st dim →
      (∀ x, x < dim → x ∈ axes ∨ axisNoStraddle st dim x modulo) →
      dim ∣ st'.vertices.length ∧ 3 ∣ st'.indices.length ∧ idxValid st' dim ∧
      (∀ x, x < dim → axisNoStraddle st' dim x modulo) := by
  intro axes
  induction axes with
  | nil =>
    intro st st' hres hax hdvd h3 hvalid hdone
    simp only [List.foldlM_nil] at hres
    obtain rfl : st = st' := Option.some.inj hres
    exact ⟨hdvd, h3, hvalid,
      fun x hx => (hdone x hx).resolve_left (List.not_mem_nil x)⟩
  | cons a rest ih =>
    intro st st' hres hax hdvd h3 hvalid hdone
    rw [List.foldlM_cons] at hres
    cases h1 : tessAxisLoop fuel 0 st dim a modulo with
    | none =>
      rw [h1] at hres
      exact absurd hres (by simp)
    | some st1 =>
      rw [h1] at hres
      replace hres : List.foldlM (fun s a => tessAxisLoop fuel 0 s dim a modulo) st1 rest
          = some st' := hres
      have ha : a < dim := hax a (List.mem_cons_self a rest)
      obtain ⟨hdvd1, h31, hvalid1, hclean1, hpres1⟩ :=
        tessAxisLoop_spec dim a (fun x => x ∉ (a :: rest)) modulo ha hmod fuel 0 st st1 h1
          (dvd_zero 3) hdvd h3 hvalid
          (fun j _ hj _ => absurd hj (by omega))
          (fun x hx _ hpre => (hdone x hx).resolve_left hpre)
      apply ih st1 st' hres (fun b hb => hax b (List.mem_cons_of_mem a hb)) hdvd1 h31 hvalid1
      intro x hx
      by_cases hxr : x ∈ rest
      · exact Or.inl hxr
      · right
        by_cases hxa : x = a
        · subst hxa
          exact axisNoStraddle_of_clean st1 dim x modulo hmod hclean1
        · exact hpres1 x hx hxa (by
            intro hmem
            rcases List.mem_cons.mp hmem with h | h
            · exact hxa h
            · exact hxr h)

/-- C3: when `tesselate` with a positive modulus returns, no triangle of the
final index list has an extent on any axis that strictly straddles a grid
multiple: a multiple of `modulo` strictly between the triangle\'s least and
greatest coordinate on an axis always carries one of the triangle\'s own
vertices (in fact the proof shows no such interior multiple exists at all). -/
theorem tesselate_no_straddle (fuel : ℕ) (vertices : List ℚ) (indices : List ℕ)
    (modulo : ℚ) (dim : ℕ) (st' : TState)
    (hmod : 0 < modulo) (hdim : 0 < dim)
    (hres : tesselate fuel vertices indices modulo dim = some st')
    (hdvd : dim ∣ vertices.length) (h3 : 3 ∣ indices.length)
    (hvalid : ∀ ix ∈ indices, (ix + 1) * dim ≤ vertices.length) :
    ∀ axis, axis < dim → ∀ j, 3 ∣ j → j + 3 ≤ st'.indices.length → ∀ k : ℤ,
      min (vget st' (st'.indices.getD j 0 * dim + axis))
        (min (vget st' (st'.indices.getD (j + 1) 0 * dim + axis))
          (vget st' (st'.indices.getD (j + 2) 0 * dim + axis))) < k * modulo →
      k * modulo < max (vget st' (st'.indices.getD j 0 * dim + axis))
        (max (vget st' (st'.indices.getD (j + 1) 0 * dim + axis))
          (vget st' (st'.indices.getD (j + 2) 0 * dim + axis))) →
      k * modulo = vget st' (st'.indices.getD j 0 * dim + axis) ∨
      k * modulo = vget st' (st'.indices.getD (j + 1) 0 * dim + axis) ∨
      k * modulo = vget st' (st'.indices.getD (j + 2) 0 * dim + axis) := by
  replace hres : List.foldlM (fun s a => tessAxisLoop fuel 0 s dim a modulo)
      (⟨vertices, indices⟩ : TState) (List.range dim) = some st' := hres
  obtain ⟨hdvd', h3', hvalid', hns⟩ :=
    tessFold_spec dim modulo fuel hmod (List.range dim) ⟨vertices, indices⟩ st' hres
      (fun a ha => List.mem_range.mp ha) hdvd h3 hvalid
      (fun x hx => Or.inl (List.mem_range.mpr hx))
  intro axis haxis j hj3 hjlen k hlo hhi
  exact absurd ⟨hlo, hhi⟩ (hns axis haxis j hj3 hjlen k)

set_option maxRecDepth 100000 in
set_option maxHeartbeats 1000000 in
/-- C3 witness: a right triangle re-tessellated on a grid of pitch 2; the
theorem applies to the computed result state. -/
theorem tesselate_no_straddle_witness :
    ((0 : ℚ) < 2 ∧ (0 : ℕ) < 2 ∧
      tesselate 50 [0, 0, 3, 0, 0, 3] [0, 1, 2] 2 2 = some (⟨[0, 0, 3, 0, 0, 3, 2, 1, 2, 0, 0, 2, 1, 2], [3, 5, 0, 1, 3, 4, 4, 3, 0, 2, 5, 6, 6, 5, 3]⟩ : TState) ∧
      (2 : ℕ) ∣ ([0, 0, 3, 0, 0, 3] : List ℚ).length ∧
      (3 : ℕ) ∣ ([0, 1, 2] : List ℕ).length ∧
      (∀ ix ∈ ([0, 1, 2] : List ℕ), (ix + 1) * 2 ≤ ([0, 0, 3, 0, 0, 3] : List ℚ).length)) ∧
    (∀ axis, axis < 2 → ∀ j, 3 ∣ j → j + 3 ≤ ((⟨[0, 0, 3, 0, 0, 3, 2, 1, 2, 0, 0, 2, 1, 2], [3, 5, 0, 1, 3, 4, 4, 3, 0, 2, 5, 6, 6, 5, 3]⟩ : TState)).indices.length → ∀ k : ℤ,
      min (vget (⟨[0, 0, 3, 0, 0, 3, 2, 1, 2, 0, 0, 2, 1, 2], [3, 5, 0, 1, 3, 4, 4, 3, 0, 2, 5, 6, 6, 5, 3]⟩ : TState) (((⟨[0, 0, 3, 0, 0, 3, 2, 1, 2, 0, 0, 2, 1, 2], [3, 5, 0, 1, 3, 4, 4, 3, 0, 2, 5, 6, 6, 5, 3]⟩ : TState)).indices.getD j 0 * 2 + axis))
        (min (vget (⟨[0, 0, 3, 0, 0, 3, 2, 1, 2, 0, 0, 2, 1, 2], [3, 5, 0, 1, 3, 4, 4, 3, 0, 2, 5, 6, 6, 5, 3]⟩ : TState) (((⟨[0, 0, 3, 0, 0, 3, 2, 1, 2, 0, 0, 2, 1, 2], [3, 5, 0, 1, 3, 4, 4, 3, 0, 2, 5, 6, 6, 5, 3]⟩ : TState)).indices.getD (j + 1) 0 * 2 + axis))
          (vget (⟨[0, 0, 3, 0, 0, 3, 2, 1, 2, 0, 0, 2, 1, 2], [3, 5, 0, 1, 3, 4, 4, 3, 0, 2, 5, 6, 6, 5, 3]⟩ : TState) (((⟨[0, 0, 3, 0, 0, 3, 2, 1, 2, 0, 0, 2, 1, 2], [3, 5, 0, 1, 3, 4, 4, 3, 0, 2, 5, 6, 6, 5, 3]⟩ : TState)).indices.getD (j + 2) 0 * 2 + axis))) < k * 2 →
      k * 2 < max (vget (⟨[0, 0, 3, 0, 0, 3, 2, 1, 2, 0, 0, 2, 1, 2], [3, 5, 0, 1, 3, 4, 4, 3, 0, 2, 5, 6, 6, 5, 3]⟩ : TState) (((⟨[0, 0, 3, 0, 0, 3, 2, 1, 2, 0, 0, 2, 1, 2], [3, 5, 0, 1, 3, 4, 4, 3, 0, 2, 5, 6, 6, 5, 3]⟩ : TState)).indices.getD j 0 * 2 + axis))
        (max (vget (⟨[0, 0, 3, 0, 0, 3, 2, 1, 2, 0, 0, 2, 1, 2], [3, 5, 0, 1, 3, 4, 4, 3, 0, 2, 5, 6, 6, 5, 3]⟩ : TState) (((⟨[0, 0, 3, 0, 0, 3, 2, 1, 2, 0, 0, 2, 1, 2], [3, 5, 0, 1, 3, 4, 4, 3, 0, 2, 5, 6, 6, 5, 3]⟩ : TState)).indices.getD (j + 1) 0 * 2 + axis))
          (vget (⟨[0, 0, 3, 0, 0, 3, 2, 1, 2, 0, 0, 2, 1, 2], [3, 5, 0, 1, 3, 4, 4, 3, 0, 2, 5, 6, 6, 5, 3]⟩ : TState) (((⟨[0, 0, 3, 0, 0, 3, 2, 1, 2, 0, 0, 2, 1, 2], [3, 5, 0, 1, 3, 4, 4, 3, 0, 2, 5, 6, 6, 5, 3]⟩ : TState)).indices.getD (j + 2) 0 * 2 + axis))) →
      k * 2 = vget (⟨[0, 0, 3, 0, 0, 3, 2, 1, 2, 0, 0, 2, 1, 2], [3, 5, 0, 1, 3, 4, 4, 3, 0, 2, 5, 6, 6, 5, 3]⟩ : TState) (((⟨[0, 0, 3, 0, 0, 3, 2, 1, 2, 0, 0, 2, 1, 2], [3, 5, 0, 1, 3, 4, 4, 3, 0, 2, 5, 6, 6, 5, 3]⟩ : TState)).indices.getD j 0 * 2 + axis) ∨
      k * 2 = vget (⟨[0, 0, 3, 0, 0, 3, 2, 1, 2, 0, 0, 2, 1, 2], [3, 5, 0, 1, 3, 4, 4, 3, 0, 2, 5, 6, 6, 5, 3]⟩ : TState) (((⟨[0, 0, 3, 0, 0, 3, 2, 1, 2, 0, 0, 2, 1, 2], [3, 5, 0, 1, 3, 4, 4, 3, 0, 2, 5, 6, 6, 5, 3]⟩ : TState)).indices.getD (j + 1) 0 * 2 + axis) ∨
      k * 2 = vget (⟨[0, 0, 3, 0, 0, 3, 2, 1, 2, 0, 0, 2, 1, 2], [3, 5, 0, 1, 3, 4, 4, 3, 0, 2, 5, 6, 6, 5, 3]⟩ : TState) (((⟨[0, 0, 3, 0, 0, 3, 2, 1, 2, 0, 0, 2, 1, 2], [3, 5, 0, 1, 3, 4, 4, 3, 0, 2, 5, 6, 6, 5, 3]⟩ : TState)).indices.getD (j + 2) 0 * 2 + axis)) :=
  ⟨⟨by norm_num, by norm_num, by with_unfolding_all rfl, by decide, by decide, by decide⟩,
    tesselate_no_straddle 50 [0, 0, 3, 0, 0, 3] [0, 1, 2] 2 2 (⟨[0, 0, 3, 0, 0, 3, 2, 1, 2, 0, 0, 2, 1, 2], [3, 5, 0, 1, 3, 4, 4, 3, 0, 2, 5, 6, 6, 5, 3]⟩ : TState)
      (by norm_num) (by norm_num) (by with_unfolding_all rfl) (by decide) (by decide)
      (by decide)⟩

/-!
## C5: every emitted triangle index addresses a vertex in range
-/

/-- Every arena node (and the out-of-range dummy) has a vertex index whose
first coordinate lies inside the first `N` data slots. -/
def arenaI (st : EState) (dim N : ℕ) : Prop := ∀ p, (nd st p).i * dim < N

/-- Every emitted triangle index addresses a vertex inside the data, and the
output comes in whole triples. -/
def trisI (st : EState) (dim N : ℕ) : Prop :=
  (∀ t ∈ st.triangles, t * dim < N) ∧ 3 ∣ st.triangles.length

/-- The combined state invariant of the `earcut` engine. -/
def eOK (st : EState) (dim N : ℕ) : Prop := arenaI st dim N ∧ trisI st dim N

theorem arenaI_pos {st : EState} {dim N : ℕ} (h : arenaI st dim N) : 0 < N := by
  have h2 := h st.nodes.length
  rw [nd, List.getD_eq_getElem?_getD, List.getElem?_eq_none (le_refl _)] at h2
  simpa [dummyNode] using h2

theorem arenaI_updN {st : EState} {dim N : ℕ} (p : ℕ) (f : ENode → ENode)
    (hf : ∀ n, (f n).i = n.i) (h : arenaI st dim N) : arenaI (updN st p f) dim N := by
  intro q
  rw [nd_updN]
  split_ifs with hq
  · rw [hf]
    exact h p
  · exact h q

theorem arenaI_append {st : EState} {dim N : ℕ} (nn : ENode)
    (h : arenaI st dim N) (hn : nn.i * dim < N) :
    arenaI { st with nodes := st.nodes ++ [nn] } dim N := by
  intro q
  rcases Nat.lt_or_ge q st.nodes.length with hq | hq
  · rw [nd_append_lt st q [nn] hq]
    exact h q
  · rcases Nat.lt_or_ge q (st.nodes.length + 1) with hq2 | hq2
    · have he : q = st.nodes.length + 0 := by omega
      rw [he, nd_append_right]
      exact hn
    · have he : nd { st with nodes := st.nodes ++ [nn] } q = dummyNode := by
        rw [nd, List.getD_eq_getElem?_getD, List.getElem?_eq_none (by simp; omega)]
        rfl
      rw [he]
      simpa [dummyNode] using arenaI_pos h

theorem eOK_updN {st : EState} {dim N : ℕ} (p : ℕ) (f : ENode → ENode)
    (hf : ∀ n, (f n).i = n.i) (h : eOK st dim N) : eOK (updN st p f) dim N :=
  ⟨arenaI_updN p f hf h.1, h.2⟩

theorem eOK_pushT3 {st : EState} {dim N : ℕ} (a b c : ℕ)
    (h : eOK st dim N) (ha : a * dim < N) (hb : b * dim < N) (hc : c * dim < N) :
    eOK (pushT st [a, b, c]) dim N := by
  refine ⟨h.1, ?_, ?_⟩
  · intro t ht
    rw [pushT] at ht
    simp only [List.mem_append, List.mem_cons, List.not_mem_nil, or_false] at ht
    rcases ht with ht | rfl | rfl | rfl
    · exact h.2.1 t ht
    · exact ha
    · exact hb
    · exact hc
  · have h3 := h.2.2
    simp only [pushT, List.length_append, List.length_cons, List.length_nil]
    omega

theorem eOK_newNode {st : EState} {dim N : ℕ} (i : ℕ) (x y : ℚ) (last : Option ℕ)
    (h : eOK st dim N) (hi : i * dim < N) :
    eOK (newNode st i x y last).1 dim N := by
  cases last with
  | none => exact ⟨arenaI_append _ h.1 hi, h.2⟩
  | some l =>
    exact ⟨arenaI_updN _ _ (fun n => rfl)
      (arenaI_updN _ _ (fun n => rfl) (arenaI_append _ h.1 hi)), h.2⟩

theorem eOK_removeNode {st : EState} {dim N : ℕ} (p : ℕ) (h : eOK st dim N) :
    eOK (removeNode st p) dim N := by
  rw [removeNode]
  have h1 := eOK_updN (nd st p).next (fun n => { n with prev := (nd st p).prev })
    (fun n => rfl) h
  set st1 := updN st (nd st p).next (fun n => { n with prev := (nd st p).prev }) with hst1
  have h2 := eOK_updN (nd st1 p).prev (fun n => { n with next := (nd st1 p).next })
    (fun n => rfl) h1
  set st2 := updN st1 (nd st1 p).prev (fun n => { n with next := (nd st1 p).next }) with hst2
  have h3 : eOK (match (nd st2 p).prevZ with
      | none => st2
      | some q => updN st2 q (fun n => { n with nextZ := (nd st2 p).nextZ })) dim N := by
    cases (nd st2 p).prevZ with
    | none => exact h2
    | some q => exact eOK_updN q _ (fun n => rfl) h2
  set st3 := (match (nd st2 p).prevZ with
      | none => st2
      | some q => updN st2 q (fun n => { n with nextZ := (nd st2 p).nextZ })) with hst3
  cases (nd st3 p).nextZ with
  | none => exact h3
  | some q => exact eOK_updN q _ (fun n => rfl) h3

theorem eOK_splitPolygon {st : EState} {dim N : ℕ} (a b : ℕ) (h : eOK st dim N) :
    eOK (splitPolygon st a b).1 dim N := by
  rw [splitPolygon]
  have h1 : eOK { st with nodes := st.nodes ++
      [(⟨(nd st a).i, (nd st a).x, (nd st a).y, 0, none, none, false,
        st.nodes.length, st.nodes.length⟩ : ENode)] } dim N :=
    ⟨arenaI_append _ h.1 (h.1 a), h.2⟩
  set st1 := { st with nodes := st.nodes ++
      [(⟨(nd st a).i, (nd st a).x, (nd st a).y, 0, none, none, false,
        st.nodes.length, st.nodes.length⟩ : ENode)] } with hst1
  have h2 : eOK { st1 with nodes := st1.nodes ++
      [(⟨(nd st1 b).i, (nd st1 b).x, (nd st1 b).y, 0, none, none, false,
        st1.nodes.length, st1.nodes.length⟩ : ENode)] } dim N :=
    ⟨arenaI_append _ h1.1 (h1.1 b), h1.2⟩
  exact eOK_updN _ _ (fun n => rfl) (eOK_updN _ _ (fun n => rfl)
    (eOK_updN _ _ (fun n => rfl) (eOK_updN _ _ (fun n => rfl)
    (eOK_updN _ _ (fun n => rfl) (eOK_updN _ _ (fun n => rfl)
    (eOK_updN _ _ (fun n => rfl) (eOK_updN _ _ (fun n => rfl) h2)))))))

/-- Positions visited by the forward construction loop stay below `end_`. -/
theorem sAsteps_bound {start end_ : ℤ} {dim : ℕ} (hdim : 0 < dim) (m : ℕ)
    (hm : m < sAsteps start end_ dim) : start + (m : ℤ) * dim < end_ := by
  rw [sAsteps, if_neg (Nat.pos_iff_ne_zero.mp hdim)] at hm
  have h1 : (m + 1) * dim ≤ ((end_ - start).toNat + dim - 1) / dim * dim :=
    Nat.mul_le_mul_right _ hm
  have h2 : ((end_ - start).toNat + dim - 1) / dim * dim ≤ (end_ - start).toNat + dim - 1 :=
    Nat.div_mul_le_self _ _
  have h3 : (m + 1) * dim = m * dim + dim := by ring
  have h5 : m * dim < (end_ - start).toNat := by omega
  have h6 : ((m * dim : ℕ) : ℤ) < end_ - start := by omega
  have h8 : (m : ℤ) * dim = ((m * dim : ℕ) : ℤ) := by push_cast; ring
  rw [h8]
  omega

/-- Positions visited by the backward construction loop stay in
`[start, end_)`. -/
theorem llBackSteps_bound {start end_ : ℤ} {dim : ℕ} (hdim : 0 < dim) (m : ℕ)
    (hm : m < llBackSteps start end_ dim) :
    start ≤ end_ - dim - (m : ℤ) * dim ∧ end_ - dim - (m : ℤ) * dim < end_ := by
  rw [llBackSteps, if_neg (Nat.pos_iff_ne_zero.mp hdim)] at hm
  by_cases hlt : end_ - dim < start
  · rw [if_pos hlt] at hm
    omega
  · rw [if_neg hlt] at hm
    push_neg at hlt
    have h1 : m ≤ (end_ - ↑dim - start).toNat / dim := by omega
    have h2 : m * dim ≤ (end_ - ↑dim - start).toNat / dim * dim :=
      Nat.mul_le_mul_right _ h1
    have h3 : (end_ - ↑dim - start).toNat / dim * dim ≤ (end_ - ↑dim - start).toNat :=
      Nat.div_mul_le_self _ _
    have h4 : m * dim ≤ (end_ - ↑dim - start).toNat := le_trans h2 h3
    have h8 : (m : ℤ) * dim = ((m * dim : ℕ) : ℤ) := by push_cast; ring
    rw [h8]
    omega

theorem llForward_eOK (data : List ℚ) (dim N : ℕ) (hdim : 0 < dim) :
    ∀ (steps : ℕ) (i0 : ℤ) (st : EState) (last : Option ℕ),
      (∀ m : ℕ, m < steps → 0 ≤ i0 + m * dim ∧ i0 + m * dim < (N : ℤ)) →
      eOK st dim N →
      eOK (llForward data dim steps i0 st last).1 dim N := by
  intro steps
  induction steps with
  | zero => intro i0 st last _ h; exact h
  | succ k ih =>
    intro i0 st last hpos h
    rw [llForward]
    try dsimp only
    apply ih
    · intro m hm
      have h1 := hpos (m + 1) (by omega)
      push_cast at h1
      constructor
      · linarith [h1.1]
      · linarith [h1.2]
    · have h0 := hpos 0 (by omega)
      simp only [Nat.cast_zero, zero_mul, add_zero] at h0
      apply eOK_newNode _ _ _ _ h
      rw [if_pos h0.1]
      calc i0.toNat / dim * dim ≤ i0.toNat := Nat.div_mul_le_self _ _
        _ < N := by omega

theorem llBackward_eOK (data : List ℚ) (dim N : ℕ) (hdim : 0 < dim) :
    ∀ (steps : ℕ) (i0 : ℤ) (st : EState) (last : Option ℕ),
      (∀ m : ℕ, m < steps → 0 ≤ i0 - m * dim ∧ i0 - m * dim < (N : ℤ)) →
      eOK st dim N →
      eOK (llBackward data dim steps i0 st last).1 dim N := by
  intro steps
  induction steps with
  | zero => intro i0 st last _ h; exact h
  | succ k ih =>
    intro i0 st last hpos h
    rw [llBackward]
    try dsimp only
    apply ih
    · intro m hm
      have h1 := hpos (m + 1) (by omega)
      push_cast at h1
      constructor
      · linarith [h1.1]
      · linarith [h1.2]
    · have h0 := hpos 0 (by omega)
      simp only [Nat.cast_zero, zero_mul, sub_zero] at h0
      apply eOK_newNode _ _ _ _ h
      rw [if_pos h0.1]
      calc i0.toNat / dim * dim ≤ i0.toNat := Nat.div_mul_le_self _ _
        _ < N := by omega

theorem linkedList_eOK (st0 : EState) (data : List ℚ) (start end_ : ℤ) (dim N : ℕ)
    (cw : Bool) (hdim : 0 < dim) (hstart : 0 ≤ start) (hend : end_ ≤ (N : ℤ)) :
    ∀ st' ropt, linkedList st0 data start end_ dim cw = (st', ropt) →
      eOK st0 dim N → eOK st' dim N := by
  intro st' ropt hll h
  rw [linkedList] at hll
  by_cases hdir : cw = decide (signedArea data start end_ dim > 0)
  · rw [if_pos hdir] at hll
    have hOK := llForward_eOK data dim N hdim (sAsteps start end_ dim) start st0 none
      (fun m hm => ⟨add_nonneg hstart (by positivity),
        lt_of_lt_of_le (sAsteps_bound hdim m hm) hend⟩) h
    rcases hfw : llForward data dim (sAsteps start end_ dim) start st0 none with ⟨st1, r1⟩
    rw [hfw] at hll hOK
    cases r1 with
    | none =>
      rw [Prod.mk.injEq] at hll
      obtain ⟨rfl, -⟩ := hll
      exact hOK
    | some l =>
      dsimp only at hll
      by_cases hdup : equalsN (nd st1 l) (nd st1 (nd st1 l).next)
      · rw [if_pos hdup] at hll
        rw [Prod.mk.injEq] at hll
        obtain ⟨rfl, -⟩ := hll
        exact eOK_removeNode l hOK
      · rw [if_neg hdup] at hll
        rw [Prod.mk.injEq] at hll
        obtain ⟨rfl, -⟩ := hll
        exact hOK
  · rw [if_neg hdir] at hll
    have hOK := llBackward_eOK data dim N hdim (llBackSteps start end_ dim) (end_ - dim)
      st0 none
      (fun m hm => by
        obtain ⟨hb1, hb2⟩ := llBackSteps_bound hdim m hm
        exact ⟨le_trans hstart hb1, lt_of_lt_of_le hb2 hend⟩) h
    rcases hfw : llBackward data dim (llBackSteps start end_ dim) (end_ - dim) st0 none
      with ⟨st1, r1⟩
    rw [hfw] at hll hOK
    cases r1 with
    | none =>
      rw [Prod.mk.injEq] at hll
      obtain ⟨rfl, -⟩ := hll
      exact hOK
    | some l =>
      dsimp only at hll
      by_cases hdup : equalsN (nd st1 l) (nd st1 (nd st1 l).next)
      · rw [if_pos hdup] at hll
        rw [Prod.mk.injEq] at hll
        obtain ⟨rfl, -⟩ := hll
        exact eOK_removeNode l hOK
      · rw [if_neg hdup] at hll
        rw [Prod.mk.injEq] at hll
        obtain ⟨rfl, -⟩ := hll
        exact hOK

theorem filterLoop_eOK {dim N : ℕ} :
    ∀ (fuel : ℕ) (st : EState) (p e : ℕ) (st' : EState) (r : ℕ),
      filterLoop st fuel p e = some (st', r) → eOK st dim N → eOK st' dim N := by
  intro fuel
  induction fuel with
  | zero => intro st p e st' r hres h; exact Option.noConfusion hres
  | succ f ih =>
    intro st p e st' r hres h
    rw [filterLoop] at hres
    by_cases hc : ¬(nd st p).steiner ∧
        (equalsN (nd st p) (nd st (nd st p).next) ∨
         areaN st (nd st p).prev p (nd st p).next = 0)
    · rw [if_pos hc] at hres
      try dsimp only at hres
      have h2 : eOK (removeNode st p) dim N := eOK_removeNode p h
      set st2 := removeNode st p with hst2
      by_cases hstop : (nd st2 p).prev = (nd st2 ((nd st2 p).prev)).next
      · rw [if_pos hstop] at hres
        simp only [Option.some.injEq, Prod.mk.injEq] at hres
        obtain ⟨h1', -⟩ := hres
        rw [← h1']
        exact h2
      · rw [if_neg hstop] at hres
        exact ih st2 _ _ st' r hres h2
    · rw [if_neg hc] at hres
      try dsimp only at hres
      by_cases hstop : (nd st p).next = e
      · rw [if_pos hstop] at hres
        simp only [Option.some.injEq, Prod.mk.injEq] at hres
        obtain ⟨h1', -⟩ := hres
        rw [← h1']
        exact h
      · rw [if_neg hstop] at hres
        exact ih st _ _ st' r hres h

theorem filterPoints_eOK {dim N : ℕ} {fuel : ℕ} {st : EState} {start end_ : ℕ}
    {st' : EState} {r : ℕ} (hres : filterPoints fuel st start end_ = some (st', r))
    (h : eOK st dim N) : eOK st' dim N :=
  filterLoop_eOK fuel st start end_ st' r hres h

theorem indexCurveLoop_eOK {dim N : ℕ} (minX minY invSize : ℚ) :
    ∀ (fuel : ℕ) (st : EState) (p start : ℕ) (st' : EState),
      indexCurveLoop minX minY invSize fuel st p start = some st' →
      eOK st dim N → eOK st' dim N := by
  intro fuel
  induction fuel with
  | zero => intro st p start st' hres h; exact Option.noConfusion hres
  | succ f ih =>
    intro st p start st' hres h
    rw [indexCurveLoop] at hres
    try dsimp only at hres
    have h1 : eOK (if (nd st p).z = 0 then
        updN st p (fun n => { n with z := zOrder n.x n.y minX minY invSize })
      else st) dim N := by
      split
      · exact eOK_updN _ _ (fun n => rfl) h
      · exact h
    set st1 := (if (nd st p).z = 0 then
        updN st p (fun n => { n with z := zOrder n.x n.y minX minY invSize })
      else st) with hst1
    have h2 : eOK (updN st1 p (fun n => { n with prevZ := some n.prev, nextZ := some n.next }))
        dim N := eOK_updN _ _ (fun n => rfl) h1
    set st2 := updN st1 p (fun n => { n with prevZ := some n.prev, nextZ := some n.next })
      with hst2
    by_cases hstop : (nd st2 p).next = start
    · rw [if_pos hstop] at hres
      rw [Option.some.injEq] at hres
      rw [← hres]
      exact h2
    · rw [if_neg hstop] at hres
      exact ih st2 _ start st' hres h2

/-- The single state change of one `sortMergeLoop` iteration preserves the
arena and triangle invariants (both updates only touch z-chain pointers). -/
theorem sortMergeStep_eOK {dim N : ℕ} (st : EState) (tail e list : Option ℕ)
    (h : eOK st dim N) :
    eOK (match e with
         | some ee => updN (match tail with
             | some t => (updN st t (fun n => { n with nextZ := e }), list)
             | none => (st, e)).1 ee (fun n => { n with prevZ := tail })
         | none => (match tail with
             | some t => (updN st t (fun n => { n with nextZ := e }), list)
             | none => (st, e)).1) dim N := by
  cases e <;> cases tail <;>
    first
      | exact h
      | exact eOK_updN _ _ (fun n => rfl) h
      | exact eOK_updN _ _ (fun n => rfl) (eOK_updN _ _ (fun n => rfl) h)

theorem sortMergeLoop_eOK {dim N : ℕ} :
    ∀ (fuel : ℕ) (st : EState) (p q : Option ℕ) (psz qsz : ℕ) (list tail : Option ℕ)
      (st' : EState) (r1 r2 r3 r4 : Option ℕ),
      sortMergeLoop fuel st p q psz qsz list tail = some (st', r1, r2, r3, r4) →
      eOK st dim N → eOK st' dim N := by
  intro fuel
  induction fuel with
  | zero =>
    intro st p q psz qsz list tail st' r1 r2 r3 r4 hres h
    exact Option.noConfusion hres
  | succ f ih =>
    intro st p q psz qsz list tail st' r1 r2 r3 r4 hres h
    rw [sortMergeLoop.eq_def] at hres
    try dsimp only at hres
    by_cases hc : psz > 0 ∨ (qsz > 0 ∧ q ≠ none)
    · rw [if_pos hc] at hres
      try dsimp only at hres
      exact ih _ _ _ _ _ _ _ _ _ _ _ _ hres (sortMergeStep_eOK st tail _ list h)
    · rw [if_neg hc] at hres
      simp only [Option.some.injEq, Prod.mk.injEq] at hres
      obtain ⟨h1', -⟩ := hres
      rw [← h1']
      exact h

theorem sortPassLoop_eOK {dim N : ℕ} (inSize : ℕ) :
    ∀ (fuel : ℕ) (st : EState) (p : Option ℕ) (numMerges : ℕ) (list tail : Option ℕ)
      (st' : EState) (r1 : ℕ) (r2 r3 : Option ℕ),
      sortPassLoop inSize fuel st p numMerges list tail = some (st', r1, r2, r3) →
      eOK st dim N → eOK st' dim N := by
  intro fuel
  induction fuel with
  | zero =>
    intro st p numMerges list tail st' r1 r2 r3 hres h
    exact Option.noConfusion hres
  | succ f ih =>
    intro st p numMerges list tail st' r1 r2 r3 hres h
    rw [sortPassLoop.eq_def] at hres
    try dsimp only at hres
    cases p with
    | none =>
      try dsimp only at hres
      simp only [Option.some.injEq, Prod.mk.injEq] at hres
      obtain ⟨h1', -⟩ := hres
      rw [← h1']
      exact h
    | some pp =>
      try dsimp only at hres
      rcases hm : sortMergeLoop f st (some pp) (sortRunAdvance st inSize (some pp) 0).1
          (sortRunAdvance st inSize (some pp) 0).2 inSize list tail
        with _ | ⟨st1, p1, q1, l1, t1⟩
      · rw [hm] at hres
        exact Option.noConfusion hres
      · rw [hm] at hres
        try dsimp only at hres
        exact ih st1 q1 _ l1 t1 st' r1 r2 r3 hres
          (sortMergeLoop_eOK f st _ _ _ _ _ _ _ _ _ _ _ hm h)

theorem sortLinkedLoop_eOK {dim N : ℕ} :
    ∀ (fuel : ℕ) (st : EState) (list : Option ℕ) (inSize : ℕ)
      (st' : EState) (r : Option ℕ),
      sortLinkedLoop fuel st list inSize = some (st', r) →
      eOK st dim N → eOK st' dim N := by
  intro fuel
  induction fuel with
  | zero =>
    intro st list inSize st' r hres h
    exact Option.noConfusion hres
  | succ f ih =>
    intro st list inSize st' r hres h
    rw [sortLinkedLoop] at hres
    rcases hp : sortPassLoop inSize f st list 0 none none with _ | ⟨st1, nm, l1, t1⟩
    · rw [hp] at hres
      exact Option.noConfusion hres
    · rw [hp] at hres
      try dsimp only at hres
      have h1 : eOK st1 dim N := sortPassLoop_eOK inSize f st list 0 none none st1 nm l1 t1 hp h
      cases t1 with
      | none =>
        try dsimp only at hres
        by_cases hnm : nm > 1
        · rw [if_pos hnm] at hres
          exact ih _ _ _ st' r hres h1
        · rw [if_neg hnm] at hres
          simp only [Option.some.injEq, Prod.mk.injEq] at hres
          obtain ⟨h1', -⟩ := hres
          rw [← h1']
          exact h1
      | some t =>
        try dsimp only at hres
        have h2 : eOK (updN st1 t (fun n => { n with nextZ := none })) dim N :=
          eOK_updN _ _ (fun n => rfl) h1
        by_cases hnm : nm > 1
        · rw [if_pos hnm] at hres
          exact ih _ _ _ st' r hres h2
        · rw [if_neg hnm] at hres
          simp only [Option.some.injEq, Prod.mk.injEq] at hres
          obtain ⟨h1', -⟩ := hres
          rw [← h1']
          exact h2

theorem sortLinked_eOK {dim N : ℕ} (fuel : ℕ) (st : EState) (list : Option ℕ)
    (st' : EState) (r : Option ℕ) (hres : sortLinked fuel st list = some (st', r))
    (h : eOK st dim N) : eOK st' dim N :=
  sortLinkedLoop_eOK fuel st list 1 st' r hres h

theorem indexCurve_eOK {dim N : ℕ} (fuel : ℕ) (st : EState) (start : ℕ)
    (minX minY invSize : ℚ) (st' : EState)
    (hres : indexCurve fuel st start minX minY invSize = some st')
    (h : eOK st dim N) : eOK st' dim N := by
  rw [indexCurve] at hres
  cases hic : indexCurveLoop minX minY invSize fuel st start start with
  | none =>
    rw [hic] at hres
    exact Option.noConfusion hres
  | some st1 =>
    rw [hic] at hres
    try dsimp only at hres
    have h1 : eOK st1 dim N := indexCurveLoop_eOK minX minY invSize fuel st start start st1 hic h
    have h2 : eOK (match (nd st1 start).prevZ with
        | some qz => updN st1 qz (fun n => { n with nextZ := none })
        | none => st1) dim N := by
      cases (nd st1 start).prevZ with
      | none => exact h1
      | some qz => exact eOK_updN _ _ (fun n => rfl) h1
    set st2 := (match (nd st1 start).prevZ with
        | some qz => updN st1 qz (fun n => { n with nextZ := none })
        | none => st1) with hst2
    have h3 : eOK (updN st2 start (fun n => { n with prevZ := none })) dim N :=
      eOK_updN _ _ (fun n => rfl) h2
    set st3 := updN st2 start (fun n => { n with prevZ := none }) with hst3
    rcases hsl : sortLinked fuel st3 (some start) with _ | ⟨st4, l4⟩
    · rw [hsl] at hres
      exact Option.noConfusion hres
    · rw [hsl] at hres
      try dsimp only at hres
      rw [Option.some.injEq] at hres
      rw [← hres]
      exact sortLinked_eOK fuel st3 (some start) st4 l4 hsl h3

theorem cureLoop_eOK {dim N : ℕ} :
    ∀ (fuel : ℕ) (st : EState) (p start : ℕ) (st' : EState) (r : ℕ),
      cureLoop fuel st p start = some (st', r) → eOK st dim N → eOK st' dim N := by
  intro fuel
  induction fuel with
  | zero => intro st p start st' r hres h; exact Option.noConfusion hres
  | succ f ih =>
    intro st p start st' r hres h
    rw [cureLoop] at hres
    try dsimp only at hres
    set a := (nd st p).prev with ha
    set b := (nd st (nd st p).next).next with hb
    by_cases hc : ¬equalsN (nd st a) (nd st b) ∧
        intersects (nd st a) (nd st p) (nd st (nd st p).next) (nd st b) ∧
        locallyInside st a b ∧ locallyInside st b a
    · rw [if_pos hc] at hres
      try dsimp only at hres
      have h1 : eOK (pushT st [(nd st a).i, (nd st p).i, (nd st b).i]) dim N :=
        eOK_pushT3 _ _ _ h (h.1 a) (h.1 p) (h.1 b)
      set st1 := pushT st [(nd st a).i, (nd st p).i, (nd st b).i] with hst1
      have h2 : eOK (removeNode st1 p) dim N := eOK_removeNode p h1
      set st2 := removeNode st1 p with hst2
      have h3 : eOK (removeNode st2 ((nd st2 p).next)) dim N := eOK_removeNode _ h2
      set st3 := removeNode st2 ((nd st2 p).next) with hst3
      by_cases hstop : (nd st3 b).next = b
      · rw [if_pos hstop] at hres
        simp only [Option.some.injEq, Prod.mk.injEq] at hres
        obtain ⟨h1', -⟩ := hres
        rw [← h1']
        exact h3
      · rw [if_neg hstop] at hres
        exact ih st3 _ b st' r hres h3
    · rw [if_neg hc] at hres
      by_cases hstop : (nd st p).next = start
      · rw [if_pos hstop] at hres
        simp only [Option.some.injEq, Prod.mk.injEq] at hres
        obtain ⟨h1', -⟩ := hres
        rw [← h1']
        exact h
      · rw [if_neg hstop] at hres
        exact ih st _ start st' r hres h

theorem cureLocalIntersections_eOK {dim N : ℕ} (fuel : ℕ) (st : EState) (start : ℕ)
    (st' : EState) (r : ℕ)
    (hres : cureLocalIntersections fuel st start = some (st', r))
    (h : eOK st dim N) : eOK st' dim N := by
  rw [cureLocalIntersections] at hres
  rcases hcl : cureLoop fuel st start start with _ | ⟨st1, p1⟩
  · rw [hcl] at hres
    exact Option.noConfusion hres
  · rw [hcl] at hres
    try dsimp only at hres
    exact filterPoints_eOK hres (cureLoop_eOK fuel st start start st1 p1 hcl h)

theorem eliminateHole_eOK {dim N : ℕ} (fuel : ℕ) (st : EState) (hole outerNode : ℕ)
    (st' : EState) (r : ℕ) (hres : eliminateHole fuel st hole outerNode = some (st', r))
    (h : eOK st dim N) : eOK st' dim N := by
  rw [eliminateHole] at hres
  cases hfb : findHoleBridge fuel st hole outerNode with
  | none =>
    rw [hfb] at hres
    exact Option.noConfusion hres
  | some ob =>
    rw [hfb] at hres
    cases ob with
    | none =>
      try dsimp only at hres
      simp only [Option.some.injEq, Prod.mk.injEq] at hres
      obtain ⟨h1', -⟩ := hres
      rw [← h1']
      exact h
    | some bridge =>
      try dsimp only at hres
      have h1 : eOK (splitPolygon st bridge hole).1 dim N := eOK_splitPolygon _ _ h
      set st1 := (splitPolygon st bridge hole).1 with hst1
      set br := (splitPolygon st bridge hole).2 with hbr
      rcases hf1 : filterPoints fuel st1 br ((nd st1 br).next) with _ | ⟨st2, x2⟩
      · rw [hf1] at hres
        exact Option.noConfusion hres
      · rw [hf1] at hres
        try dsimp only at hres
        have h2 : eOK st2 dim N := filterPoints_eOK hf1 h1
        rcases hf2 : filterPoints fuel st2 bridge ((nd st2 bridge).next) with _ | ⟨st3, r2⟩
        · rw [hf2] at hres
          exact Option.noConfusion hres
        · rw [hf2] at hres
          try dsimp only at hres
          simp only [Option.some.injEq, Prod.mk.injEq] at hres
          obtain ⟨h1', -⟩ := hres
          rw [← h1']
          exact filterPoints_eOK hf2 h2

/-- One step of the hole-queue construction preserves the invariants, given
them for the recursive tail. -/
theorem ehBuild_cons_eOK_aux {dim N : ℕ} (data : List ℚ) (fuel : ℕ) (hdim : 0 < dim)
    (E : ℤ) (hend : E ≤ (N : ℤ)) (hh : ℕ) (rest : List ℕ)
    (IH : ∀ (st : EState) (queue : List ℕ) (st' : EState) (q' : List ℕ),
      ehBuild fuel data dim rest st queue = some (st', q') → eOK st dim N → eOK st' dim N)
    (st : EState) (queue : List ℕ) (st' : EState) (q' : List ℕ)
    (hres : (match linkedList st data ((hh : ℤ) * dim) E dim false with
      | (st, none) => ehBuild fuel data dim rest st queue
      | (st, some l) =>
        match getLeftmost fuel (if l = (nd st l).next then
            updN st l (fun n => { n with steiner := true }) else st) l with
        | none => none
        | some lm => ehBuild fuel data dim rest
            (if l = (nd st l).next then updN st l (fun n => { n with steiner := true }) else st)
            (queue ++ [lm])) = some (st', q'))
    (h : eOK st dim N) : eOK st' dim N := by
  rcases hll : linkedList st data ((hh : ℤ) * dim) E dim false with ⟨st1, ropt⟩
  have h1 : eOK st1 dim N :=
    linkedList_eOK st data _ _ dim N false hdim (by positivity) hend st1 ropt hll h
  rw [hll] at hres
  cases ropt with
  | none =>
    try dsimp only at hres
    exact IH st1 queue st' q' hres h1
  | some l =>
    try dsimp only at hres
    have h2 : eOK (if l = (nd st1 l).next then
        updN st1 l (fun n => { n with steiner := true }) else st1) dim N := by
      split
      · exact eOK_updN _ _ (fun n => rfl) h1
      · exact h1
    set st2 := (if l = (nd st1 l).next then
        updN st1 l (fun n => { n with steiner := true }) else st1) with hst2
    cases hlm : getLeftmost fuel st2 l with
    | none =>
      rw [hlm] at hres
      exact Option.noConfusion hres
    | some lm =>
      rw [hlm] at hres
      try dsimp only at hres
      exact IH st2 _ st' q' hres h2

theorem ehBuild_eOK {dim N : ℕ} (data : List ℚ) (fuel : ℕ) (hdim : 0 < dim)
    (hdN : (data.length : ℤ) ≤ (N : ℤ)) :
    ∀ (hs : List ℕ), (∀ hh ∈ hs, ((hh : ℤ) * dim) ≤ (N : ℤ)) →
    ∀ (st : EState) (queue : List ℕ) (st' : EState) (q' : List ℕ),
      ehBuild fuel data dim hs st queue = some (st', q') →
      eOK st dim N → eOK st' dim N := by
  intro hs
  induction hs with
  | nil =>
    intro _ st queue st' q' hres h
    simp only [ehBuild, Option.some.injEq, Prod.mk.injEq] at hres
    obtain ⟨h1', -⟩ := hres
    rw [← h1']
    exact h
  | cons hh rest ih =>
    intro hmem st queue st' q' hres h
    cases rest with
    | nil =>
      refine ehBuild_cons_eOK_aux data fuel hdim ((data.length : ℤ)) hdN hh [] ?_
        st queue st' q' hres h
      intro st2 q2 st2' q2' hres2 h2
      replace hres2 : (some (st2, q2) : Option (EState × List ℕ)) = some (st2', q2') := hres2
      simp only [Option.some.injEq, Prod.mk.injEq] at hres2
      obtain ⟨e1, -⟩ := hres2
      rw [← e1]
      exact h2
    | cons h2 t =>
      refine ehBuild_cons_eOK_aux data fuel hdim (((h2 : ℕ) : ℤ) * dim)
        (hmem h2 (by simp)) hh (h2 :: t) ?_ st queue st' q' hres h
      intro st2 q2 st2' q2' hres2 h2'
      exact ih (fun x hx => hmem x (by simp [hx])) st2 q2 st2' q2' hres2 h2'

theorem ehProcess_eOK {dim N : ℕ} (fuel : ℕ) :
    ∀ (qs : List ℕ) (st : EState) (outerNode : ℕ) (st' : EState) (r : ℕ),
      ehProcess fuel qs st outerNode = some (st', r) → eOK st dim N → eOK st' dim N := by
  intro qs
  induction qs with
  | nil =>
    intro st outerNode st' r hres h
    simp only [ehProcess, Option.some.injEq, Prod.mk.injEq] at hres
    obtain ⟨h1', -⟩ := hres
    rw [← h1']
    exact h
  | cons q rest ih =>
    intro st outerNode st' r hres h
    rw [ehProcess] at hres
    rcases heh : eliminateHole fuel st q outerNode with _ | ⟨st1, o1⟩
    · rw [heh] at hres
      exact Option.noConfusion hres
    · rw [heh] at hres
      try dsimp only at hres
      exact ih st1 o1 st' r hres (eliminateHole_eOK fuel st q outerNode st1 o1 heh h)

theorem eliminateHoles_eOK {dim N : ℕ} (fuel : ℕ) (st : EState) (data : List ℚ)
    (holeIndices : List ℕ) (outerNode : ℕ) (st' : EState) (r : ℕ)
    (hdim : 0 < dim) (hdN : (data.length : ℤ) ≤ (N : ℤ))
    (hmem : ∀ hh ∈ holeIndices, ((hh : ℤ) * dim) ≤ (N : ℤ))
    (hres : eliminateHoles fuel st data holeIndices outerNode dim = some (st', r))
    (h : eOK st dim N) : eOK st' dim N := by
  rw [eliminateHoles] at hres
  rcases heb : ehBuild fuel data dim holeIndices st [] with _ | ⟨st1, queue⟩
  · rw [heb] at hres
    exact Option.noConfusion hres
  · rw [heb] at hres
    try dsimp only at hres
    exact ehProcess_eOK fuel (sortQueue st1 queue) st1 outerNode st' r hres
      (ehBuild_eOK data fuel hdim hdN holeIndices hmem st [] st1 queue heb h)

/-- The slicing engine and its three fallback tiers preserve the arena and
triangle-list invariants (single fuel induction over the mutual block). -/
theorem earcutMutual_eOK {dim N : ℕ} (minX minY invSize : ℚ) :
    ∀ fuel : ℕ,
      (∀ (ear : Option ℕ) (st : EState) (pass : ℕ) (st' : EState),
        earcutLinked fuel ear st dim minX minY invSize pass = some st' →
        eOK st dim N → eOK st' dim N) ∧
      (∀ (st : EState) (ear stop : ℕ) (pass : ℕ) (st' : EState),
        earLoop fuel st ear stop dim minX minY invSize pass = some st' →
        eOK st dim N → eOK st' dim N) ∧
      (∀ (st : EState) (a b : ℕ) (st' : EState) (flag : Bool),
        splitEarcutInner fuel st a b dim minX minY invSize = some (st', flag) →
        eOK st dim N → eOK st' dim N) ∧
      (∀ (st : EState) (a start : ℕ) (st' : EState),
        splitEarcutOuter fuel st a start dim minX minY invSize = some st' →
        eOK st dim N → eOK st' dim N) ∧
      (∀ (st : EState) (start : ℕ) (st' : EState),
        splitEarcut fuel st start dim minX minY invSize = some st' →
        eOK st dim N → eOK st' dim N) := by
  intro fuel
  induction fuel with
  | zero =>
    refine ⟨?_, ?_, ?_, ?_, ?_⟩
    · intro ear st pass st' hres h
      rw [earcutLinked.eq_def] at hres
      exact Option.noConfusion hres
    · intro st ear stop pass st' hres h
      rw [earLoop.eq_def] at hres
      exact Option.noConfusion hres
    · intro st a b st' flag hres h
      rw [splitEarcutInner.eq_def] at hres
      exact Option.noConfusion hres
    · intro st a start st' hres h
      rw [splitEarcutOuter.eq_def] at hres
      exact Option.noConfusion hres
    · intro st start st' hres h
      rw [splitEarcut.eq_def] at hres
      exact Option.noConfusion hres
  | succ f ih =>
    obtain ⟨ihEL, ihLoop, ihInner, ihOuter, ihSplit⟩ := ih
    refine ⟨?_, ?_, ?_, ?_, ?_⟩
    · -- earcutLinked
      intro ear st pass st' hres h
      rw [earcutLinked.eq_def] at hres
      try dsimp only at hres
      cases ear with
      | none =>
        try dsimp only at hres
        rw [Option.some.injEq] at hres
        rw [← hres]
        exact h
      | some e =>
        try dsimp only at hres
        rcases hic : (if pass = 0 ∧ invSize ≠ 0 then indexCurve f st e minX minY invSize
            else some st) with _ | st1
        · rw [hic] at hres
          exact Option.noConfusion hres
        · rw [hic] at hres
          try dsimp only at hres
          have h1 : eOK st1 dim N := by
            by_cases hp : pass = 0 ∧ invSize ≠ 0
            · rw [if_pos hp] at hic
              exact indexCurve_eOK f st e minX minY invSize st1 hic h
            · rw [if_neg hp] at hic
              rw [Option.some.injEq] at hic
              rw [← hic]
              exact h
          exact ihLoop st1 e e pass st' hres h1
    · -- earLoop
      intro st ear stop pass st' hres h
      rw [earLoop.eq_def] at hres
      try dsimp only at hres
      by_cases hdone : (nd st ear).prev = (nd st ear).next
      · rw [if_pos hdone] at hres
        rw [Option.some.injEq] at hres
        rw [← hres]
        exact h
      · rw [if_neg hdone] at hres
        try dsimp only at hres
        rcases hear : (if invSize ≠ 0 then isEarHashed f st ear minX minY invSize
            else isEar f st ear) with _ | b
        · rw [hear] at hres
          exact Option.noConfusion hres
        · rw [hear] at hres
          cases b with
          | true =>
            try dsimp only at hres
            have h1 : eOK (pushT st [(nd st ((nd st ear).prev)).i, (nd st ear).i,
                (nd st ((nd st ear).next)).i]) dim N :=
              eOK_pushT3 _ _ _ h (h.1 _) (h.1 _) (h.1 _)
            set st1 := pushT st [(nd st ((nd st ear).prev)).i, (nd st ear).i,
                (nd st ((nd st ear).next)).i] with hst1
            have h2 : eOK (removeNode st1 ear) dim N := eOK_removeNode _ h1
            set st2 := removeNode st1 ear with hst2
            exact ihLoop st2 _ _ pass st' hres h2
          | false =>
            try dsimp only at hres
            by_cases hstop : (nd st ear).next = stop
            · rw [if_pos hstop] at hres
              by_cases hp0 : pass = 0
              · rw [if_pos hp0] at hres
                try dsimp only at hres
                rcases hfp : filterPoints f st ((nd st ear).next) ((nd st ear).next)
                    with _ | ⟨stA, eA⟩
                · rw [hfp] at hres
                  exact Option.noConfusion hres
                · rw [hfp] at hres
                  try dsimp only at hres
                  exact ihEL (some eA) stA 1 st' hres (filterPoints_eOK hfp h)
              · rw [if_neg hp0] at hres
                by_cases hp1 : pass = 1
                · rw [if_pos hp1] at hres
                  try dsimp only at hres
                  rcases hfp : filterPoints f st ((nd st ear).next) ((nd st ear).next)
                      with _ | ⟨stA, eA⟩
                  · rw [hfp] at hres
                    exact Option.noConfusion hres
                  · rw [hfp] at hres
                    try dsimp only at hres
                    rcases hcl : cureLocalIntersections f stA eA with _ | ⟨stB, eB⟩
                    · rw [hcl] at hres
                      exact Option.noConfusion hres
                    · rw [hcl] at hres
                      try dsimp only at hres
                      exact ihEL (some eB) stB 2 st' hres
                        (cureLocalIntersections_eOK f stA eA stB eB hcl
                          (filterPoints_eOK hfp h))
                · rw [if_neg hp1] at hres
                  by_cases hp2 : pass = 2
                  · rw [if_pos hp2] at hres
                    exact ihSplit st _ st' hres h
                  · rw [if_neg hp2] at hres
                    rw [Option.some.injEq] at hres
                    rw [← hres]
                    exact h
            · rw [if_neg hstop] at hres
              exact ihLoop st _ stop pass st' hres h
    · -- splitEarcutInner
      intro st a b st' flag hres h
      rw [splitEarcutInner.eq_def] at hres
      try dsimp only at hres
      by_cases hend : b = (nd st a).prev
      · rw [if_pos hend] at hres
        simp only [Option.some.injEq, Prod.mk.injEq] at hres
        obtain ⟨e1, -⟩ := hres
        rw [← e1]
        exact h
      · rw [if_neg hend] at hres
        try dsimp only at hres
        rcases hvd : (if (nd st a).i ≠ (nd st b).i then isValidDiagonal f st a b
            else some false) with _ | vb
        · rw [hvd] at hres
          exact Option.noConfusion hres
        · rw [hvd] at hres
          cases vb with
          | true =>
            try dsimp only at hres
            have h1 : eOK (splitPolygon st a b).1 dim N := eOK_splitPolygon a b h
            set st1 := (splitPolygon st a b).1 with hst1
            set c := (splitPolygon st a b).2 with hc
            rcases hf1 : filterPoints f st1 a ((nd st1 a).next) with _ | ⟨st2, a2⟩
            · rw [hf1] at hres
              exact Option.noConfusion hres
            · rw [hf1] at hres
              try dsimp only at hres
              rcases hf2 : filterPoints f st2 c ((nd st2 c).next) with _ | ⟨st3, c2⟩
              · rw [hf2] at hres
                exact Option.noConfusion hres
              · rw [hf2] at hres
                try dsimp only at hres
                rcases he1 : earcutLinked f (some a2) st3 dim minX minY invSize 0 with _ | st4
                · rw [he1] at hres
                  exact Option.noConfusion hres
                · rw [he1] at hres
                  try dsimp only at hres
                  rcases he2 : earcutLinked f (some c2) st4 dim minX minY invSize 0 with _ | st5
                  · rw [he2] at hres
                    exact Option.noConfusion hres
                  · rw [he2] at hres
                    try dsimp only at hres
                    simp only [Option.some.injEq, Prod.mk.injEq] at hres
                    obtain ⟨e1, -⟩ := hres
                    rw [← e1]
                    exact ihEL (some c2) st4 0 st5 he2
                      (ihEL (some a2) st3 0 st4 he1
                        (filterPoints_eOK hf2 (filterPoints_eOK hf1 h1)))
          | false =>
            try dsimp only at hres
            exact ihInner st a _ st' flag hres h
    · -- splitEarcutOuter
      intro st a start st' hres h
      rw [splitEarcutOuter.eq_def] at hres
      try dsimp only at hres
      rcases hin : splitEarcutInner f st a ((nd st ((nd st a).next)).next) dim minX minY invSize
          with _ | ⟨st1, fl⟩
      · rw [hin] at hres
        exact Option.noConfusion hres
      · rw [hin] at hres
        have h1 : eOK st1 dim N := ihInner st a _ st1 fl hin h
        cases fl with
        | true =>
          try dsimp only at hres
          rw [Option.some.injEq] at hres
          rw [← hres]
          exact h1
        | false =>
          try dsimp only at hres
          by_cases hstop : (nd st1 a).next = start
          · rw [if_pos hstop] at hres
            rw [Option.some.injEq] at hres
            rw [← hres]
            exact h1
          · rw [if_neg hstop] at hres
            exact ihOuter st1 _ start st' hres h1
    · -- splitEarcut
      intro st start st' hres h
      rw [splitEarcut.eq_def] at hres
      try dsimp only at hres
      exact ihOuter st start start st' hres h

/-- `earcut` only emits triangle indices `t` with `t * dim < data.length`,
and always a multiple of three of them. -/
theorem earcut_tris_bound (fuel : ℕ) (data : List ℚ) (holeIndices : List ℕ) (dim : ℕ)
    (tris : List ℕ) (hdim : 0 < dim)
    (hholes : ∀ hh ∈ holeIndices, hh * dim ≤ data.length)
    (hres : earcut fuel data holeIndices dim = some tris) :
    (∀ t ∈ tris, t * dim < data.length) ∧ 3 ∣ tris.length := by
  set OL := (if holeIndices ≠ [] then ((holeIndices.getD 0 0 : ℤ)) * (dim : ℤ)
      else ((data.length : ℤ))) with hOLdef
  set BB := bboxLoop data dim (sAsteps dim OL dim) dim
      (dget data 0) (dget data 1) (dget data 0) (dget data 1) with hBB
  replace hres : (match (linkedList ⟨[], []⟩ data 0 OL dim true).2 with
    | none => some []
    | some outerNode =>
      if (nd (linkedList ⟨[], []⟩ data 0 OL dim true).1 outerNode).next
          = (nd (linkedList ⟨[], []⟩ data 0 OL dim true).1 outerNode).prev then
        (some [] : Option (List ℕ))
      else
        match (if holeIndices ≠ [] then
            eliminateHoles fuel (linkedList ⟨[], []⟩ data 0 OL dim true).1 data holeIndices
              outerNode dim
          else some ((linkedList ⟨[], []⟩ data 0 OL dim true).1, outerNode)) with
        | none => none
        | some (st, outerNode) =>
          match earcutLinked fuel (some outerNode) st dim
              (if data.length > 80 * dim then BB.1 else 0)
              (if data.length > 80 * dim then BB.2.1 else 0)
              (if data.length > 80 * dim then
                (if max (BB.2.2.1 - BB.1) (BB.2.2.2 - BB.2.1) ≠ 0 then
                  1 / max (BB.2.2.1 - BB.1) (BB.2.2.2 - BB.2.1) else 0) else 0) 0 with
          | none => none
          | some st => some st.triangles) = some tris := hres
  have hOLle : OL ≤ (data.length : ℤ) := by
    rw [hOLdef]
    split
    · next hne =>
      cases holeIndices with
      | nil => exact absurd rfl hne
      | cons h0 t =>
        rw [List.getD_cons_zero]
        exact_mod_cast hholes h0 (List.mem_cons_self h0 t)
    · exact le_refl _
  by_cases hN : data.length = 0
  · have hOL0 : OL = 0 := by
      rw [hOLdef]
      split
      · next hne =>
        cases holeIndices with
        | nil => exact absurd rfl hne
        | cons h0 t =>
          rw [List.getD_cons_zero]
          have hb := hholes h0 (List.mem_cons_self h0 t)
          have hz : h0 * dim = 0 := Nat.le_zero.mp (hN ▸ hb)
          exact_mod_cast hz
      · exact_mod_cast hN
    have hbs0 : llBackSteps 0 0 dim = 0 := by
      rw [llBackSteps, if_neg (Nat.pos_iff_ne_zero.mp hdim),
        if_pos (show (0 : ℤ) - (dim : ℤ) < 0 by
          have hd : (0 : ℤ) < dim := by exact_mod_cast hdim
          omega)]
    have hsa0 : sAsteps 0 0 dim = 0 := by
      rw [sAsteps, if_neg (Nat.pos_iff_ne_zero.mp hdim)]
      rw [sub_zero, Int.toNat_zero, Nat.zero_add]
      exact Nat.div_eq_of_lt (by omega)
    have hsa : signedArea data 0 0 dim = 0 := by
      rw [signedArea, hsa0]
      rfl
    have hdec : decide (signedArea data 0 0 dim > 0) = false := by
      rw [hsa]
      with_unfolding_all rfl
    have hll0 : linkedList (⟨[], []⟩ : EState) data 0 0 dim true = (⟨[], []⟩, none) := by
      rw [linkedList, hdec]
      rw [if_neg (show ¬(true = false) by decide)]
      rw [hbs0]
      rfl
    rw [hOL0, hll0] at hres
    replace hres : (some [] : Option (List ℕ)) = some tris := hres
    rw [Option.some.injEq] at hres
    rw [← hres]
    exact ⟨fun t ht => absurd ht (List.not_mem_nil t), ⟨0, rfl⟩⟩
  · have h0OK : eOK (⟨[], []⟩ : EState) dim data.length := by
      refine ⟨fun p => ?_, fun t ht => absurd ht (List.not_mem_nil t), ⟨0, rfl⟩⟩
      have he : nd (⟨[], []⟩ : EState) p = dummyNode := rfl
      rw [he]
      show 0 * dim < data.length
      omega
    rcases hll : linkedList ⟨[], []⟩ data 0 OL dim true with ⟨st1, ropt⟩
    have h1 : eOK st1 dim data.length :=
      linkedList_eOK ⟨[], []⟩ data 0 OL dim data.length true hdim le_rfl hOLle st1 ropt hll h0OK
    rw [hll] at hres
    cases ropt with
    | none =>
      try dsimp only at hres
      rw [Option.some.injEq] at hres
      rw [← hres]
      exact ⟨fun t ht => absurd ht (List.not_mem_nil t), ⟨0, rfl⟩⟩
    | some outerNode =>
      try dsimp only at hres
      by_cases htrv : (nd st1 outerNode).next = (nd st1 outerNode).prev
      · rw [if_pos htrv] at hres
        rw [Option.some.injEq] at hres
        rw [← hres]
        exact ⟨fun t ht => absurd ht (List.not_mem_nil t), ⟨0, rfl⟩⟩
      · rw [if_neg htrv] at hres
        rcases heh : (if holeIndices ≠ [] then
            eliminateHoles fuel st1 data holeIndices outerNode dim
          else some (st1, outerNode)) with _ | ⟨st2, on2⟩
        · rw [heh] at hres
          exact Option.noConfusion hres
        · rw [heh] at hres
          try dsimp only at hres
          have h2 : eOK st2 dim data.length := by
            by_cases hh : holeIndices ≠ []
            · rw [if_pos hh] at heh
              refine eliminateHoles_eOK fuel st1 data holeIndices outerNode st2 on2 hdim
                le_rfl ?_ heh h1
              intro x hx
              exact_mod_cast hholes x hx
            · rw [if_neg hh] at heh
              simp only [Option.some.injEq, Prod.mk.injEq] at heh
              obtain ⟨e1, -⟩ := heh
              rw [← e1]
              exact h1
          have hfin : ∀ (mX mY iS : ℚ),
              (match earcutLinked fuel (some on2) st2 dim mX mY iS 0 with
               | none => none
               | some st => some st.triangles) = some tris →
              (∀ t ∈ tris, t * dim < data.length) ∧ 3 ∣ tris.length := by
            intro mX mY iS hr
            rcases hel : earcutLinked fuel (some on2) st2 dim mX mY iS 0 with _ | st3
            · rw [hel] at hr
              exact Option.noConfusion hr
            · rw [hel] at hr
              try dsimp only at hr
              rw [Option.some.injEq] at hr
              have h3 : eOK st3 dim data.length :=
                (earcutMutual_eOK mX mY iS fuel).1 (some on2) st2 0 st3 hel h2
              rw [← hr]
              exact ⟨h3.2.1, h3.2.2⟩
          exact hfin _ _ _ hres

/-- C5: for every input (with or without holes), every triangle index emitted
by `earcut` is a valid offset into the coordinate buffer
(`t * dim < data.length`, i.e. `t < data.length / dim`), and when grid
re-tessellation with a positive modulus follows, every index of the
re-tessellated result is a valid offset into the final vertex buffer
including all grid-synthesized vertices. -/
theorem earclip_index_validity (fuel : ℕ) (data : List ℚ) (holeIndices : List ℕ)
    (dim : ℕ) (tris : List ℕ) (hdim : 0 < dim) (hdvd : dim ∣ data.length)
    (hholes : ∀ hh ∈ holeIndices, hh * dim ≤ data.length)
    (hres : earcut fuel data holeIndices dim = some tris) :
    (∀ t ∈ tris, t * dim < data.length) ∧
    (∀ (fuel2 : ℕ) (modulo : ℚ) (st' : TState), 0 < modulo →
      tesselate fuel2 data tris modulo dim = some st' →
      ∀ t ∈ st'.indices, t * dim < st'.vertices.length) := by
  obtain ⟨hb, h3⟩ := earcut_tris_bound fuel data holeIndices dim tris hdim hholes hres
  refine ⟨hb, ?_⟩
  intro fuel2 modulo st' hmod hts
  replace hts : List.foldlM (fun s a => tessAxisLoop fuel2 0 s dim a modulo)
      (⟨data, tris⟩ : TState) (List.range dim) = some st' := hts
  have hvalid0 : ∀ ix ∈ tris, (ix + 1) * dim ≤ data.length := by
    intro ix hix
    obtain ⟨k, hk⟩ := hdvd
    have hbb := hb ix hix
    have h1 : ix < k := by
      have hbb2 : ix * dim < k * dim := by
        rw [hk, Nat.mul_comm dim k] at hbb
        exact hbb
      exact lt_of_mul_lt_mul_right hbb2 (Nat.zero_le dim)
    calc (ix + 1) * dim ≤ k * dim := Nat.mul_le_mul_right dim (Nat.succ_le_of_lt h1)
      _ = data.length := by rw [hk, Nat.mul_comm]
  obtain ⟨hdvd', h3', hvalid', -⟩ :=
    tessFold_spec dim modulo fuel2 hmod (List.range dim) ⟨data, tris⟩ st' hts
      (fun a ha => List.mem_range.mp ha) hdvd h3 hvalid0
      (fun x hx => Or.inl (List.mem_range.mpr hx))
  intro t ht
  have hv2 : (t + 1) * dim ≤ st'.vertices.length := hvalid' t ht
  have he : t * dim + dim = (t + 1) * dim := by ring
  omega

set_option maxRecDepth 100000 in
set_option maxHeartbeats 1000000 in
/-- C5 witness: the pipeline on a concrete triangle; the theorem applies to the
computed output `[1, 2, 0]`. -/
theorem earclip_index_validity_witness :
    ((0 : ℕ) < 2 ∧ (2 : ℕ) ∣ ([0, 0, 3, 0, 0, 3] : List ℚ).length ∧
      (∀ hh ∈ ([] : List ℕ), hh * 2 ≤ ([0, 0, 3, 0, 0, 3] : List ℚ).length) ∧
      earcut 50 [0, 0, 3, 0, 0, 3] [] 2 = some [1, 2, 0]) ∧
    ((∀ t ∈ ([1, 2, 0] : List ℕ), t * 2 < ([0, 0, 3, 0, 0, 3] : List ℚ).length) ∧
      (∀ (fuel2 : ℕ) (modulo : ℚ) (st' : TState), 0 < modulo →
        tesselate fuel2 [0, 0, 3, 0, 0, 3] [1, 2, 0] modulo 2 = some st' →
        ∀ t ∈ st'.indices, t * 2 < st'.vertices.length)) :=
  ⟨⟨by decide, by decide, by decide, by with_unfolding_all rfl⟩,
    earclip_index_validity 50 [0, 0, 3, 0, 0, 3] [] 2 [1, 2, 0] (by decide) (by decide)
      (by decide) (by with_unfolding_all rfl)⟩

/-!
## C10: distinctness of emitted triangle indices
-/

/-- Index/coordinate consistency of an arena: every node stores exactly the
coordinates located at its vertex index in the data buffer (the invariant the
ring construction establishes and all node primitives preserve). -/
def iCoords (st : EState) (data : List ℚ) (dim : ℕ) : Prop :=
  ∀ p, p < st.nodes.length →
    (nd st p).x = dget data (((nd st p).i * dim : ℕ) : ℤ) ∧
    (nd st p).y = dget data ((((nd st p).i * dim : ℕ) : ℤ) + 1)

theorem area_degenerate (p q r : ENode)
    (h : (p.x = q.x ∧ p.y = q.y) ∨ (q.x = r.x ∧ q.y = r.y) ∨ (p.x = r.x ∧ p.y = r.y)) :
    area p q r = 0 := by
  rw [area]
  rcases h with ⟨h1, h2⟩ | ⟨h1, h2⟩ | ⟨h1, h2⟩
  · rw [h1, h2]
    ring
  · rw [← h1, ← h2]
    ring
  · rw [← h1, ← h2]
    ring

theorem isEar_true_area {fuel : ℕ} {st : EState} {ear : ℕ}
    (h : isEar fuel st ear = some true) :
    areaN st ((nd st ear).prev) ear ((nd st ear).next) < 0 := by
  by_contra hge
  push_neg at hge
  rw [isEar] at h
  rw [if_pos hge] at h
  exact Bool.noConfusion (Option.some.inj h)

theorem isEarHashed_true_area {fuel : ℕ} {st : EState} {ear : ℕ} {minX minY invSize : ℚ}
    (h : isEarHashed fuel st ear minX minY invSize = some true) :
    areaN st ((nd st ear).prev) ear ((nd st ear).next) < 0 := by
  by_contra hge
  push_neg at hge
  rw [isEarHashed] at h
  rw [if_pos hge] at h
  exact Bool.noConfusion (Option.some.inj h)

/-- C10 counterexample: `earcut` on a quadrilateral with a single-point
(Steiner) hole placed on the vertex `(2, 1)` terminates and emits the index
list `[1, 0, 0, 1, 0, 3, 3, 2, 1]`, whose very first triangle `(1, 0, 0)`
repeats the index `0`: the curing pass pushes a triangle built from a
bridge-duplicated vertex, refuting the claimed pairwise distinctness. -/
theorem c10_repeated_index_counterexample :
    earcut 100 [0, 0, 0, 2, 2, 1, 1, 1, 2, 1] [4] 2
      = some [1, 0, 0, 1, 0, 3, 3, 2, 1] ∧
    ([1, 0, 0, 1, 0, 3, 3, 2, 1] : List ℕ).getD 1 0
      = ([1, 0, 0, 1, 0, 3, 3, 2, 1] : List ℕ).getD 2 0 :=
  ⟨by with_unfolding_all rfl, by decide⟩

/-- C10 amended: every triangle emitted by the ear-clipping pass proper has
three pairwise-distinct vertex indices: whenever the ear test (hashed or
brute-force, as dispatched at the push site) succeeds on a ring whose node
coordinates are consistent with their vertex indices, the three indices
pushed — `prev.i`, `ear.i`, `next.i` — are pairwise distinct, because equal
indices force equal coordinates and hence a zero signed area, while the ear
test demands a strictly negative one.  (The curing pass does not share this
property: see the counterexample.) -/
theorem earcut_ear_pass_distinct_indices (fuel : ℕ) (st : EState) (data : List ℚ)
    (dim : ℕ) (ear : ℕ) (minX minY invSize : ℚ)
    (hic : iCoords st data dim)
    (hear : ear < st.nodes.length)
    (hprev : (nd st ear).prev < st.nodes.length)
    (hnext : (nd st ear).next < st.nodes.length)
    (ht : (if invSize ≠ 0 then isEarHashed fuel st ear minX minY invSize
           else isEar fuel st ear) = some true) :
    (nd st ((nd st ear).prev)).i ≠ (nd st ear).i ∧
    (nd st ear).i ≠ (nd st ((nd st ear).next)).i ∧
    (nd st ((nd st ear).prev)).i ≠ (nd st ((nd st ear).next)).i := by
  have harea : areaN st ((nd st ear).prev) ear ((nd st ear).next) < 0 := by
    by_cases hiv : invSize ≠ 0
    · rw [if_pos hiv] at ht
      exact isEarHashed_true_area ht
    · rw [if_neg hiv] at ht
      exact isEar_true_area ht
  have hcoords : ∀ p, p < st.nodes.length → ∀ q, q < st.nodes.length →
      (nd st p).i = (nd st q).i →
      (nd st p).x = (nd st q).x ∧ (nd st p).y = (nd st q).y := by
    intro p hp q hq hiq
    obtain ⟨hx1, hy1⟩ := hic p hp
    obtain ⟨hx2, hy2⟩ := hic q hq
    rw [hx1, hy1, hx2, hy2, hiq]
    exact ⟨rfl, rfl⟩
  refine ⟨?_, ?_, ?_⟩ <;> intro heq
  · exact absurd (area_degenerate _ _ _ (Or.inl (hcoords _ hprev _ hear heq)))
      (ne_of_lt harea)
  · exact absurd (area_degenerate _ _ _ (Or.inr (Or.inl (hcoords _ hear _ hnext heq))))
      (ne_of_lt harea)
  · exact absurd (area_degenerate _ _ _ (Or.inr (Or.inr (hcoords _ hprev _ hnext heq))))
      (ne_of_lt harea)

/-- C10 amended-claim witness: the triangle ring for `[0,0, 3,0, 0,3]`, on
which the brute-force ear test succeeds at node `0`; the theorem applies. -/
theorem earcut_ear_pass_distinct_witness :
    (iCoords (⟨[⟨0, 0, 0, 0, none, none, false, 2, 1⟩,
        ⟨1, 3, 0, 0, none, none, false, 0, 2⟩,
        ⟨2, 0, 3, 0, none, none, false, 1, 0⟩], []⟩ : EState) [0, 0, 3, 0, 0, 3] 2 ∧
      (0 : ℕ) < (⟨[⟨0, 0, 0, 0, none, none, false, 2, 1⟩,
        ⟨1, 3, 0, 0, none, none, false, 0, 2⟩,
        ⟨2, 0, 3, 0, none, none, false, 1, 0⟩], []⟩ : EState).nodes.length ∧
      (nd (⟨[⟨0, 0, 0, 0, none, none, false, 2, 1⟩,
        ⟨1, 3, 0, 0, none, none, false, 0, 2⟩,
        ⟨2, 0, 3, 0, none, none, false, 1, 0⟩], []⟩ : EState) 0).prev
        < (⟨[⟨0, 0, 0, 0, none, none, false, 2, 1⟩,
        ⟨1, 3, 0, 0, none, none, false, 0, 2⟩,
        ⟨2, 0, 3, 0, none, none, false, 1, 0⟩], []⟩ : EState).nodes.length ∧
      (nd (⟨[⟨0, 0, 0, 0, none, none, false, 2, 1⟩,
        ⟨1, 3, 0, 0, none, none, false, 0, 2⟩,
        ⟨2, 0, 3, 0, none, none, false, 1, 0⟩], []⟩ : EState) 0).next
        < (⟨[⟨0, 0, 0, 0, none, none, false, 2, 1⟩,
        ⟨1, 3, 0, 0, none, none, false, 0, 2⟩,
        ⟨2, 0, 3, 0, none, none, false, 1, 0⟩], []⟩ : EState).nodes.length ∧
      (if (0 : ℚ) ≠ 0 then isEarHashed 10 (⟨[⟨0, 0, 0, 0, none, none, false, 2, 1⟩,
        ⟨1, 3, 0, 0, none, none, false, 0, 2⟩,
        ⟨2, 0, 3, 0, none, none, false, 1, 0⟩], []⟩ : EState) 0 0 0 0
       else isEar 10 (⟨[⟨0, 0, 0, 0, none, none, false, 2, 1⟩,
        ⟨1, 3, 0, 0, none, none, false, 0, 2⟩,
        ⟨2, 0, 3, 0, none, none, false, 1, 0⟩], []⟩ : EState) 0) = some true) ∧
    ((nd (⟨[⟨0, 0, 0, 0, none, none, false, 2, 1⟩,
        ⟨1, 3, 0, 0, none, none, false, 0, 2⟩,
        ⟨2, 0, 3, 0, none, none, false, 1, 0⟩], []⟩ : EState)
        ((nd (⟨[⟨0, 0, 0, 0, none, none, false, 2, 1⟩,
        ⟨1, 3, 0, 0, none, none, false, 0, 2⟩,
        ⟨2, 0, 3, 0, none, none, false, 1, 0⟩], []⟩ : EState) 0).prev)).i
        ≠ (nd (⟨[⟨0, 0, 0, 0, none, none, false, 2, 1⟩,
        ⟨1, 3, 0, 0, none, none, false, 0, 2⟩,
        ⟨2, 0, 3, 0, none, none, false, 1, 0⟩], []⟩ : EState) 0).i ∧
      (nd (⟨[⟨0, 0, 0, 0, none, none, false, 2, 1⟩,
        ⟨1, 3, 0, 0, none, none, false, 0, 2⟩,
        ⟨2, 0, 3, 0, none, none, false, 1, 0⟩], []⟩ : EState) 0).i
        ≠ (nd (⟨[⟨0, 0, 0, 0, none, none, false, 2, 1⟩,
        ⟨1, 3, 0, 0, none, none, false, 0, 2⟩,
        ⟨2, 0, 3, 0, none, none, false, 1, 0⟩], []⟩ : EState)
        ((nd (⟨[⟨0, 0, 0, 0, none, none, false, 2, 1⟩,
        ⟨1, 3, 0, 0, none, none, false, 0, 2⟩,
        ⟨2, 0, 3, 0, none, none, false, 1, 0⟩], []⟩ : EState) 0).next)).i ∧
      (nd (⟨[⟨0, 0, 0, 0, none, none, false, 2, 1⟩,
        ⟨1, 3, 0, 0, none, none, false, 0, 2⟩,
        ⟨2, 0, 3, 0, none, none, false, 1, 0⟩], []⟩ : EState)
        ((nd (⟨[⟨0, 0, 0, 0, none, none, false, 2, 1⟩,
        ⟨1, 3, 0, 0, none, none, false, 0, 2⟩,
        ⟨2, 0, 3, 0, none, none, false, 1, 0⟩], []⟩ : EState) 0).prev)).i
        ≠ (nd (⟨[⟨0, 0, 0, 0, none, none, false, 2, 1⟩,
        ⟨1, 3, 0, 0, none, none, false, 0, 2⟩,
        ⟨2, 0, 3, 0, none, none, false, 1, 0⟩], []⟩ : EState)
        ((nd (⟨[⟨0, 0, 0, 0, none, none, false, 2, 1⟩,
        ⟨1, 3, 0, 0, none, none, false, 0, 2⟩,
        ⟨2, 0, 3, 0, none, none, false, 1, 0⟩], []⟩ : EState) 0).next)).i) :=
  ⟨⟨by rw [iCoords]; decide, by decide, by decide, by decide, by with_unfolding_all rfl⟩,
    earcut_ear_pass_distinct_indices 10 _ [0, 0, 3, 0, 0, 3] 2 0 0 0 0
      (by rw [iCoords]; decide) (by decide) (by decide) (by decide)
      (by with_unfolding_all rfl)⟩

/-!
## C2: the hashed ear test versus the brute-force ear test
-/

/-- C2 counterexample: on the four-node ring `a(1,0) → b(0,2) → c(-3,0) →
d(-1,1)` with the z-order list built by `indexCurve` itself for
`minX = minY = 0`, `invSize = 1 ≠ 0`, the brute-force test rejects the ear at
`b` — the reflex node `d` lies inside the candidate triangle — while the
hashed test accepts it.  The blocker `d` lies left of `minX`, so its
truncated and 32-bit-wrapped z-order `1431655767` exceeds the bbox corner's
`maxZ = 9`, `minZ = 1431655761` exceeds the z-order of `b`'s z-neighbors on
the low side, and all three hashed scan loops stop before examining `d`. -/
theorem c2_isEarHashed_differs :
    indexCurve 50 (⟨[⟨0, 1, 0, 0, none, none, false, 3, 1⟩,
        ⟨1, 0, 2, 0, none, none, false, 0, 2⟩,
        ⟨2, -3, 0, 0, none, none, false, 1, 3⟩,
        ⟨3, -1, 1, 0, none, none, false, 2, 0⟩], []⟩ : EState) 1 0 0 1 = some (⟨[⟨0, 1, 0, 1, none, some 1, false, 3, 1⟩,
        ⟨1, 0, 2, 8, some 0, some 2, false, 0, 2⟩,
        ⟨2, -3, 0, 1431655761, some 1, some 3, false, 1, 3⟩,
        ⟨3, -1, 1, 1431655767, some 2, none, false, 2, 0⟩], []⟩ : EState) ∧
    (1 : ℚ) ≠ 0 ∧
    isEar 50 (⟨[⟨0, 1, 0, 1, none, some 1, false, 3, 1⟩,
        ⟨1, 0, 2, 8, some 0, some 2, false, 0, 2⟩,
        ⟨2, -3, 0, 1431655761, some 1, some 3, false, 1, 3⟩,
        ⟨3, -1, 1, 1431655767, some 2, none, false, 2, 0⟩], []⟩ : EState) 1 = some false ∧
    isEarHashed 50 (⟨[⟨0, 1, 0, 1, none, some 1, false, 3, 1⟩,
        ⟨1, 0, 2, 8, some 0, some 2, false, 0, 2⟩,
        ⟨2, -3, 0, 1431655761, some 1, some 3, false, 1, 3⟩,
        ⟨3, -1, 1, 1431655767, some 2, none, false, 2, 0⟩], []⟩ : EState) 1 0 0 1 = some true :=
  ⟨by with_unfolding_all rfl, by norm_num, by with_unfolding_all rfl,
    by with_unfolding_all rfl⟩

/-- C2 amended: the hashed and the brute-force ear test agree on every reflex
corner — whenever the candidate corner's signed area is nonnegative both
return `false` by the identical leading guard; the full result equivalence
claimed by the spec fails on rings whose nodes leave the bounding box the
z-order was built from (see the counterexample). -/
theorem isEarHashed_isEar_agree_reflex (fuel : ℕ) (st : EState) (ear : ℕ)
    (minX minY invSize : ℚ)
    (h : areaN st ((nd st ear).prev) ear ((nd st ear).next) ≥ 0) :
    isEarHashed fuel st ear minX minY invSize = some false ∧
    isEar fuel st ear = some false := by
  constructor
  · rw [isEarHashed]
    rw [if_pos h]
  · rw [isEar]
    rw [if_pos h]

/-- C2 amended-claim witness: the corner at the reflex node `d` of the same
ring; both tests return `false` there. -/
theorem c2_agree_reflex_witness :
    (areaN (⟨[⟨0, 1, 0, 0, none, none, false, 3, 1⟩,
        ⟨1, 0, 2, 0, none, none, false, 0, 2⟩,
        ⟨2, -3, 0, 0, none, none, false, 1, 3⟩,
        ⟨3, -1, 1, 0, none, none, false, 2, 0⟩], []⟩ : EState) ((nd (⟨[⟨0, 1, 0, 0, none, none, false, 3, 1⟩,
        ⟨1, 0, 2, 0, none, none, false, 0, 2⟩,
        ⟨2, -3, 0, 0, none, none, false, 1, 3⟩,
        ⟨3, -1, 1, 0, none, none, false, 2, 0⟩], []⟩ : EState) 3).prev) 3 ((nd (⟨[⟨0, 1, 0, 0, none, none, false, 3, 1⟩,
        ⟨1, 0, 2, 0, none, none, false, 0, 2⟩,
        ⟨2, -3, 0, 0, none, none, false, 1, 3⟩,
        ⟨3, -1, 1, 0, none, none, false, 2, 0⟩], []⟩ : EState) 3).next) ≥ 0) ∧
    (isEarHashed 50 (⟨[⟨0, 1, 0, 0, none, none, false, 3, 1⟩,
        ⟨1, 0, 2, 0, none, none, false, 0, 2⟩,
        ⟨2, -3, 0, 0, none, none, false, 1, 3⟩,
        ⟨3, -1, 1, 0, none, none, false, 2, 0⟩], []⟩ : EState) 3 0 0 1 = some false ∧
      isEar 50 (⟨[⟨0, 1, 0, 0, none, none, false, 3, 1⟩,
        ⟨1, 0, 2, 0, none, none, false, 0, 2⟩,
        ⟨2, -3, 0, 0, none, none, false, 1, 3⟩,
        ⟨3, -1, 1, 0, none, none, false, 2, 0⟩], []⟩ : EState) 3 = some false) :=
  ⟨by with_unfolding_all decide, isEarHashed_isEar_agree_reflex 50
    (⟨[⟨0, 1, 0, 0, none, none, false, 3, 1⟩,
        ⟨1, 0, 2, 0, none, none, false, 0, 2⟩,
        ⟨2, -3, 0, 0, none, none, false, 1, 3⟩,
        ⟨3, -1, 1, 0, none, none, false, 2, 0⟩], []⟩ : EState) 3 0 0 1
    (by with_unfolding_all decide)⟩

end Earclip
